import Mathlib

/-!
# Varasto: changeset resolver, client chunker / differ, upload pipeline, blob placement

A shallow embedding of the parts of `pkg/stotypes`, `pkg/stateresolver`,
`pkg/varastoclient/push.go` and `pkg/blobstore/localfsblobstore` that the
properties below are about, followed by the properties themselves.

Conventions of the embedding:

* Go strings are `String`, byte slices are `List Byte`, `time.Time` instants are `Int`
  (compared with `Equal`, which is equality of instants), `int64` sizes are `Int`.
* A Go `map[string]File` is an `AList`: a finite map with unique keys.
* A Go function returning `(T, error)` returns `Except E T`.
-/

namespace Varasto

deriving instance DecidableEq for Except

/-! ## pkg/stotypes -/

/-- Instants of Go's `time.Time`. -/
abbrev Time := Int

/-- One octet of a Go byte slice. -/
abbrev Byte := Fin 256

/-- The record `stotypes.File`. -/
structure File where
  Path : String
  Sha256 : String
  Created : Time
  Modified : Time
  Size : Int
  BlobRefs : List String
deriving DecidableEq, Repr

/-- The record `stotypes.CollectionChangeset`. -/
structure CollectionChangeset where
  ID : String
  Parent : String
  Created : Time
  FilesCreated : List File
  FilesUpdated : List File
  FilesDeleted : List String
deriving DecidableEq, Repr

/-- The fields of `stotypes.Collection` that the resolver and the client read. -/
structure Collection where
  ID : String
  Head : String
  Changesets : List CollectionChangeset
deriving DecidableEq, Repr

/-- The constructor `stotypes.NewChangeset`. -/
def NewChangeset (id parent : String) (created : Time) (filesCreated filesUpdated : List File)
    (filesDeleted : List String) : CollectionChangeset :=
  { ID := id, Parent := parent, Created := created, FilesCreated := filesCreated,
    FilesUpdated := filesUpdated, FilesDeleted := filesDeleted }

/-- The method `CollectionChangeset.AnyChanges`. -/
def CollectionChangeset.AnyChanges (c : CollectionChangeset) : Bool :=
  decide (c.FilesCreated.length + c.FilesUpdated.length + c.FilesDeleted.length > 0)

/-- The constant `stotypes.NoParentId`: the empty string denotes the root. -/
def NoParentId : String := ""

/-! ## pkg/stateresolver -/

/-- A Go `map[string]File`. -/
abbrev FileMap := AList (fun _ : String => File)

/-- The record `stateresolver.StateAt`. -/
structure StateAt where
  ChangesetId : String
  files : FileMap
deriving DecidableEq

/-- The error kinds of the resolver. -/
inductive ResolveError where
  | ChangesetNotFound
  | DuplicateCreate
  | UpdateMissingFile
  | DeleteMissingFile
deriving DecidableEq, Repr

/-- Modelled from the spec: the resolver's handling of one `FilesCreated` entry (resolver.go
is not among the sources). "created: path MUST NOT already exist; violation is
DuplicateCreate". -/
def applyCreated (files : FileMap) (f : File) : Except ResolveError FileMap :=
  if f.Path ∈ files then .error .DuplicateCreate else .ok (files.insert f.Path f)

/-- Modelled from the spec: the resolver's handling of one `FilesUpdated` entry (resolver.go
is not among the sources). "updated: path MUST already exist; violation is
UpdateMissingFile". -/
def applyUpdated (files : FileMap) (f : File) : Except ResolveError FileMap :=
  if f.Path ∈ files then .ok (files.insert f.Path f) else .error .UpdateMissingFile

/-- Modelled from the spec: the resolver's handling of one `FilesDeleted` path (resolver.go
is not among the sources). "deleted: path MUST already exist; violation is
DeleteMissingFile". -/
def applyDeleted (files : FileMap) (path : String) : Except ResolveError FileMap :=
  if path ∈ files then .ok (files.erase path) else .error .DeleteMissingFile

/-- Modelled from the spec: the resolver's step over one changeset (resolver.go is not among
the sources): its created, then updated, then deleted entries, each in list order. -/
def applyChangeset (files : FileMap) (ch : CollectionChangeset) : Except ResolveError FileMap := do
  let afterCreated ← ch.FilesCreated.foldlM applyCreated files
  let afterUpdated ← ch.FilesUpdated.foldlM applyUpdated afterCreated
  ch.FilesDeleted.foldlM applyDeleted afterUpdated

/-- Modelled from the spec: the resolver's selection of "exactly the contiguous prefix whose
last element is the target" (resolver.go is not among the sources); `none` when the target is
not in the list. -/
def selectPrefix (target : String) :
    List CollectionChangeset → Option (List CollectionChangeset)
  | [] => none
  | ch :: rest =>
    if ch.ID = target then some [ch]
    else (selectPrefix target rest).map (fun pre => ch :: pre)

/-- Modelled from the spec: `stateresolver.ComputeStateAt` (resolver.go is not among the
sources; its test is). "Walk the changeset list, selecting exactly the contiguous prefix whose
last element is the target; fail with ChangesetNotFound if the target is not in the list. Fold
the prefix in order, applying each changeset's mutations to an initially empty mapping." The
test `TestComputeStateAt` and scenario S1 fix the one case in which a target outside the list is
not an error: the no-parent sentinel resolves to the empty mapping. -/
def ComputeStateAt (c : Collection) (changesetId : String) : Except ResolveError StateAt :=
  match selectPrefix changesetId c.Changesets with
  | some pre =>
    (pre.foldlM applyChangeset (∅ : FileMap)).map
      (fun files => { ChangesetId := changesetId, files := files })
  | none =>
    if changesetId = NoParentId then .ok { ChangesetId := changesetId, files := ∅ }
    else .error .ChangesetNotFound

/-- Modelled from the comment at `computeChangeset`: the method `StateAt.Files` (not among the
sources) hands out a map that the caller may mutate without touching the state ("this will
not be mutated"), so it is a copy of the file map. -/
def StateAt.Files (s : StateAt) : FileMap := s.files

/-- Byte-wise order of Go strings (`sort.Strings`): lexicographic on the characters, which for
UTF-8 is the order of the encoded bytes. -/
def strLE (a b : String) : Prop := a.toList ≤ b.toList

instance : DecidableRel strLE := fun a b => inferInstanceAs (Decidable (a.toList ≤ b.toList))

/-- The test helper `dumpState` of resolver_test.go: one line `<path> (size <n>)` per file,
sorted, each terminated by a newline. -/
def dumpState (coll : Collection) (revId : String) : Option String :=
  match ComputeStateAt coll revId with
  | .error _ => none
  | .ok state =>
    let asList := state.files.entries.map
      (fun e => e.2.Path ++ " (size " ++ toString e.2.Size ++ ")")
    some (String.intercalate "\n" (List.insertionSort strLE asList) ++ "\n")

/-! ### The fold that the resolver is compared with -/

/-- The mutations of one changeset applied without any check: every created entry adds its
path, every updated entry replaces the record at its path, every deleted path is removed. -/
def foldChangeset (files : FileMap) (ch : CollectionChangeset) : FileMap :=
  let afterCreated := ch.FilesCreated.foldl (fun m f => m.insert f.Path f) files
  let afterUpdated := ch.FilesUpdated.foldl (fun m f => m.insert f.Path f) afterCreated
  ch.FilesDeleted.foldl (fun m p => m.erase p) afterUpdated

/-- The fold of a list of changesets, in list order, over an initially empty map. -/
def foldChangesets (chs : List CollectionChangeset) : FileMap :=
  chs.foldl foldChangeset ∅

/-- The changesets from the first one up to and including the first one whose id is `target`
(the whole list when there is none). -/
def upTo (target : String) : List CollectionChangeset → List CollectionChangeset
  | [] => []
  | ch :: rest => if ch.ID = target then [ch] else ch :: upTo target rest

/-- Every created path is new at the moment it is created. -/
def createsFresh : FileMap → List File → Bool
  | _, [] => true
  | m, f :: fs => decide (f.Path ∉ m) && createsFresh (m.insert f.Path f) fs

/-- Every updated path exists at the moment it is updated. -/
def updatesExisting : FileMap → List File → Bool
  | _, [] => true
  | m, f :: fs => decide (f.Path ∈ m) && updatesExisting (m.insert f.Path f) fs

/-- Every deleted path exists at the moment it is deleted. -/
def deletesExisting : FileMap → List String → Bool
  | _, [] => true
  | m, p :: ps => decide (p ∈ m) && deletesExisting (m.erase p) ps

/-- A changeset respects the three preconditions when applied to `files`. -/
def changesetRespects (files : FileMap) (ch : CollectionChangeset) : Bool :=
  let afterCreated := ch.FilesCreated.foldl (fun m f => m.insert f.Path f) files
  let afterUpdated := ch.FilesUpdated.foldl (fun m f => m.insert f.Path f) afterCreated
  createsFresh files ch.FilesCreated && updatesExisting afterCreated ch.FilesUpdated &&
    deletesExisting afterUpdated ch.FilesDeleted

/-- A chain of changesets respects the preconditions when applied, in order, to `files`. -/
def chainRespects : FileMap → List CollectionChangeset → Bool
  | _, [] => true
  | m, ch :: chs => changesetRespects m ch && chainRespects (foldChangeset m ch) chs

/-! ### The collections of `TestComputeStateAt` -/

/-- A file record as the test helpers `creates` and `updates` build it. -/
def testFile (name : String) (size : Int) : File :=
  { Path := name, Sha256 := "", Created := 0, Modified := 0, Size := size, BlobRefs := [] }

/-- The three changesets that `TestComputeStateAt` pushes. -/
def testChangesets : List CollectionChangeset :=
  [ NewChangeset "cs1" NoParentId 0 [testFile "a.txt" 11, testFile "b.txt" 22] [] [],
    NewChangeset "cs2" "cs1" 0 [testFile "c.txt" 33] [testFile "b.txt" 44] [],
    NewChangeset "cs3" "cs2" 0 [] [] ["a.txt"] ]

/-- The collection of `TestComputeStateAt` after its three pushes. -/
def testCollection : Collection :=
  { ID := "coll", Head := "cs3", Changesets := testChangesets }

/-- A collection whose only changeset creates the same path twice. -/
def duplicateCreateCollection : Collection :=
  { ID := "coll", Head := "cs1",
    Changesets := [NewChangeset "cs1" NoParentId 0 [testFile "a.txt" 11, testFile "a.txt" 12] [] []] }

/-! ## Blob references (`stotypes.BlobRef`) and the hex codec -/

/-- The lowercase hex digit of a value below 16 (`encoding/hex`). -/
def hexDigit (n : Nat) : Char :=
  if n < 10 then Char.ofNat (48 + n) else Char.ofNat (87 + n)

/-- The value of a hex digit, either case (`encoding/hex`). -/
def hexValue (c : Char) : Option Nat :=
  if 48 ≤ c.toNat ∧ c.toNat ≤ 57 then some (c.toNat - 48)
  else if 97 ≤ c.toNat ∧ c.toNat ≤ 102 then some (c.toNat - 87)
  else if 65 ≤ c.toNat ∧ c.toNat ≤ 70 then some (c.toNat - 55)
  else none

/-- Two lowercase hex digits per byte, high nibble first. -/
def hexChars : List Byte → List Char
  | [] => []
  | b :: bs => hexDigit (b.val / 16) :: hexDigit (b.val % 16) :: hexChars bs

/-- The function `hex.EncodeToString`, which is also `fmt.Sprintf("%x", bytes)`. -/
def hexEncode (bs : List Byte) : String := String.mk (hexChars bs)

/-- The bytes that a list of hex digits stands for; `none` on an odd length or a character that
is not a hex digit. -/
def unhexChars : List Char → Option (List Byte)
  | [] => some []
  | [_] => none
  | hi :: lo :: rest =>
    match hexValue hi, hexValue lo, unhexChars rest with
    | some h, some l, some bs => some (Fin.ofNat (h * 16 + l) :: bs)
    | _, _, _ => none

/-- The function `hex.DecodeString`. -/
def hexDecode (s : String) : Option (List Byte) := unhexChars s.toList

/-- A Go `[32]byte`: the result type of `sha256.Sum256`. -/
abbrev Digest := { bytes : List Byte // bytes.length = 32 }

/-- The type `stotypes.BlobRef`: a 32-byte digest. -/
structure BlobRef where
  bytes : List Byte
  size_eq : bytes.length = 32
deriving DecidableEq

/-- The errors of the client. -/
inductive ClientError where
  | resolve (e : ResolveError)
  | walk (msg : String)
  | openFile (path : String)
  | invalidBlobRef
  | transport
  | status (code : Nat)
  | seek (offset : Int)
  | digestMismatch
  | saveToDisk
deriving DecidableEq, Repr

/-- Modelled from the spec: `stotypes.BlobRefFromHex` (not among the sources) "fails with
InvalidBlobRef if length ≠ 64 hex chars". -/
def BlobRefFromHex (s : String) : Except ClientError BlobRef :=
  match hexDecode s with
  | some bytes => if h : bytes.length = 32 then .ok ⟨bytes, h⟩ else .error .invalidBlobRef
  | none => .error .invalidBlobRef

/-- Modelled from the spec: `BlobRef.AsHex` (not among the sources), the canonical text form,
lowercase hex. -/
def BlobRef.AsHex (r : BlobRef) : String := hexEncode r.bytes

/-! ## pkg/varastoclient/push.go: the chunker -/

/-- The constant `mebibyte`. -/
def mebibyte : Nat := 1024 * 1024

/-- The constant `blobSize`. -/
def blobSize : Nat := 4 * mebibyte

/-- What the chunker reads of an `os.FileInfo`, with the birth time of `times.Get` when the
file system has one. -/
structure FileInfo where
  Name : String
  IsDir : Bool
  Size : Int
  ModTime : Time
  BirthTime : Option Time
deriving DecidableEq, Repr

/-- The state of the read loop of `analyzeFileForChanges`: the bytes written so far to the
running hash `fullContentHash`, and `bfile.BlobRefs`. -/
structure ChunkState where
  written : List Byte
  BlobRefs : List String
deriving DecidableEq

/-- The read loop of `analyzeFileForChanges`, entered with the file position `pos`: seek to
`pos`, read at most `limit` bytes, stop on an empty chunk, feed the chunk to the running hash,
append the chunk's digest as a blob ref, stop after a short chunk. `Sum256` is
`sha256.Sum256`. The first argument bounds the number of iterations; every iteration but the
last reads `limit` bytes, so the bound `content.length + 1` that `analyzeFileForChanges` passes
is never reached (`chunkLoop_eq`). -/
def chunkLoop (Sum256 : List Byte → Digest) (limit : Nat) (content : List Byte) :
    Nat → Nat → ChunkState → Except ClientError ChunkState
  | 0, _, st => .ok st
  | fuel + 1, pos, st =>
    let chunk := (content.drop pos).take limit
    if chunk.length = 0 then .ok st
    else
      match BlobRefFromHex (hexEncode (Sum256 chunk).val) with
      | .error e => .error e
      | .ok blobRef =>
        let st1 : ChunkState :=
          { written := st.written ++ chunk, BlobRefs := st.BlobRefs ++ [blobRef.AsHex] }
        if chunk.length < limit then .ok st1
        else chunkLoop Sum256 limit content fuel (pos + limit) st1

/-- The function `analyzeFileForChanges`. `opened` is what `os.Open(absolutePath)` gives: an
error, or the bytes of the file. -/
def analyzeFileForChanges (Sum256 : List Byte → Digest) (opened : Except ClientError (List Byte))
    (relativePath : String) (fileInfo : FileInfo) : Except ClientError File :=
  let maybeCreationTime :=
    match fileInfo.BirthTime with
    | some birth => birth
    | none => fileInfo.ModTime
  match opened with
  | .error e => .error e
  | .ok content =>
    match chunkLoop Sum256 blobSize content (content.length + 1) 0
        { written := [], BlobRefs := [] } with
    | .error e => .error e
    | .ok st =>
      .ok { Path := relativePath, Created := maybeCreationTime, Modified := fileInfo.ModTime,
            Size := fileInfo.Size, Sha256 := hexEncode (Sum256 st.written).val,
            BlobRefs := st.BlobRefs }

/-- The `i`-th chunk of a file read in pieces of `limit` bytes. -/
def chunkAt (limit : Nat) (content : List Byte) (i : Nat) : List Byte :=
  (content.drop (i * limit)).take limit

/-- The number of chunks of `n` bytes read in pieces of `limit` bytes: `n / limit` rounded
up. -/
def chunkCount (limit n : Nat) : Nat := (n + limit - 1) / limit

/-- The chunks of a file read in pieces of `limit` bytes, in file order. -/
def chunksOf (limit : Nat) (content : List Byte) : List (List Byte) :=
  (List.range (chunkCount limit content.length)).map (chunkAt limit content)

/-- A stand-in for SHA-256 that only instantiates statements at concrete inputs: 32 copies of
the sum of the bytes. -/
def sumDigest : List Byte → Digest := fun bs => ⟨List.replicate 32 bs.sum, List.length_replicate _ _⟩

/-! ## pkg/varastoclient/push.go: change detection -/

/-- Modelled from the spec: the constant `localStatefile` (declared outside push.go), the name
of the working-directory state file, `.varasto`. -/
def localStatefile : String := ".varasto"

/-- The function `backslashesToForwardSlashes`: `strings.Replace` of every backslash by a
slash. -/
def backslashesToForwardSlashes (s : String) : String :=
  String.mk (s.toList.map (fun c => if c = Char.ofNat 92 then Char.ofNat 47 else c))

/-- One call of the `filepath.Walk` callback: the `err` argument, the `fileInfo` argument, and
what `filepath.Rel(wd.path, path)` gives for the `path` argument. -/
structure WalkEntry where
  err : Option ClientError
  fileInfo : FileInfo
  rel : Except ClientError String
deriving DecidableEq

/-- The variables that the callback of `computeChangeset` mutates: `filesMissing`, `created`
and `updated`; and, as a record of its effects, the relative paths it handed to
`analyzeFileForChanges`, in call order. -/
structure WalkState where
  filesMissing : FileMap
  created : List File
  updated : List File
  chunked : List String
deriving DecidableEq

/-- The working-directory manifest: the revision the directory was cloned at and the collection
snapshot. -/
structure Manifest where
  ChangesetId : String
  Collection : Collection
deriving DecidableEq

/-- The fields of `workdirLocation` that `computeChangeset` reads. -/
structure workdirLocation where
  path : String
  manifest : Manifest
deriving DecidableEq

/-- The callback that `computeChangeset` passes to `filepath.Walk`. `readFile p` is what opening
`wd.Join(p)` gives. -/
def walkFn (Sum256 : List Byte → Digest) (readFile : String → Except ClientError (List Byte))
    (filesAtParent : FileMap) (st : WalkState) (e : WalkEntry) : Except ClientError WalkState :=
  match e.err with
  | some err => .error err
  | none =>
    if e.fileInfo.IsDir then .ok st
    else if e.fileInfo.Name = localStatefile then .ok st
    else
      match e.rel with
      | .error errRel => .error errRel
      | .ok rel =>
        let relativePath := backslashesToForwardSlashes rel
        let filesMissing := st.filesMissing.erase relativePath
        match filesAtParent.lookup relativePath with
        | some before =>
          let definitelyChanged := before.Size ≠ e.fileInfo.Size
          let maybeChanged := ¬ before.Modified = e.fileInfo.ModTime
          if definitelyChanged ∨ maybeChanged then
            match analyzeFileForChanges Sum256 (readFile relativePath) relativePath e.fileInfo with
            | .error err => .error err
            | .ok fil =>
              if before.Sha256 ≠ fil.Sha256 then
                .ok { filesMissing := filesMissing, created := st.created,
                      updated := st.updated ++ [fil], chunked := st.chunked ++ [relativePath] }
              else
                .ok { filesMissing := filesMissing, created := st.created,
                      updated := st.updated, chunked := st.chunked ++ [relativePath] }
          else
            .ok { filesMissing := filesMissing, created := st.created,
                  updated := st.updated, chunked := st.chunked }
        | none =>
          match analyzeFileForChanges Sum256 (readFile relativePath) relativePath e.fileInfo with
          | .error err => .error err
          | .ok fil =>
            .ok { filesMissing := filesMissing, created := st.created ++ [fil],
                  updated := st.updated, chunked := st.chunked ++ [relativePath] }

/-- The function `computeChangeset` together with the record of the files it chunked.
`filepath.Walk` calls the callback on the entries of `walk` in order and stops at the first
error; `newId` is `NewCollectionChangesetId()` and `now` is `time.Now()`. -/
def computeChangesetTraced (Sum256 : List Byte → Digest) (newId : String) (now : Time)
    (wd : workdirLocation) (walk : List WalkEntry)
    (readFile : String → Except ClientError (List Byte)) :
    Except ClientError (CollectionChangeset × List String) :=
  match ComputeStateAt wd.manifest.Collection wd.manifest.Collection.Head with
  | .error e => .error (.resolve e)
  | .ok parentState =>
    let filesMissing := parentState.Files
    let filesAtParent := parentState.Files
    match walk.foldlM (walkFn Sum256 readFile filesAtParent)
        { filesMissing := filesMissing, created := [], updated := [], chunked := [] } with
    | .error errWalk => .error errWalk
    | .ok st =>
      let deleted := List.insertionSort strLE st.filesMissing.keys
      .ok (NewChangeset newId wd.manifest.ChangesetId now st.created st.updated deleted,
           st.chunked)

/-- The function `computeChangeset`. -/
def computeChangeset (Sum256 : List Byte → Digest) (newId : String) (now : Time)
    (wd : workdirLocation) (walk : List WalkEntry)
    (readFile : String → Except ClientError (List Byte)) : Except ClientError CollectionChangeset :=
  (computeChangesetTraced Sum256 newId now wd walk readFile).map Prod.fst

/-! ### What the walk classifies -/

/-- A regular file that the callback classifies: its normalised relative path and its
`fileInfo`. -/
structure Visit where
  relativePath : String
  fileInfo : FileInfo
deriving DecidableEq

/-- The visit that a walk entry stands for: `none` for a directory, for a file whose name is
`localStatefile`, and for an entry on which the callback returns an error. -/
def WalkEntry.visit (e : WalkEntry) : Option Visit :=
  match e.err, e.rel with
  | none, .ok rel =>
    if e.fileInfo.IsDir then none
    else if e.fileInfo.Name = localStatefile then none
    else some { relativePath := backslashesToForwardSlashes rel, fileInfo := e.fileInfo }
  | _, _ => none

/-- The regular files that a walk classifies, in walk order. -/
def visits (walk : List WalkEntry) : List Visit := walk.filterMap WalkEntry.visit

/-- The size or the modification time of the visited file differs from the parent's. -/
def Visit.changedSince (v : Visit) (before : File) : Bool :=
  decide (before.Size ≠ v.fileInfo.Size ∨ before.Modified ≠ v.fileInfo.ModTime)

/-- The record that chunking the visited file gives. -/
def Visit.analysis (Sum256 : List Byte → Digest)
    (readFile : String → Except ClientError (List Byte)) (v : Visit) : Except ClientError File :=
  analyzeFileForChanges Sum256 (readFile v.relativePath) v.relativePath v.fileInfo

/-- The visited file is absent from the parent state. -/
def Visit.isNew (parent : FileMap) (v : Visit) : Bool :=
  (parent.lookup v.relativePath).isNone

/-- The visited file is chunked: it is absent from the parent state, or its size or
modification time differs from the parent's. -/
def Visit.isChunked (parent : FileMap) (v : Visit) : Bool :=
  match parent.lookup v.relativePath with
  | none => true
  | some before => v.changedSince before

/-- The record of a visited file that counts as created: the file is absent from the parent
state. -/
def Visit.createdRecord (Sum256 : List Byte → Digest)
    (readFile : String → Except ClientError (List Byte)) (parent : FileMap) (v : Visit) :
    Option File :=
  if v.isNew parent then (v.analysis Sum256 readFile).toOption else none

/-- The record of a visited file that counts as updated: the path exists in the parent state,
the size or the modification time differs from the parent's, and the fresh SHA-256 differs from
the parent's. -/
def Visit.updatedRecord (Sum256 : List Byte → Digest)
    (readFile : String → Except ClientError (List Byte)) (parent : FileMap) (v : Visit) :
    Option File :=
  match parent.lookup v.relativePath with
  | none => none
  | some before =>
    if v.changedSince before then
      match v.analysis Sum256 readFile with
      | .ok fil => if before.Sha256 ≠ fil.Sha256 then some fil else none
      | .error _ => none
    else none

/-- The effect of one classified visit on the variables of the walk. -/
def WalkState.after (Sum256 : List Byte → Digest)
    (readFile : String → Except ClientError (List Byte)) (parent : FileMap) (st : WalkState)
    (v : Visit) : WalkState :=
  { filesMissing := st.filesMissing.erase v.relativePath,
    created := st.created ++ (v.createdRecord Sum256 readFile parent).toList,
    updated := st.updated ++ (v.updatedRecord Sum256 readFile parent).toList,
    chunked := st.chunked ++ (if v.isChunked parent then [v.relativePath] else []) }

/-- A regular file that the walk hands to the callback without an error, whatever its name:
its normalised relative path and its `fileInfo`. -/
def WalkEntry.regularFile (e : WalkEntry) : Option Visit :=
  match e.err, e.rel with
  | none, .ok rel =>
    if e.fileInfo.IsDir then none
    else some { relativePath := backslashesToForwardSlashes rel, fileInfo := e.fileInfo }
  | _, _ => none

/-- The regular files of a walk, in walk order, the ones named `localStatefile` included. -/
def regularFiles (walk : List WalkEntry) : List Visit := walk.filterMap WalkEntry.regularFile

/-! ## pkg/varastoclient/push.go: the upload pipeline -/

/-- What an HTTP round trip ends in: no response at all, or a response with a status code. -/
inductive HttpOutcome where
  | transportFailure
  | response (statusCode : Nat)
deriving DecidableEq, Repr

/-- The requests that the client sends; the URL of a blob request is built from the hex form of
the blob ref. -/
inductive Request where
  | head (blobRef : BlobRef)
  | postBlob (blobRef : BlobRef) (collectionId : String) (body : List Byte)
  | postChangeset (collectionId : String) (changeset : CollectionChangeset)
deriving DecidableEq

/-- A request together with what it ended in. -/
structure Exchange where
  request : Request
  outcome : HttpOutcome
deriving DecidableEq

/-- The server as the client meets it: what a request ends in, given the exchanges so far. -/
abbrev Network := List Exchange → Request → HttpOutcome

/-- The pair `(resp, err)` that the functions of the library `ezhttp` (gokit, outside the
repository) return: on a transport failure `resp` is nil and `err` is set; on a response,
`resp` is set, and `err` is set exactly when the status is outside 200..299. The first
component is the status code of `resp`. -/
def ezhttpResult (outcome : HttpOutcome) : Option Nat × Option ClientError :=
  match outcome with
  | .transportFailure => (none, some .transport)
  | .response statusCode =>
    if 200 ≤ statusCode ∧ statusCode ≤ 299 then (some statusCode, none)
    else (some statusCode, some (.status statusCode))

/-- The constant `http.StatusNotFound`. -/
def StatusNotFound : Nat := 404

/-- The function `blobExists`: a HEAD request for the blob; the exchange is appended to the
exchanges so far. -/
def blobExists (net : Network) (trace : List Exchange) (blobRef : BlobRef) :
    Except ClientError Bool × List Exchange :=
  let request := Request.head blobRef
  let outcome := net trace request
  let trace1 := trace ++ [{ request := request, outcome := outcome }]
  let resp := (ezhttpResult outcome).1
  let err := (ezhttpResult outcome).2
  if err ≠ none ∧ resp ≠ none ∧ resp = some StatusNotFound then (.ok false, trace1)
  else
    match err with
    | some e => (.error e, trace1)
    | none => (.ok true, trace1)

/-- A value of Go's `int` of the given width: two's complement wrap-around. -/
def goInt (bits : Nat) (n : Int) : Int :=
  (n + 2 ^ (bits - 1)) % 2 ^ bits - 2 ^ (bits - 1)

/-- The loop of `uploadChunks` over `bfile.BlobRefs`, at index `blobIdx`. `content` is the
opened file, `intBits` the width of `int`. A negative offset makes `Seek` fail; the body of the
POST passes through `BlobHashVerifier`, modelled from the spec (it is not among the sources):
the read fails when the digest of the bytes is not the blob ref. -/
def uploadChunksLoop (Sum256 : List Byte → Digest) (intBits : Nat) (net : Network)
    (content : List Byte) (collectionId : String) :
    List String → Nat → List Exchange → Except ClientError Unit × List Exchange
  | [], _, trace => (.ok (), trace)
  | brHex :: rest, blobIdx, trace =>
    match BlobRefFromHex brHex with
    | .error e => (.error e, trace)
    | .ok blobRef =>
      match blobExists net trace blobRef with
      | (.error e, trace1) => (.error e, trace1)
      | (.ok true, trace1) =>
        uploadChunksLoop Sum256 intBits net content collectionId rest (blobIdx + 1) trace1
      | (.ok false, trace1) =>
        let offset := goInt intBits ((blobIdx : Int) * (blobSize : Int))
        if offset < 0 then (.error (.seek offset), trace1)
        else
          let chunk := (content.drop offset.toNat).take blobSize
          let request := Request.postBlob blobRef collectionId chunk
          let outcome := net trace1 request
          let trace2 := trace1 ++ [{ request := request, outcome := outcome }]
          if hexEncode (Sum256 chunk).val ≠ blobRef.AsHex then (.error .digestMismatch, trace2)
          else
            match (ezhttpResult outcome).2 with
            | some e => (.error e, trace2)
            | none =>
              uploadChunksLoop Sum256 intBits net content collectionId rest (blobIdx + 1) trace2

/-- The function `uploadChunks`. `opened` is what `os.Open(path)` gives. -/
def uploadChunks (Sum256 : List Byte → Digest) (intBits : Nat) (net : Network)
    (opened : Except ClientError (List Byte)) (bfile : File) (collection : Collection)
    (trace : List Exchange) : Except ClientError Unit × List Exchange :=
  match opened with
  | .error e => (.error e, trace)
  | .ok content =>
    uploadChunksLoop Sum256 intBits net content collection.ID bfile.BlobRefs 0 trace

/-- The function `uploadChangeset`. `reply` is the collection that the response body decodes
to. -/
def uploadChangeset (net : Network) (reply : Collection) (changeset : CollectionChangeset)
    (collection : Collection) (trace : List Exchange) :
    Except ClientError Collection × List Exchange :=
  let request := Request.postChangeset collection.ID changeset
  let outcome := net trace request
  let trace1 := trace ++ [{ request := request, outcome := outcome }]
  match (ezhttpResult outcome).2 with
  | some e => (.error e, trace1)
  | none => (.ok reply, trace1)

/-- The two upload loops of `push`: `uploadChunks` for every file of a list, stopping at the
first error. `reopen p` is what opening `wd.Join(p)` gives at upload time. -/
def uploadFiles (Sum256 : List Byte → Digest) (intBits : Nat) (net : Network)
    (reopen : String → Except ClientError (List Byte)) (collection : Collection) :
    List File → List Exchange → Except ClientError Unit × List Exchange
  | [], trace => (.ok (), trace)
  | bfile :: rest, trace =>
    match uploadChunks Sum256 intBits net (reopen bfile.Path) bfile collection trace with
    | (.error e, trace1) => (.error e, trace1)
    | (.ok (), trace1) => uploadFiles Sum256 intBits net reopen collection rest trace1

/-- The function `push`: the new state of the working directory, or an error, and the exchanges
with the server. `saveToDisk` is `wd.SaveToDisk`. -/
def push (Sum256 : List Byte → Digest) (intBits : Nat) (net : Network) (newId : String)
    (now : Time) (wd : workdirLocation) (walk : List WalkEntry)
    (readFile reopen : String → Except ClientError (List Byte)) (reply : Collection)
    (saveToDisk : workdirLocation → Option ClientError) :
    Except ClientError workdirLocation × List Exchange :=
  match computeChangeset Sum256 newId now wd walk readFile with
  | .error e => (.error e, [])
  | .ok ch =>
    if !ch.AnyChanges then (.ok wd, [])
    else
      match uploadFiles Sum256 intBits net reopen wd.manifest.Collection ch.FilesCreated [] with
      | (.error e, trace1) => (.error e, trace1)
      | (.ok (), trace1) =>
        match uploadFiles Sum256 intBits net reopen wd.manifest.Collection ch.FilesUpdated
            trace1 with
        | (.error e, trace2) => (.error e, trace2)
        | (.ok (), trace2) =>
          match uploadChangeset net reply ch wd.manifest.Collection trace2 with
          | (.error e, trace3) => (.error e, trace3)
          | (.ok updatedCollection, trace3) =>
            let wd1 : workdirLocation :=
              { path := wd.path,
                manifest := { ChangesetId := updatedCollection.Head,
                              Collection := updatedCollection } }
            match saveToDisk wd1 with
            | some e => (.error e, trace3)
            | none => (.ok wd1, trace3)

/-- The blob refs probed by a sequence of exchanges, in order. -/
def probed (exchanges : List Exchange) : List BlobRef :=
  exchanges.filterMap (fun x =>
    match x.request with
    | .head blobRef => some blobRef
    | _ => none)

/-- The blob refs whose probe was answered with 404 ("absent"), in order. -/
def answeredAbsent (exchanges : List Exchange) : List BlobRef :=
  exchanges.filterMap (fun x =>
    match x.request with
    | .head blobRef => if x.outcome = .response StatusNotFound then some blobRef else none
    | _ => none)

/-- The blob refs for which a POST was issued, in order. -/
def posted (exchanges : List Exchange) : List BlobRef :=
  exchanges.filterMap (fun x =>
    match x.request with
    | .postBlob blobRef _ _ => some blobRef
    | _ => none)

/-- Every POST among the exchanges `sent` of the loop of `uploadChunks`, begun at index
`blobIdx` over the blob refs `refs`, is the POST of an index of the loop: the POST that follows
the probe number `i + 1` is for `refs[i]`, and its body is what a read of at most `blobSize`
bytes gives after a seek to the offset `(blobIdx + i) * blobSize`, computed in `int`, which
was not negative. -/
def postsReadAt (intBits : Nat) (content : List Byte) (collectionId : String)
    (refs : List String) (blobIdx : Nat) (sent : List Exchange) : Prop :=
  ∀ (before : List Exchange) (x : Exchange) (after : List Exchange) (blobRef : BlobRef)
    (c : String) (body : List Byte),
    sent = before ++ x :: after → x.request = .postBlob blobRef c body →
    ∃ i hex, (probed before).length = i + 1 ∧ refs[i]? = some hex ∧
      BlobRefFromHex hex = .ok blobRef ∧ c = collectionId ∧
      0 ≤ goInt intBits (((blobIdx + i : Nat) : Int) * (blobSize : Int)) ∧
      body = (content.drop
        (goInt intBits (((blobIdx + i : Nat) : Int) * (blobSize : Int))).toNat).take blobSize

/-- A server on which every blob already exists and which accepts everything. -/
def allPresent : Network := fun _ _ => .response 200

/-- A server that holds no blob at first, keeps every blob posted to it and accepts
everything. -/
def storing : Network := fun trace request =>
  match request with
  | .head blobRef => if blobRef ∈ posted trace then .response 200 else .response 404
  | _ => .response 200

/-! ### Sample working directories -/

/-- The `fileInfo` of a regular file. -/
def regularInfo (name : String) (size : Int) (modTime : Time) : FileInfo :=
  { Name := name, IsDir := false, Size := size, ModTime := modTime, BirthTime := none }

/-- The walk entry of a regular file that `filepath.Walk` reports without an error. -/
def fileEntry (rel name : String) (size : Int) (modTime : Time) : WalkEntry :=
  { err := none, fileInfo := regularInfo name size modTime, rel := .ok rel }

/-- The walk entry of a directory. -/
def dirEntry (rel name : String) : WalkEntry :=
  { err := none, rel := .ok rel,
    fileInfo := { Name := name, IsDir := true, Size := 0, ModTime := 0, BirthTime := none } }

/-- A parent record: path, digest, modification time and size. -/
def parentFile (path sha : String) (modified : Time) (size : Int) : File :=
  { Path := path, Sha256 := sha, Created := modified, Modified := modified, Size := size,
    BlobRefs := [] }

/-- A collection whose head holds `a.txt`, `b.txt`, `c.txt` and `t.txt`; the digest recorded
for `t.txt` is the one of the one-byte content `7`. -/
def sampleCollection : Collection :=
  { ID := "coll", Head := "cs1",
    Changesets := [NewChangeset "cs1" NoParentId 0
      [parentFile "a.txt" "digest-a" 10 3, parentFile "b.txt" "digest-b" 10 3,
       parentFile "c.txt" "digest-c" 10 3,
       parentFile "t.txt" (hexEncode (sumDigest [7]).val) 10 1] [] []] }

/-- A working directory of `sampleCollection` at its head. -/
def sampleWorkdir : workdirLocation :=
  { path := "/wd", manifest := { ChangesetId := "cs1", Collection := sampleCollection } }

/-- The walk of the sample working directory: the root, the state file, `a.txt` untouched,
`b.txt` rewritten, `t.txt` touched but with the old content, a new `sub/d.txt`; `c.txt` is
gone. -/
def sampleWalk : List WalkEntry :=
  [ dirEntry "." "wd", fileEntry ".varasto" ".varasto" 120 50, fileEntry "a.txt" "a.txt" 3 10,
    fileEntry "b.txt" "b.txt" 4 20, dirEntry "sub" "sub", fileEntry "sub/d.txt" "d.txt" 2 30,
    fileEntry "t.txt" "t.txt" 1 99 ]

/-- The contents of the files of the sample working directory. -/
def sampleReadFile (path : String) : Except ClientError (List Byte) :=
  if path = "b.txt" then .ok [1, 2, 3, 4]
  else if path = "t.txt" then .ok [7]
  else if path = "sub/d.txt" then .ok [5, 6]
  else .error (.openFile path)

/-- The record that chunking a file of the sample working directory gives. -/
def sampleRecord (path : String) (content : List Byte) (modTime : Time) : File :=
  { Path := path, Sha256 := hexEncode (sumDigest content).val, Created := modTime,
    Modified := modTime, Size := content.length,
    BlobRefs := [hexEncode (sumDigest content).val] }

/-- A collection whose head holds a file named like the state file, in a subdirectory. -/
def nestedStateCollection : Collection :=
  { ID := "coll", Head := "cs1",
    Changesets := [NewChangeset "cs1" NoParentId 0 [parentFile "sub/.varasto" "digest-old" 10 1]
      [] []] }

/-- A working directory of `nestedStateCollection` at its head. -/
def nestedStateWorkdir : workdirLocation :=
  { path := "/wd", manifest := { ChangesetId := "cs1", Collection := nestedStateCollection } }

/-- A working directory of a new, empty collection. -/
def emptyWorkdir : workdirLocation :=
  { path := "/wd",
    manifest := { ChangesetId := NoParentId,
                  Collection := { ID := "coll", Head := NoParentId, Changesets := [] } } }

/-- A walk that meets the state file in the root and a rewritten file of the same name in a
subdirectory. -/
def nestedStateWalk : List WalkEntry :=
  [ dirEntry "." "wd", fileEntry ".varasto" ".varasto" 120 50, dirEntry "sub" "sub",
    fileEntry "sub/.varasto" ".varasto" 2 20 ]

/-- The contents of the files under `nestedStateWalk`. -/
def nestedStateReadFile (path : String) : Except ClientError (List Byte) :=
  if path = "sub/.varasto" then .ok [1, 2] else .error (.openFile path)

/-- The file map at the head of `sampleCollection`. -/
def sampleParent : FileMap := foldChangesets sampleCollection.Changesets

/-- The file map at the head of `nestedStateCollection`. -/
def nestedStateParent : FileMap := foldChangesets nestedStateCollection.Changesets

/-- The visited file is the working-directory state file itself: the file `.varasto` directly in
the root of the working directory. -/
def Visit.isStateFile (v : Visit) : Bool := decide (v.relativePath = localStatefile)

instance : IsTotal String strLE := ⟨fun a b => le_total a.toList b.toList⟩

instance : IsTrans String strLE := ⟨fun _ _ _ hab hbc => le_trans hab hbc⟩

/-- The blob ref of the four-byte sample content. -/
def sampleBlobRef : BlobRef :=
  { bytes := (sumDigest [1, 2, 3, 4]).val, size_eq := (sumDigest [1, 2, 3, 4]).property }

/-! ## pkg/blobstore/localfsblobstore -/

/-- The digit of a value below 32 in the alphabet `0-9a-v` that the test vector of `TestPath`
is written in. -/
def base32Digit (n : Nat) : Char :=
  if n < 10 then Char.ofNat (48 + n) else Char.ofNat (87 + n)

/-- The eight bits of a byte, most significant first. -/
def byteBits (b : Byte) : List Bool :=
  (List.range 8).map (fun i => decide (b.val / 2 ^ (7 - i) % 2 = 1))

/-- The base32 digits of a bit string: groups of five bits, the last one padded with zero
bits; `acc` holds the `count` bits of the group being read. -/
def base32Groups : List Bool → Nat → Nat → List Char
  | [], _, 0 => []
  | [], acc, count + 1 => [base32Digit (acc * 2 ^ (5 - (count + 1)))]
  | bit :: bits, acc, count =>
    let acc1 := acc * 2 + (if bit then 1 else 0)
    if count + 1 = 5 then base32Digit acc1 :: base32Groups bits 0 0
    else base32Groups bits acc1 (count + 1)

/-- Modelled from the spec: the base32 form of a blob ref (the method is not among the
sources), "lowercase, no padding", of the 32 bytes; the test vector of `TestPath` fixes the
alphabet. -/
def BlobRef.AsBase32 (r : BlobRef) : List Char :=
  base32Groups (r.bytes.flatMap byteBits) 0 0

/-- Modelled from the spec: the placement path of the local-filesystem driver (localfs.go is
not among the sources; its test is), `path_for(r) == root + "/" + r.base32[0] + "/" +
r.base32[1..3] + "/" + r.base32[3..]`. -/
def path_for (root : String) (blobRef : BlobRef) : String :=
  root ++ "/" ++ String.mk (blobRef.AsBase32.take 1) ++ "/" ++
    String.mk ((blobRef.AsBase32.drop 1).take 2) ++ "/" ++ String.mk (blobRef.AsBase32.drop 3)

/-- The blob ref of `TestPath`. -/
def testPathDigest : List Byte :=
  [0xd7, 0xa8, 0xfb, 0xb3, 0x07, 0xd7, 0x80, 0x94, 0x69, 0xca, 0x9a, 0xbc, 0xb0, 0x08, 0x2e, 0x4f,
   0x8d, 0x56, 0x51, 0xe4, 0x6d, 0x3c, 0xdb, 0x76, 0x2d, 0x02, 0xd0, 0xbf, 0x37, 0xc9, 0xe5, 0x92]

/-- The blob ref of `TestPath`. -/
def testPathRef : BlobRef := { bytes := testPathDigest, size_eq := by decide }

/-- The test `TestPath` of localfs_test.go, run on a method `getPath` that is given as a
function of the root of the driver and of the blob ref: the driver has the root `/tmp/`, the
blob ref is read from its hex form, and both assertions hold. -/
def TestPath (getPath : String → BlobRef → String) : Bool :=
  match BlobRefFromHex "d7a8fbb307d7809469ca9abcb0082e4f8d5651e46d3cdb762d02d0bf37c9e592" with
  | .error _ => false
  | .ok blobRef =>
    decide (getPath "/tmp/" blobRef =
      "/tmp/q/uk/fnco7qu098qeajaub021e9u6lckf4dkudmthd0b8budu9sm90")

/-- A collection with two changesets: `cs1` creates `a.txt`, `cs2` creates `b.txt`. -/
def twoRevisionCollection : Collection :=
  { ID := "coll", Head := "cs2",
    Changesets := [NewChangeset "cs1" NoParentId 0 [parentFile "a.txt" "digest-a" 10 3] [] [],
                   NewChangeset "cs2" "cs1" 0 [parentFile "b.txt" "digest-b" 10 3] [] []] }

/-- A working directory cloned at the older revision `cs1` of `twoRevisionCollection`: the
manifest names `cs1`, the collection snapshot has the head `cs2`. -/
def staleWorkdir : workdirLocation :=
  { path := "/wd", manifest := { ChangesetId := "cs1", Collection := twoRevisionCollection } }

/-- The walk of `staleWorkdir` right after the clone: the state file and `a.txt`, untouched. -/
def staleWalk : List WalkEntry :=
  [ dirEntry "." "wd", fileEntry ".varasto" ".varasto" 120 50, fileEntry "a.txt" "a.txt" 3 10 ]

/-! ## pkg/blorm/indices.go -/

/-- A key of the key/value store: a byte slice, ordered byte-wise (`bytes.Compare`). -/
abbrev Key := List Byte

/-- A bucket of the store as a cursor sees it: its keys in ascending order. -/
structure Bucket where
  keys : List Key
  sorted : keys.Sorted (· < ·)

/-- A read transaction of the store (`bolt.Tx`, outside the repository) as the index queries
use it: the top-level bucket of a name, if it exists, and in it the nested bucket of a value,
if it exists. -/
abbrev Tx := String → Option (Key → Option Bucket)

/-- What a query callback returns besides nil: the sentinel `StopIteration`, or another
error. -/
inductive QueryError where
  | StopIteration
  | other (msg : String)
deriving DecidableEq, Repr

/-- The variable `StartFromFirst`. -/
def StartFromFirst : Key := []

/-- The function `indexBucketRefForQuery`, on the name and the value of the index ref. -/
def indexBucketRefForQuery (indexName : String) (val : Key) (tx : Tx) : Option Bucket :=
  match tx indexName with
  | none => none
  | some lvl1 => lvl1 val

/-- The cursor method `First`: all keys. -/
def cursorFirst (bucket : Bucket) : List Key := bucket.keys

/-- The cursor method `Seek`: the keys from the first one that is not below `start`. -/
def cursorSeek (bucket : Bucket) (start : Key) : List Key :=
  bucket.keys.dropWhile (fun key => decide (key < start))

/-- The loop of `indexQueryShared` over the keys that the cursor still has to yield. `fn` is
the callback; it may keep state, so it sees the keys it was called on before. The result is the
error returned and the keys the callback was called on. -/
def queryLoop (fn : List Key → Key → Option QueryError) :
    List Key → List Key → Option QueryError × List Key
  | [], called => (none, called)
  | key :: rest, called =>
    match fn called key with
    | none => queryLoop fn rest (called ++ [key])
    | some .StopIteration => (none, called ++ [key])
    | some err => (some err, called ++ [key])

/-- The function `indexQueryShared`: the error returned and the keys the callback was called
on, in call order. -/
def indexQueryShared (indexName : String) (value start : Key)
    (fn : List Key → Key → Option QueryError) (tx : Tx) : Option QueryError × List Key :=
  match indexBucketRefForQuery indexName value tx with
  | none => (none, [])
  | some bucket =>
    let keys := if start = StartFromFirst then cursorFirst bucket else cursorSeek bucket start
    queryLoop fn keys []

/-- The method `setIndex.Query`. -/
def setIndexQuery (name : String) (start : Key) (fn : List Key → Key → Option QueryError)
    (tx : Tx) : Option QueryError × List Key :=
  indexQueryShared name [32] start fn tx

/-- The method `byValueIndex.Query`. -/
def byValueIndexQuery (name : String) (value start : Key)
    (fn : List Key → Key → Option QueryError) (tx : Tx) : Option QueryError × List Key :=
  indexQueryShared name value start fn tx

/-- A transaction with the one index `blobs:pending`, whose bucket for the value `" "` holds
the keys `1`, `2`, `3`. -/
def sampleTx : Tx := fun name =>
  if name = "blobs:pending" then
    some (fun val => if val = [32] then some { keys := [[1], [2], [3]], sorted := by decide }
      else none)
  else none

/-- A callback that stops at the key `2`. -/
def stopAtTwo : List Key → Key → Option QueryError :=
  fun _ key => if key = [2] then some .StopIteration else none

/-! ## pkg/stoserver/stointegrityverifier/controller.go -/

/-- The fields of `stotypes.Blob` that the integrity verifier reads. `Volumes` is a slice of
`int`, `SizeOnDisk` an `int32`. -/
structure Blob where
  Ref : BlobRef
  Volumes : List Int
  SizeOnDisk : Int
deriving DecidableEq

/-- The record `stotypes.IntegrityVerificationJob`. `LastCompletedBlobRef` is a byte slice;
before the first blob it is empty. `BytesScanned` is a `uint64`. -/
structure IntegrityVerificationJob where
  ID : String
  Started : Time
  Completed : Time
  VolumeId : Int
  LastCompletedBlobRef : Key
  BytesScanned : Nat
  ErrorsFound : Int
  Report : String
deriving DecidableEq

/-- The errors of the integrity verifier: the two that it makes itself, "job is already
running" and "maximum errors detected", and the errors of the database, which it passes on. -/
inductive ScrubError where
  | jobAlreadyRunning
  | maximumErrorsDetected
  | db (msg : String)
deriving DecidableEq, Repr

/-- The constant `errorReportMaxLength`. -/
def errorReportMaxLength : Nat := 20 * 1024

/-- The state of the `Controller` that its supervisor loop owns: `runningJobIds`, here with the
job that was handed to the worker in place of the cancel function of that worker; the ids of
the jobs whose cancel function was called; and the job repository behind `loadJob`. -/
structure Controller where
  runningJobIds : AList (fun _ : String => IntegrityVerificationJob)
  cancelled : List String
  loadJob : String → Except String IntegrityVerificationJob

/-- The method `resumeJob`: the error returned and the controller afterwards. Starting the
worker goroutine is the entry in `runningJobIds`. -/
def Controller.resumeJob (s : Controller) (jobId : String) : Option ScrubError × Controller :=
  if jobId ∈ s.runningJobIds then (some .jobAlreadyRunning, s)
  else
    match s.loadJob jobId with
    | .error msg => (some (.db msg), s)
    | .ok job => (none, { s with runningJobIds := s.runningJobIds.insert jobId job })

/-- The messages that the supervisor loop of `run` selects on: the context is done, or a job id
arrives on `stop`, `stopped` or `resume`, or a request on `opListRunningJobIds`. -/
inductive Message where
  | done
  | stop (jobId : String)
  | stopped (jobId : String)
  | resume (jobId : String)
  | listRunningJobIds
deriving DecidableEq

/-- The closure `handleStopped` of `run`. -/
def Controller.handleStopped (c : Controller) (jobId : String) : Controller :=
  { c with runningJobIds := c.runningJobIds.erase jobId }

/-- The wait of `run` after the context is done: job ids are taken off `stopped` while jobs are
running. -/
def Controller.drain (c : Controller) : List String → Controller
  | [] => c
  | jobId :: rest =>
    if c.runningJobIds.keys.length > 0 then (c.handleStopped jobId).drain rest else c

/-- The method `run` on the messages that arrive, in the order in which the loop selects them:
the controller when the loop returns or the messages run out, and the answers to the list
requests. -/
def Controller.run (c : Controller) : List Message → Controller × List (List String)
  | [] => (c, [])
  | .done :: rest =>
    (c.drain (rest.filterMap (fun msg =>
      match msg with
      | .stopped jobId => some jobId
      | _ => none)), [])
  | .stop jobId :: rest =>
    if jobId ∈ c.runningJobIds then
      Controller.run { c with cancelled := c.cancelled ++ [jobId] } rest
    else Controller.run c rest
  | .stopped jobId :: rest => Controller.run (c.handleStopped jobId) rest
  | .resume jobId :: rest => Controller.run (c.resumeJob jobId).2 rest
  | .listRunningJobIds :: rest =>
    let (c1, answers) := Controller.run c rest
    (c1, c.runningJobIds.keys :: answers)

/-- What the worker does to the world, in order: it fetches a batch from a cursor, reaches a
blob, writes the job status (successfully or not), polls the cancellation signal, scrubs a
blob (with what the scrub returned). -/
inductive WorkerEvent where
  | fetch (cursor : Key)
  | reach (blob : Blob)
  | persist (job : IntegrityVerificationJob) (ok : Bool)
  | poll (cancelled : Bool)
  | scrub (blob : Blob) (bytesScanned : Int) (err : Option String)
deriving DecidableEq

/-- The world of a worker; every answer may depend on what the worker did so far. `clock` is
`time.Now()` in nanoseconds, `cancelled` says whether `ctx.Done()` is ready, `dbUpdate` is the
error of `s.db.Update`, `beginTx` is `s.db.Begin(false)` with the blob records of the read
transaction in key order (an error stands for a failing `Begin` or a failing scan), `scrub` is
`s.diskAccess.Scrub`. -/
structure WorkerEnv where
  clock : List WorkerEvent → Time
  cancelled : List WorkerEvent → Bool
  dbUpdate : List WorkerEvent → Option String
  beginTx : List WorkerEvent → Except String (List Blob)
  scrub : List WorkerEvent → Blob → Int → Int × Option String

/-- The variables of `resumeJobWorker`: the job, `lastStatusUpdate`, and the record of what the
worker did. -/
structure WorkerState where
  job : IntegrityVerificationJob
  lastStatusUpdate : Time
  events : List WorkerEvent
deriving DecidableEq

/-- The callback of `nextBlobsForJob` run over the records that the scan yields: append the
record, stop once `limit` blobs are collected. -/
def collectBlobs (limit : Nat) : List Blob → List Blob → List Blob
  | [], blobs => blobs
  | record :: rest, blobs =>
    let blobs1 := blobs ++ [record]
    if blobs1.length ≥ limit then blobs1 else collectBlobs limit rest blobs1

/-- Modelled from the spec: the scan `EachFrom` of the blob repository (blorm's repository is
not among the sources), "the primary-key ordered scan" from a key; the comment at the call says
that the start is inclusive. -/
def eachFrom (records : List Blob) (start : Key) : List Blob :=
  records.dropWhile (fun blob => decide (blob.Ref.bytes < start))

/-- The method `nextBlobsForJob`. `tx` is what `s.db.Begin(false)` gives. -/
def nextBlobsForJob (tx : Except String (List Blob)) (lastCompletedBlobRef : Key)
    (limit : Nat) : Except ScrubError (List Blob) :=
  match tx with
  | .error msg => .error (.db msg)
  | .ok records => .ok (collectBlobs limit (eachFrom records lastCompletedBlobRef) [])

/-- The statement `n++` on an `int`, which has 64 bits on the platforms of the server. -/
def increment (n : Int) : Int := goInt 64 (n + 1)

/-- The text that `pushErr` appends when the report is over its maximum length. -/
def abortText : String := "maximum errors detected; aborting job"

/-- The summary line that the worker appends on completion. -/
def summaryLine (errorsFound : Int) : String :=
  "Completed with " ++ toString errorsFound ++ " error(s)\n"

/-- The closure `pushErr` of `resumeJobWorker`: the job afterwards and the error returned. -/
def pushErr (job : IntegrityVerificationJob) (reportLine : String) :
    IntegrityVerificationJob × Option ScrubError :=
  let job1 := { job with
    ErrorsFound := increment job.ErrorsFound, Report := job.Report ++ reportLine }
  if job1.Report.utf8ByteSize > errorReportMaxLength then
    ({ job1 with Report := job1.Report ++ abortText },
      some .maximumErrorsDetected)
  else (job1, none)

/-- Five seconds, in nanoseconds. -/
def fiveSeconds : Int := 5 * 1000000000

/-- The report line of a scrub error. -/
def scrubErrorLine (blob : Blob) (err : String) : String :=
  "blob " ++ blob.Ref.AsHex ++ ": " ++ err ++ "\n"

/-- The report line of a size mismatch. -/
def sizeMismatchLine (blob : Blob) (bytesScanned : Int) : String :=
  "blob " ++ blob.Ref.AsHex ++ " size mismatch; expected=" ++ toString blob.SizeOnDisk ++
    " got=" ++ toString bytesScanned ++ "\n"

/-- The statement `job.BytesScanned += uint64(blob.SizeOnDisk)`, on the value of the field. -/
def addScanned (bytesScanned : Nat) (blob : Blob) : Nat :=
  (bytesScanned + (blob.SizeOnDisk % 2 ^ 64).toNat) % 2 ^ 64

/-- The part of the loop body of `resumeJobWorker` after the status update: the volume check,
the scrub and the two checks of its result. `some r` in the result means that the worker
returns `r`. -/
def scrubBlob (env : WorkerEnv) (st : WorkerState) (blob : Blob) :
    WorkerState × Option (Option ScrubError) :=
  if ¬ st.job.VolumeId ∈ blob.Volumes then (st, none)
  else
    let result := env.scrub st.events blob st.job.VolumeId
    let bytesScanned := result.1
    let st1 : WorkerState :=
      { st with events := st.events ++ [.scrub blob bytesScanned result.2] }
    let afterScrubErr : IntegrityVerificationJob × Option ScrubError :=
      match result.2 with
      | some err => pushErr st1.job (scrubErrorLine blob err)
      | none => (st1.job, none)
    match afterScrubErr with
    | (job1, some err) => ({ st1 with job := job1 }, some (some err))
    | (job1, none) =>
      let afterMismatch : IntegrityVerificationJob × Option ScrubError :=
        if goInt 32 bytesScanned ≠ blob.SizeOnDisk then
          pushErr job1 (sizeMismatchLine blob bytesScanned)
        else (job1, none)
      match afterMismatch with
      | (job2, some err) => ({ st1 with job := job2 }, some (some err))
      | (job2, none) =>
        ({ st1 with job := { job2 with BytesScanned := addScanned job2.BytesScanned blob } },
          none)

/-- The loop body of `resumeJobWorker` for one blob of a batch. -/
def verifyBlob (env : WorkerEnv) (st : WorkerState) (blob : Blob) :
    WorkerState × Option (Option ScrubError) :=
  let st1 : WorkerState :=
    { st with job := { st.job with LastCompletedBlobRef := blob.Ref.bytes },
              events := st.events ++ [.reach blob] }
  if env.clock st1.events - st1.lastStatusUpdate ≥ fiveSeconds then
    let updateErr := env.dbUpdate st1.events
    let st2 : WorkerState :=
      { st1 with events := st1.events ++ [.persist st1.job updateErr.isNone] }
    match updateErr with
    | some msg => (st2, some (some (.db msg)))
    | none =>
      let st3 : WorkerState := { st2 with lastStatusUpdate := env.clock st2.events }
      let isDone := env.cancelled st3.events
      let st4 : WorkerState := { st3 with events := st3.events ++ [.poll isDone] }
      if isDone then (st4, some none) else scrubBlob env st4 blob
  else scrubBlob env st1 blob

/-- The inner loop of `resumeJobWorker` over the blobs of a batch. -/
def verifyBatch (env : WorkerEnv) : List Blob → WorkerState →
    WorkerState × Option (Option ScrubError)
  | [], st => (st, none)
  | blob :: rest, st =>
    match verifyBlob env st blob with
    | (st1, some returned) => (st1, some returned)
    | (st1, none) => verifyBatch env rest st1

/-- The statements of `resumeJobWorker` after its loop: the job is completed. -/
def completeJob (env : WorkerEnv) (st : WorkerState) : WorkerState :=
  { st with job := { st.job with
      Completed := env.clock st.events,
      Report := st.job.Report ++ summaryLine st.job.ErrorsFound } }

/-- The outer loop of `resumeJobWorker`. The first argument bounds the number of batches;
`none` means that the bound was reached before the loop ended. -/
def batchLoop (env : WorkerEnv) (batchLimit : Nat) :
    Nat → WorkerState → Option (WorkerState × Option ScrubError)
  | 0, _ => none
  | fuel + 1, st =>
    let st0 : WorkerState :=
      { st with events := st.events ++ [.fetch st.job.LastCompletedBlobRef] }
    match nextBlobsForJob (env.beginTx st.events) st.job.LastCompletedBlobRef batchLimit with
    | .error err => some (st0, some err)
    | .ok blobBatch =>
      if blobBatch.length = 0 then some (completeJob env st0, none)
      else
        match verifyBatch env blobBatch st0 with
        | (st1, some returned) => some (st1, returned)
        | (st1, none) =>
          if blobBatch.length < batchLimit then some (completeJob env st1, none)
          else batchLoop env batchLimit fuel st1

/-- The method `resumeJobWorker` with the batch size as a parameter: the final state and the
error returned, or `none` when more than `fuel` batches would be needed. The deferred status
update is the last event. -/
def resumeJobWorkerWith (batchLimit : Nat) (env : WorkerEnv) (fuel : Nat)
    (job : IntegrityVerificationJob) : Option (WorkerState × Option ScrubError) :=
  match batchLoop env batchLimit fuel
      { job := job, lastStatusUpdate := env.clock [], events := [] } with
  | none => none
  | some (st, returned) =>
    some ({ st with events := st.events ++ [.persist st.job (env.dbUpdate st.events).isNone] },
      returned)

/-- The local variable `batchLimit` of `resumeJobWorker`. -/
def batchLimit : Nat := 1000

/-- The method `resumeJobWorker`. -/
def resumeJobWorker (env : WorkerEnv) (fuel : Nat) (job : IntegrityVerificationJob) :
    Option (WorkerState × Option ScrubError) :=
  resumeJobWorkerWith batchLimit env fuel job

/-- The blobs that a run reached, in order. -/
def reachedBlobs (events : List WorkerEvent) : List Blob :=
  events.filterMap (fun ev =>
    match ev with
    | .reach blob => some blob
    | _ => none)

/-- The blobs that a run scrubbed, in order. -/
def scrubbedBlobs (events : List WorkerEvent) : List Blob :=
  events.filterMap (fun ev =>
    match ev with
    | .scrub blob _ _ => some blob
    | _ => none)

/-- The cursors that a run fetched from, in order. -/
def fetchedCursors (events : List WorkerEvent) : List Key :=
  events.filterMap (fun ev =>
    match ev with
    | .fetch cursor => some cursor
    | _ => none)

/-- The report lines that the worker makes of what a scrub returned: one for an error, one
for a size mismatch. -/
def reportLines (blob : Blob) (bytesScanned : Int) (err : Option String) : List String :=
  (match err with
    | some msg => [scrubErrorLine blob msg]
    | none => []) ++
  (if goInt 32 bytesScanned ≠ blob.SizeOnDisk then [sizeMismatchLine blob bytesScanned] else [])

/-- Report lines one after the other, as one text. -/
def joinLines : List String → String
  | [] => ""
  | line :: rest => line ++ joinLines rest

/-- The report lines of all scrubs of a run, in order. -/
def linesOf : List WorkerEvent → List String
  | [] => []
  | .scrub blob bytesScanned err :: rest => reportLines blob bytesScanned err ++ linesOf rest
  | _ :: rest => linesOf rest

/-- The cursor of a job after a run: the ref of the last blob reached, and the cursor that the
job came with when no blob was reached. -/
def cursorAfter (job : IntegrityVerificationJob) (events : List WorkerEvent) : Key :=
  match (reachedBlobs events).getLast? with
  | some blob => blob.Ref.bytes
  | none => job.LastCompletedBlobRef

/-- The state of a worker follows from the job that it was given and from what it did: the
cursor is at the last blob reached, there is one increment of `ErrorsFound` and one line of
the report for each report line of the scrubs, in order, every scrubbed blob is counted in
`BytesScanned`, the other fields are as they were, and no line has made the report longer
than its maximum length. -/
def WorkerState.tracks (st : WorkerState) (job : IntegrityVerificationJob) : Prop :=
  st.job.ID = job.ID ∧ st.job.Started = job.Started ∧ st.job.Completed = job.Completed ∧
  st.job.VolumeId = job.VolumeId ∧
  st.job.LastCompletedBlobRef = cursorAfter job st.events ∧
  st.job.BytesScanned = (scrubbedBlobs st.events).foldl addScanned job.BytesScanned ∧
  st.job.ErrorsFound = increment^[(linesOf st.events).length] job.ErrorsFound ∧
  st.job.Report = job.Report ++ joinLines (linesOf st.events) ∧
  (linesOf st.events ≠ [] →
    (job.Report ++ joinLines (linesOf st.events)).utf8ByteSize ≤ errorReportMaxLength)

/-- The state of a worker that stops because the report is over its maximum length: the report
ends with the text about it, before which it is longer than the maximum; the cursor is at the
last blob reached; `Completed` and the other fields are as they were. -/
def WorkerState.aborted (st : WorkerState) (job : IntegrityVerificationJob) : Prop :=
  st.job.ID = job.ID ∧ st.job.Started = job.Started ∧ st.job.Completed = job.Completed ∧
  st.job.VolumeId = job.VolumeId ∧
  st.job.LastCompletedBlobRef = cursorAfter job st.events ∧
  ∃ before, st.job.Report = before ++ abortText ∧ errorReportMaxLength < before.utf8ByteSize

/-- The state of a worker between two blobs: it follows from what the worker did, the
cancellation signal was not seen, and every blob reached that is on the volume of the job was
scrubbed. -/
def WorkerState.settled (st : WorkerState) (job : IntegrityVerificationJob) : Prop :=
  st.tracks job ∧ WorkerEvent.poll true ∉ st.events ∧
  scrubbedBlobs st.events =
    (reachedBlobs st.events).filter (fun blob => decide (job.VolumeId ∈ blob.Volumes))

/-- The three ways in which the worker returns from inside its loop, with the state in each:
the report is over its maximum length; the database fails; the cancellation signal is seen,
right after a status update. -/
def bodyReturn (job : IntegrityVerificationJob) (st : WorkerState)
    (returned : Option ScrubError) : Prop :=
  (returned = some .maximumErrorsDetected ∧ st.aborted job ∧
    WorkerEvent.poll true ∉ st.events) ∨
  ((∃ msg, returned = some (.db msg)) ∧ st.tracks job ∧ WorkerEvent.poll true ∉ st.events) ∨
  (returned = none ∧ st.tracks job ∧
    ∃ before, st.events = before ++ [.persist st.job true, .poll true] ∧
      WorkerEvent.poll true ∉ before)

/-- The four ways in which the loop of the worker is left: the three returns from inside it,
and the completion of the job. -/
def loopExit (env : WorkerEnv) (job : IntegrityVerificationJob) (st : WorkerState)
    (returned : Option ScrubError) : Prop :=
  bodyReturn job st returned ∨
  (returned = none ∧ ∃ st1 : WorkerState, st1.settled job ∧ st = completeJob env st1)

/-- A job record as `loadJob` gives it for a job that has not run yet. -/
def newJob (jobId : String) (volumeId : Int) : IntegrityVerificationJob :=
  { ID := jobId, Started := 0, Completed := 0, VolumeId := volumeId,
    LastCompletedBlobRef := [], BytesScanned := 0, ErrorsFound := 0, Report := "" }

/-- The blob ref whose 32 bytes are all `b`. -/
def blobRefOf (b : Byte) : BlobRef :=
  { bytes := List.replicate 32 b, size_eq := List.length_replicate 32 b }

/-- A blob record with the ref `blobRefOf b`. -/
def sampleBlob (b : Byte) (volumes : List Int) (sizeOnDisk : Int) : Blob :=
  { Ref := blobRefOf b, Volumes := volumes, SizeOnDisk := sizeOnDisk }

/-- A world in which the clock stands still, so that no status update falls due, over an
unchanging blob repository. -/
def stillEnv (records : List Blob) (cancelled : Bool)
    (scrub : Blob → Int × Option String) : WorkerEnv :=
  { clock := fun _ => 1000,
    cancelled := fun _ => cancelled,
    dbUpdate := fun _ => none,
    beginTx := fun _ => .ok records,
    scrub := fun _ blob _ => scrub blob }

/-- A scrub that finds every blob as recorded. -/
def cleanScrub (blob : Blob) : Int × Option String := (blob.SizeOnDisk, none)

/-- A scrub that fails to read the blob: nothing was scanned and an error is returned. -/
def failingScrub (_ : Blob) : Int × Option String := (0, some "read error")

/-- A world in which a status update is due at every blob, over an unchanging blob
repository; the cancellation signal is on from the start. -/
def cancelledEnv (records : List Blob) : WorkerEnv :=
  { clock := fun events => 10000000000 * events.length,
    cancelled := fun _ => true,
    dbUpdate := fun _ => none,
    beginTx := fun _ => .ok records,
    scrub := fun _ blob _ => cleanScrub blob }

/-- A report of exactly the maximum length. -/
def fullReport : String := String.mk (List.replicate errorReportMaxLength (Char.ofNat 120))

/-- A job on volume 1 that is resumed with a report of exactly the maximum length. -/
def fullJob : IntegrityVerificationJob := { newJob "job1" 1 with Report := fullReport }

/-- A repository of three blobs in key order: two on volume 1, then one on volume 2. -/
def threeBlobs : List Blob :=
  [sampleBlob 1 [1] 10, sampleBlob 2 [1] 20, sampleBlob 3 [2] 30]

/-- A world without cancellation in which a status update is due at every blob and fails,
over an unchanging blob repository. -/
def failingDbEnv (records : List Blob) : WorkerEnv :=
  { clock := fun events => 10000000000 * events.length,
    cancelled := fun _ => false,
    dbUpdate := fun _ => some "disk full",
    beginTx := fun _ => .ok records,
    scrub := fun _ blob _ => cleanScrub blob }

/-- The blob ref whose first two bytes are `n` in base 256 and whose other bytes are zero. -/
def numberedRef (n : Nat) : BlobRef :=
  { bytes := Fin.ofNat (n / 256) :: Fin.ofNat (n % 256) :: List.replicate 30 0,
    size_eq := by simp }

/-- A blob record of 10 bytes on volume 1 with the ref `numberedRef n`. -/
def numberedBlob (n : Nat) : Blob := { Ref := numberedRef n, Volumes := [1], SizeOnDisk := 10 }

/-- A repository of 1000 blobs on volume 1, in key order. -/
def thousandBlobs : List Blob := (List.range' 0 1000).map numberedBlob

/-- A controller that runs job1 on volume 1; the repository also holds job2 on volume 1 and
job3 on volume 2. -/
def sampleController : Controller :=
  { runningJobIds := (∅ : AList (fun _ : String => IntegrityVerificationJob)).insert "job1"
      (newJob "job1" 1),
    cancelled := [],
    loadJob := fun jobId =>
      if jobId = "job1" then .ok (newJob "job1" 1)
      else if jobId = "job2" then .ok (newJob "job2" 1)
      else if jobId = "job3" then .ok (newJob "job3" 2)
      else .error "record not found" }

/-! ## Properties of the resolver -/

theorem foldlM_applyCreated (fs : List File) (m : FileMap) (h : createsFresh m fs = true) :
    fs.foldlM applyCreated m = .ok (fs.foldl (fun m f => m.insert f.Path f) m) := by
  induction fs generalizing m with
  | nil => rfl
  | cons f fs ih =>
    simp only [createsFresh, Bool.and_eq_true, decide_eq_true_eq] at h
    rw [List.foldlM_cons, List.foldl_cons]
    have h1 : applyCreated m f = .ok (m.insert f.Path f) := by
      unfold applyCreated
      rw [if_neg h.1]
    rw [h1]
    exact ih _ h.2

theorem foldlM_applyUpdated (fs : List File) (m : FileMap) (h : updatesExisting m fs = true) :
    fs.foldlM applyUpdated m = .ok (fs.foldl (fun m f => m.insert f.Path f) m) := by
  induction fs generalizing m with
  | nil => rfl
  | cons f fs ih =>
    simp only [updatesExisting, Bool.and_eq_true, decide_eq_true_eq] at h
    rw [List.foldlM_cons, List.foldl_cons]
    have h1 : applyUpdated m f = .ok (m.insert f.Path f) := by
      unfold applyUpdated
      rw [if_pos h.1]
    rw [h1]
    exact ih _ h.2

theorem foldlM_applyDeleted (ps : List String) (m : FileMap) (h : deletesExisting m ps = true) :
    ps.foldlM applyDeleted m = .ok (ps.foldl (fun m p => m.erase p) m) := by
  induction ps generalizing m with
  | nil => rfl
  | cons p ps ih =>
    simp only [deletesExisting, Bool.and_eq_true, decide_eq_true_eq] at h
    rw [List.foldlM_cons, List.foldl_cons]
    have h1 : applyDeleted m p = .ok (m.erase p) := by
      unfold applyDeleted
      rw [if_pos h.1]
    rw [h1]
    exact ih _ h.2

theorem applyChangeset_eq_fold (m : FileMap) (ch : CollectionChangeset)
    (h : changesetRespects m ch = true) : applyChangeset m ch = .ok (foldChangeset m ch) := by
  simp only [changesetRespects, Bool.and_eq_true] at h
  obtain ⟨⟨hc, hu⟩, hd⟩ := h
  unfold applyChangeset foldChangeset
  rw [foldlM_applyCreated _ _ hc]
  show (List.foldlM applyUpdated _ ch.FilesUpdated >>= fun afterUpdated =>
    List.foldlM applyDeleted afterUpdated ch.FilesDeleted) = _
  rw [foldlM_applyUpdated _ _ hu]
  exact foldlM_applyDeleted _ _ hd

theorem foldlM_applyChangeset (chs : List CollectionChangeset) (m : FileMap)
    (h : chainRespects m chs = true) :
    chs.foldlM applyChangeset m = .ok (chs.foldl foldChangeset m) := by
  induction chs generalizing m with
  | nil => rfl
  | cons ch chs ih =>
    simp only [chainRespects, Bool.and_eq_true] at h
    rw [List.foldlM_cons, List.foldl_cons, applyChangeset_eq_fold m ch h.1]
    exact ih _ h.2

theorem selectPrefix_of_mem (target : String) (chs : List CollectionChangeset)
    (h : target ∈ chs.map (fun ch => ch.ID)) : selectPrefix target chs = some (upTo target chs) := by
  induction chs with
  | nil => simp at h
  | cons ch chs ih =>
    unfold selectPrefix upTo
    by_cases hid : ch.ID = target
    · rw [if_pos hid, if_pos hid]
    · rw [if_neg hid, if_neg hid]
      have hmem : target ∈ chs.map (fun ch => ch.ID) := by
        simp only [List.map_cons, List.mem_cons] at h
        rcases h with h | h
        · exact absurd h.symm hid
        · exact h
      rw [ih hmem]
      rfl

/-- C1, counterexample: the id `cs1` occurs in the changeset list, yet `ComputeStateAt` does not
succeed: the changeset creates `a.txt` twice and the resolver answers `DuplicateCreate`. -/
theorem ComputeStateAt_fails_on_duplicate_create :
    "cs1" ∈ duplicateCreateCollection.Changesets.map (fun ch => ch.ID) ∧
      ComputeStateAt duplicateCreateCollection "cs1" = .error .DuplicateCreate := by
  decide

/-- C1, amended: for every collection and every changeset id that occurs in its changeset list,
if the changesets from the first one up to and including the one with that id respect the
resolver's preconditions (a created path is new, an updated or deleted path exists), then
`ComputeStateAt` succeeds and its file map is the fold, in list order, of those changesets over
an initially empty map: created entries add their path, updated entries replace the record at
their path, deleted paths are removed. -/
theorem ComputeStateAt_eq_fold (c : Collection) (changesetId : String)
    (hid : changesetId ∈ c.Changesets.map (fun ch => ch.ID))
    (hok : chainRespects ∅ (upTo changesetId c.Changesets) = true) :
    ComputeStateAt c changesetId =
      .ok { ChangesetId := changesetId, files := foldChangesets (upTo changesetId c.Changesets) } := by
  unfold ComputeStateAt
  rw [selectPrefix_of_mem _ _ hid]
  show Except.map _ (List.foldlM applyChangeset ∅ (upTo changesetId c.Changesets)) = _
  rw [foldlM_applyChangeset _ _ hok]
  rfl

/-- C1, witness: the collection of `TestComputeStateAt`. The state at head `cs3` is
`b.txt (44), c.txt (33)` and the state at `cs2` is `a.txt (11), b.txt (44), c.txt (33)`. -/
theorem ComputeStateAt_eq_fold_witness :
    (ComputeStateAt testCollection "cs3" =
        .ok { ChangesetId := "cs3", files := foldChangesets (upTo "cs3" testCollection.Changesets) } ∧
      ComputeStateAt testCollection "cs2" =
        .ok { ChangesetId := "cs2", files := foldChangesets (upTo "cs2" testCollection.Changesets) }) ∧
    dumpState testCollection "cs3" = some "b.txt (size 44)\nc.txt (size 33)\n" ∧
    dumpState testCollection "cs2" = some "a.txt (size 11)\nb.txt (size 44)\nc.txt (size 33)\n" :=
  ⟨⟨ComputeStateAt_eq_fold testCollection "cs3" (by decide) (by decide),
    ComputeStateAt_eq_fold testCollection "cs2" (by decide) (by decide)⟩, by decide, by decide⟩


/-! ## Properties of the hex codec and of blob references -/

theorem hexValue_hexDigit : ∀ n, n < 16 → hexValue (hexDigit n) = some n := by decide

theorem unhexChars_hexChars (bs : List Byte) : unhexChars (hexChars bs) = some bs := by
  induction bs with
  | nil => rfl
  | cons b bs ih =>
    have hb := b.isLt
    have hhi : hexValue (hexDigit (b.val / 16)) = some (b.val / 16) :=
      hexValue_hexDigit _ (by omega)
    have hlo : hexValue (hexDigit (b.val % 16)) = some (b.val % 16) :=
      hexValue_hexDigit _ (by omega)
    have hback : (Fin.ofNat (b.val / 16 * 16 + b.val % 16) : Fin 256) = b := by
      apply Fin.ext
      show (b.val / 16 * 16 + b.val % 16) % 256 = b.val
      omega
    simp only [hexChars, unhexChars, hhi, hlo, ih, hback]

theorem BlobRefFromHex_hexEncode (d : Digest) :
    BlobRefFromHex (hexEncode d.val) = .ok ⟨d.val, d.property⟩ := by
  have hdec : hexDecode (hexEncode d.val) = some d.val := unhexChars_hexChars d.val
  unfold BlobRefFromHex
  rw [hdec]
  exact dif_pos d.property

/-! ## Properties of the chunker -/

theorem lt_chunkCount_iff (limit n j : Nat) (hl : 0 < limit) :
    j < chunkCount limit n ↔ j * limit < n := by
  unfold chunkCount
  rw [Nat.lt_iff_add_one_le, Nat.le_div_iff_mul_le hl, Nat.add_mul]
  omega

theorem chunkCount_le (limit n : Nat) (hl : 0 < limit) : chunkCount limit n ≤ n := by
  have h : ¬ n < chunkCount limit n := by
    rw [lt_chunkCount_iff _ _ _ hl]
    have := Nat.le_mul_of_pos_right n hl
    omega
  omega

theorem chunkLoop_eq (Sum256 : List Byte → Digest) (limit : Nat) (hl : 0 < limit)
    (content : List Byte) :
    ∀ (m j fuel : Nat) (st : ChunkState), chunkCount limit content.length - j = m →
      j ≤ chunkCount limit content.length → m < fuel →
      chunkLoop Sum256 limit content fuel (j * limit) st =
        .ok { written := st.written ++ content.drop (j * limit),
              BlobRefs := st.BlobRefs ++
                (List.range' j m).map
                  (fun i => hexEncode (Sum256 (chunkAt limit content i)).val) } := by
  intro m
  induction m with
  | zero =>
    intro j fuel st hm hj hfuel
    have hjk : ¬ j < chunkCount limit content.length := by omega
    rw [lt_chunkCount_iff _ _ _ hl] at hjk
    have hdrop : content.drop (j * limit) = [] := List.drop_eq_nil_of_le (by omega)
    cases fuel with
    | zero => omega
    | succ fuel =>
      rw [chunkLoop]
      simp [hdrop]
  | succ m ih =>
    intro j fuel st hm hj hfuel
    have hjk : j < chunkCount limit content.length := by omega
    have hpos := (lt_chunkCount_iff _ _ _ hl).1 hjk
    have hlen : ((content.drop (j * limit)).take limit).length =
        min limit (content.length - j * limit) := by
      simp only [List.length_take, List.length_drop]
    have hne : ¬ ((content.drop (j * limit)).take limit).length = 0 := by omega
    cases fuel with
    | zero => omega
    | succ fuel =>
      rw [chunkLoop]
      simp only [hne, if_false, BlobRefFromHex_hexEncode, BlobRef.AsHex]
      by_cases hshort : ((content.drop (j * limit)).take limit).length < limit
      · have hlast : ¬ (j + 1) < chunkCount limit content.length := by
          rw [lt_chunkCount_iff _ _ _ hl, Nat.add_mul]
          omega
        have hm1 : m = 0 := by omega
        have htake : (content.drop (j * limit)).take limit = content.drop (j * limit) :=
          List.take_of_length_le (by simp only [List.length_drop]; omega)
        subst hm1
        rw [if_pos hshort]
        simp [htake, chunkAt]
      · have hnext : (j + 1) * limit = j * limit + limit := by rw [Nat.add_mul, Nat.one_mul]
        have hle : j + 1 ≤ chunkCount limit content.length := hjk
        have ih1 := ih (j + 1) fuel
          { written := st.written ++ (content.drop (j * limit)).take limit,
            BlobRefs := st.BlobRefs ++
              [hexEncode (Sum256 ((content.drop (j * limit)).take limit)).val] }
          (by omega) hle (by omega)
        rw [hnext] at ih1
        rw [if_neg hshort, ih1]
        have hsplit : (content.drop (j * limit)).take limit ++ content.drop (j * limit + limit) =
            content.drop (j * limit) := by
          rw [← List.drop_drop]
          exact List.take_append_drop _ _
        simp only [List.append_assoc, hsplit, chunkAt, List.range'_succ, List.map_cons,
          List.singleton_append]

theorem blobSize_pos : 0 < blobSize := by
  unfold blobSize mebibyte
  norm_num

theorem analyzeFileForChanges_ok (Sum256 : List Byte → Digest) (content : List Byte)
    (relativePath : String) (fileInfo : FileInfo) :
    analyzeFileForChanges Sum256 (.ok content) relativePath fileInfo =
      .ok { Path := relativePath,
            Created := (match fileInfo.BirthTime with
              | some birth => birth
              | none => fileInfo.ModTime),
            Modified := fileInfo.ModTime,
            Size := fileInfo.Size,
            Sha256 := hexEncode (Sum256 content).val,
            BlobRefs := (chunksOf blobSize content).map (fun c => hexEncode (Sum256 c).val) } := by
  have hpos := blobSize_pos
  unfold analyzeFileForChanges
  generalize blobSize = limit at hpos ⊢
  have hloop := chunkLoop_eq Sum256 limit hpos content
    (chunkCount limit content.length) 0 (content.length + 1) { written := [], BlobRefs := [] }
    (Nat.sub_zero _) (Nat.zero_le _) (Nat.lt_succ_of_le (chunkCount_le limit _ hpos))
  rw [Nat.zero_mul, ← List.range_eq_range'] at hloop
  simp only [hloop]
  have hwritten : ([] : List Byte) ++ List.drop 0 content = content := rfl
  have hrefs : ([] : List String) ++
      List.map (fun i => hexEncode (Sum256 (chunkAt limit content i)).val)
        (List.range (chunkCount limit content.length)) =
      List.map (fun c => hexEncode (Sum256 c).val) (chunksOf limit content) := by
    rw [chunksOf, List.map_map, List.nil_append]
    rfl
  rw [hwritten, hrefs]

theorem length_chunkAt (limit : Nat) (content : List Byte) (i : Nat) :
    (chunkAt limit content i).length = min limit (content.length - i * limit) := by
  simp only [chunkAt, List.length_take, List.length_drop]

theorem flatten_chunks_take (limit : Nat) (content : List Byte) (k : Nat) :
    ((List.range k).map (chunkAt limit content)).flatten = content.take (k * limit) := by
  induction k with
  | zero => simp
  | succ k ih =>
    rw [List.range_succ, List.map_append, List.flatten_append, ih, Nat.add_mul, Nat.one_mul,
      List.take_add]
    simp [chunkAt]

theorem flatten_chunksOf (limit : Nat) (hl : 0 < limit) (content : List Byte) :
    (chunksOf limit content).flatten = content := by
  unfold chunksOf
  rw [flatten_chunks_take]
  have hk : ¬ chunkCount limit content.length < chunkCount limit content.length :=
    Nat.lt_irrefl _
  rw [lt_chunkCount_iff _ _ _ hl] at hk
  exact List.take_of_length_le (by omega)

theorem length_chunksOf (limit : Nat) (content : List Byte) :
    (chunksOf limit content).length = chunkCount limit content.length := by
  simp [chunksOf]

/-- C2: for every file content of `n` bytes, `analyzeFileForChanges` returns a record with
exactly `ceil (n / 4194304)` blob refs (none for an empty file), the `i`-th being the digest of
the `i`-th chunk; every chunk except the last has exactly 4 MiB, the last has between 1 and
4194304 bytes, and when `n` is an exact multiple of 4 MiB there are `n / 4194304` refs, so no
zero-length trailing chunk is emitted. -/
theorem analyzeFileForChanges_blobRef_count (Sum256 : List Byte → Digest) (content : List Byte)
    (relativePath : String) (fileInfo : FileInfo) :
    ∃ file, analyzeFileForChanges Sum256 (.ok content) relativePath fileInfo = .ok file ∧
      file.BlobRefs.length = (content.length + 4194304 - 1) / 4194304 ∧
      (content = [] → file.BlobRefs = []) ∧
      file.BlobRefs = (List.range file.BlobRefs.length).map
        (fun i => hexEncode (Sum256 (chunkAt 4194304 content i)).val) ∧
      (∀ i, i + 1 < file.BlobRefs.length → (chunkAt 4194304 content i).length = 4194304) ∧
      (∀ i, i + 1 = file.BlobRefs.length →
        1 ≤ (chunkAt 4194304 content i).length ∧ (chunkAt 4194304 content i).length ≤ 4194304) ∧
      (content.length % 4194304 = 0 → file.BlobRefs.length = content.length / 4194304) := by
  refine ⟨_, analyzeFileForChanges_ok Sum256 content relativePath fileInfo, ?_⟩
  have hbs : blobSize = 4194304 := by decide
  have hlen : ((chunksOf blobSize content).map (fun c => hexEncode (Sum256 c).val)).length =
      (content.length + 4194304 - 1) / 4194304 := by
    rw [List.length_map, length_chunksOf, hbs]
    rfl
  simp only [hlen]
  refine ⟨trivial, ?_, ?_, ?_, ?_, ?_⟩
  · intro hnil
    subst hnil
    rfl
  · rw [hbs]
    simp only [chunksOf, chunkCount, List.map_map]
    rfl
  · intro i hi
    rw [length_chunkAt]
    omega
  · intro i hi
    rw [length_chunkAt]
    omega
  · intro hmul
    omega

/-- C2, witness: a file of 8 MiB gives 2 blob refs; a file of 8 MiB + 1 byte gives 3 blob refs,
the last one covering 1 byte. -/
theorem analyzeFileForChanges_blobRef_count_witness :
    (∃ file, analyzeFileForChanges sumDigest (.ok (List.replicate 8388608 0)) "f"
        ⟨"f", false, 8388608, 0, none⟩ = .ok file ∧ file.BlobRefs.length = 2) ∧
    (∃ file, analyzeFileForChanges sumDigest (.ok (List.replicate 8388609 0)) "f"
        ⟨"f", false, 8388609, 0, none⟩ = .ok file ∧ file.BlobRefs.length = 3 ∧
        (chunkAt 4194304 (List.replicate 8388609 0) 2).length = 1) := by
  constructor
  · obtain ⟨file, hfile, hlen, -⟩ := analyzeFileForChanges_blobRef_count sumDigest
      (List.replicate 8388608 0) "f" ⟨"f", false, 8388608, 0, none⟩
    rw [List.length_replicate] at hlen
    exact ⟨file, hfile, hlen⟩
  · obtain ⟨file, hfile, hlen, -, -, -, hlast, -⟩ := analyzeFileForChanges_blobRef_count
      sumDigest (List.replicate 8388609 0) "f" ⟨"f", false, 8388609, 0, none⟩
    rw [List.length_replicate] at hlen
    have hl := hlast 2 (by rw [hlen])
    rw [length_chunkAt, List.length_replicate] at hl ⊢
    exact ⟨file, hfile, hlen, by omega⟩

/-- C3: for every file, the record returned by `analyzeFileForChanges` satisfies: the `i`-th
blob ref is the lowercase hex SHA-256 of the `i`-th chunk (the list of blob refs is the list of
chunks with each chunk replaced by the hex of its digest), the chunks concatenated in blob-ref
order are the file's content, `Sha256` is the lowercase hex SHA-256 of that concatenation, and
the chunk lengths add up to `Size` (when `fileInfo.Size()` is the content length). -/
theorem analyzeFileForChanges_digests (Sum256 : List Byte → Digest) (content : List Byte)
    (relativePath : String) (fileInfo : FileInfo) (hsize : fileInfo.Size = content.length) :
    ∃ file chunks, analyzeFileForChanges Sum256 (.ok content) relativePath fileInfo = .ok file ∧
      chunks = chunksOf blobSize content ∧
      file.BlobRefs = chunks.map (fun chunk => hexEncode (Sum256 chunk).val) ∧
      chunks.flatten = content ∧
      file.Sha256 = hexEncode (Sum256 chunks.flatten).val ∧
      ((chunks.map List.length).sum : Int) = file.Size := by
  have hpos := blobSize_pos
  have hok := analyzeFileForChanges_ok Sum256 content relativePath fileInfo
  generalize blobSize = limit at hpos hok ⊢
  refine ⟨_, chunksOf limit content, hok, rfl, rfl, ?_, ?_, ?_⟩
  · exact flatten_chunksOf limit hpos content
  · rw [flatten_chunksOf limit hpos content]
  · have hsum : ((chunksOf limit content).map List.length).sum = content.length := by
      rw [← List.length_flatten, flatten_chunksOf limit hpos content]
    rw [hsum]
    exact hsize.symm

/-- C3, witness: a three-byte file whose `fileInfo` reports three bytes. -/
theorem analyzeFileForChanges_digests_witness :
    ∃ file chunks, analyzeFileForChanges sumDigest (.ok [1, 2, 3]) "a.txt"
        ⟨"a.txt", false, 3, 0, none⟩ = .ok file ∧
      chunks = chunksOf blobSize [1, 2, 3] ∧
      file.BlobRefs = chunks.map (fun chunk => hexEncode (sumDigest chunk).val) ∧
      chunks.flatten = [1, 2, 3] ∧
      file.Sha256 = hexEncode (sumDigest chunks.flatten).val ∧
      ((chunks.map List.length).sum : Int) = file.Size :=
  analyzeFileForChanges_digests sumDigest [1, 2, 3] "a.txt" ⟨"a.txt", false, 3, 0, none⟩ rfl

/-! ## Properties of change detection -/

theorem walkFn_ok (Sum256 : List Byte → Digest)
    (readFile : String → Except ClientError (List Byte)) (parent : FileMap)
    (st0 st1 : WalkState) (e : WalkEntry)
    (h : walkFn Sum256 readFile parent st0 e = .ok st1) :
    st1 = match e.visit with
      | none => st0
      | some v => st0.after Sum256 readFile parent v := by
  obtain ⟨err, fi, rel⟩ := e
  cases err with
  | some err => simp [walkFn] at h
  | none =>
    by_cases hdir : fi.IsDir = true
    · simp [walkFn, hdir] at h
      simp [WalkEntry.visit, hdir, h]
      cases rel <;> simp [h]
    · by_cases hname : fi.Name = localStatefile
      · simp [walkFn, hdir, hname] at h
        simp [WalkEntry.visit, hdir, hname, h]
        cases rel <;> simp [h]
      · cases rel with
        | error errRel => simp [walkFn, hdir, hname] at h
        | ok rel =>
          simp only [WalkEntry.visit, hdir, hname, if_false]
          simp only [walkFn, hdir, hname, if_false] at h
          simp only [Bool.false_eq_true, if_false] at h ⊢
          generalize backslashesToForwardSlashes rel = p at h ⊢
          cases hl : parent.lookup p with
          | none =>
            rw [hl] at h
            simp only at h
            cases ha : analyzeFileForChanges Sum256 (readFile p) p fi with
            | error err =>
              rw [ha] at h
              cases h
            | ok fil =>
              rw [ha] at h
              simp only at h
              cases h
              simp [WalkState.after, Visit.createdRecord, Visit.updatedRecord, Visit.isNew,
                Visit.isChunked, Visit.analysis, hl, ha, Except.toOption]
          | some before =>
            rw [hl] at h
            simp only at h
            by_cases hch : before.Size ≠ fi.Size ∨ ¬ before.Modified = fi.ModTime
            · rw [if_pos hch] at h
              cases ha : analyzeFileForChanges Sum256 (readFile p) p fi with
              | error err =>
                rw [ha] at h
                cases h
              | ok fil =>
                rw [ha] at h
                simp only at h
                by_cases hsha : before.Sha256 ≠ fil.Sha256
                · rw [if_pos hsha] at h
                  cases h
                  simp [WalkState.after, Visit.createdRecord, Visit.updatedRecord, Visit.isNew,
                    Visit.isChunked, Visit.analysis, Visit.changedSince, hl, ha, hch, hsha]
                · rw [if_neg hsha] at h
                  cases h
                  simp [WalkState.after, Visit.createdRecord, Visit.updatedRecord, Visit.isNew,
                    Visit.isChunked, Visit.analysis, Visit.changedSince, hl, ha, hch, hsha]
            · rw [if_neg hch] at h
              cases h
              simp [WalkState.after, Visit.createdRecord, Visit.updatedRecord, Visit.isNew,
                Visit.isChunked, Visit.analysis, Visit.changedSince, hl, hch]

theorem walkFn_ok_analysis (Sum256 : List Byte → Digest)
    (readFile : String → Except ClientError (List Byte)) (parent : FileMap)
    (st0 st1 : WalkState) (e : WalkEntry)
    (h : walkFn Sum256 readFile parent st0 e = .ok st1) :
    ∀ v, e.visit = some v → v.isChunked parent = true →
      ∃ fil, v.analysis Sum256 readFile = .ok fil := by
  obtain ⟨err, fi, rel⟩ := e
  intro v hv hchunk
  cases err with
  | some err => simp [walkFn] at h
  | none =>
    cases rel with
    | error errRel => simp [WalkEntry.visit] at hv
    | ok rel =>
      by_cases hdir : fi.IsDir = true
      · simp [WalkEntry.visit, hdir] at hv
      · by_cases hname : fi.Name = localStatefile
        · simp [WalkEntry.visit, hdir, hname] at hv
        · simp only [WalkEntry.visit, hdir, hname, if_false, Bool.false_eq_true,
            Option.some.injEq] at hv
          subst hv
          simp only [walkFn, hdir, hname, if_false, Bool.false_eq_true] at h
          simp only [Visit.isChunked, Visit.changedSince] at hchunk
          simp only [Visit.analysis]
          generalize backslashesToForwardSlashes rel = p at h hchunk ⊢
          cases ha : analyzeFileForChanges Sum256 (readFile p) p fi with
          | ok fil => exact ⟨fil, rfl⟩
          | error err =>
            rw [ha] at h
            cases hl : parent.lookup p with
            | none =>
              rw [hl] at h
              simp only at h
              cases h
            | some before =>
              rw [hl] at h hchunk
              simp only [decide_eq_true_eq] at hchunk
              simp only at h
              rw [if_pos hchunk] at h
              cases h

theorem foldlM_walkFn_ok (Sum256 : List Byte → Digest)
    (readFile : String → Except ClientError (List Byte)) (parent : FileMap)
    (walk : List WalkEntry) (st0 st : WalkState)
    (h : walk.foldlM (walkFn Sum256 readFile parent) st0 = .ok st) :
    st = (visits walk).foldl (WalkState.after Sum256 readFile parent) st0 ∧
      ∀ v ∈ visits walk, v.isChunked parent = true →
        ∃ fil, v.analysis Sum256 readFile = .ok fil := by
  induction walk generalizing st0 with
  | nil =>
    cases h
    exact ⟨rfl, by simp [visits]⟩
  | cons e walk ih =>
    rw [List.foldlM_cons] at h
    cases hstep : walkFn Sum256 readFile parent st0 e with
    | error err =>
      rw [hstep] at h
      cases h
    | ok st1 =>
      rw [hstep] at h
      have hrest := ih st1 h
      have hst1 := walkFn_ok Sum256 readFile parent st0 st1 e hstep
      have han := walkFn_ok_analysis Sum256 readFile parent st0 st1 e hstep
      cases hv : e.visit with
      | none =>
        rw [hv] at hst1
        simp only at hst1
        have hvis : visits (e :: walk) = visits walk := by
          simp [visits, List.filterMap_cons, hv]
        rw [hvis, ← hst1]
        exact hrest
      | some v =>
        rw [hv] at hst1
        simp only at hst1
        have hvis : visits (e :: walk) = v :: visits walk := by
          simp [visits, List.filterMap_cons, hv]
        rw [hvis, List.foldl_cons, ← hst1]
        refine ⟨hrest.1, ?_⟩
        intro w hw hchunk
        rcases List.mem_cons.1 hw with hw | hw
        · subst hw
          exact han w hv hchunk
        · exact hrest.2 w hw hchunk

theorem foldl_after_created (Sum256 : List Byte → Digest)
    (readFile : String → Except ClientError (List Byte)) (parent : FileMap)
    (vs : List Visit) (st0 : WalkState) :
    (vs.foldl (WalkState.after Sum256 readFile parent) st0).created =
      st0.created ++ vs.filterMap (Visit.createdRecord Sum256 readFile parent) := by
  induction vs generalizing st0 with
  | nil => simp
  | cons v vs ih =>
    rw [List.foldl_cons, ih, List.filterMap_cons]
    cases hrec : v.createdRecord Sum256 readFile parent <;> simp [WalkState.after, hrec]

theorem foldl_after_updated (Sum256 : List Byte → Digest)
    (readFile : String → Except ClientError (List Byte)) (parent : FileMap)
    (vs : List Visit) (st0 : WalkState) :
    (vs.foldl (WalkState.after Sum256 readFile parent) st0).updated =
      st0.updated ++ vs.filterMap (Visit.updatedRecord Sum256 readFile parent) := by
  induction vs generalizing st0 with
  | nil => simp
  | cons v vs ih =>
    rw [List.foldl_cons, ih, List.filterMap_cons]
    cases hrec : v.updatedRecord Sum256 readFile parent <;> simp [WalkState.after, hrec]

theorem foldl_after_chunked (Sum256 : List Byte → Digest)
    (readFile : String → Except ClientError (List Byte)) (parent : FileMap)
    (vs : List Visit) (st0 : WalkState) :
    (vs.foldl (WalkState.after Sum256 readFile parent) st0).chunked =
      st0.chunked ++ (vs.filter (Visit.isChunked parent)).map Visit.relativePath := by
  induction vs generalizing st0 with
  | nil => simp
  | cons v vs ih =>
    rw [List.foldl_cons, ih, List.filter_cons]
    cases hch : v.isChunked parent <;> simp [WalkState.after, hch]

theorem mem_foldl_after_filesMissing (Sum256 : List Byte → Digest)
    (readFile : String → Except ClientError (List Byte)) (parent : FileMap)
    (vs : List Visit) (st0 : WalkState) (path : String) :
    path ∈ (vs.foldl (WalkState.after Sum256 readFile parent) st0).filesMissing ↔
      path ∈ st0.filesMissing ∧ path ∉ vs.map Visit.relativePath := by
  induction vs generalizing st0 with
  | nil => simp
  | cons v vs ih =>
    rw [List.foldl_cons, ih]
    simp only [WalkState.after, AList.mem_erase, List.map_cons, List.mem_cons, not_or]
    tauto

theorem analyzeFileForChanges_path (Sum256 : List Byte → Digest)
    (opened : Except ClientError (List Byte)) (relativePath : String) (fileInfo : FileInfo)
    (fil : File) (h : analyzeFileForChanges Sum256 opened relativePath fileInfo = .ok fil) :
    fil.Path = relativePath := by
  cases opened with
  | error e => simp [analyzeFileForChanges] at h
  | ok content =>
    rw [analyzeFileForChanges_ok] at h
    cases h
    rfl

theorem createdRecord_eq_some_iff (Sum256 : List Byte → Digest)
    (readFile : String → Except ClientError (List Byte)) (parent : FileMap) (v : Visit)
    (fil : File) :
    v.createdRecord Sum256 readFile parent = some fil ↔
      v.relativePath ∉ parent ∧ v.analysis Sum256 readFile = .ok fil := by
  unfold Visit.createdRecord Visit.isNew
  rw [← AList.lookup_eq_none]
  cases hl : parent.lookup v.relativePath with
  | some before => simp
  | none =>
    cases ha : v.analysis Sum256 readFile with
    | error err => simp [Except.toOption]
    | ok fil1 => simp [Except.toOption]

theorem updatedRecord_eq_some_iff (Sum256 : List Byte → Digest)
    (readFile : String → Except ClientError (List Byte)) (parent : FileMap) (v : Visit)
    (fil : File) :
    v.updatedRecord Sum256 readFile parent = some fil ↔
      ∃ before, parent.lookup v.relativePath = some before ∧
        (before.Size ≠ v.fileInfo.Size ∨ before.Modified ≠ v.fileInfo.ModTime) ∧
        v.analysis Sum256 readFile = .ok fil ∧ before.Sha256 ≠ fil.Sha256 := by
  unfold Visit.updatedRecord Visit.changedSince
  cases hl : parent.lookup v.relativePath with
  | none => simp
  | some before =>
    by_cases hch : before.Size ≠ v.fileInfo.Size ∨ before.Modified ≠ v.fileInfo.ModTime
    · cases ha : v.analysis Sum256 readFile with
      | error err => simp [hch]
      | ok fil1 =>
        by_cases hsha : before.Sha256 = fil1.Sha256
        · simp only [hch, decide_True, if_true, hsha, ne_eq, not_true_eq_false, if_false,
            Option.some.injEq, Except.ok.injEq, exists_eq_left', true_and]
          constructor
          · intro h
            cases h
          · rintro ⟨h1, h2⟩
            subst h1
            exact absurd rfl h2
        · simp only [hch, decide_True, if_true, ne_eq, hsha, not_false_eq_true,
            Option.some.injEq, Except.ok.injEq, exists_eq_left', true_and]
          constructor
          · intro h
            subst h
            exact ⟨rfl, hsha⟩
          · rintro ⟨h1, -⟩
            exact h1
    · simp [hch]

theorem computeChangesetTraced_ok (Sum256 : List Byte → Digest) (newId : String) (now : Time)
    (wd : workdirLocation) (walk : List WalkEntry)
    (readFile : String → Except ClientError (List Byte)) (parentState : StateAt)
    (ch : CollectionChangeset) (chunked : List String)
    (hparent : ComputeStateAt wd.manifest.Collection wd.manifest.Collection.Head = .ok parentState)
    (hrun : computeChangesetTraced Sum256 newId now wd walk readFile = .ok (ch, chunked)) :
    ∃ st : WalkState,
      st = (visits walk).foldl (WalkState.after Sum256 readFile parentState.files)
        { filesMissing := parentState.files, created := [], updated := [], chunked := [] } ∧
      (∀ v ∈ visits walk, v.isChunked parentState.files = true →
        ∃ fil, v.analysis Sum256 readFile = .ok fil) ∧
      ch = NewChangeset newId wd.manifest.ChangesetId now st.created st.updated
        (List.insertionSort strLE st.filesMissing.keys) ∧
      chunked = st.chunked := by
  unfold computeChangesetTraced at hrun
  rw [hparent] at hrun
  simp only [StateAt.Files] at hrun
  cases hfold : List.foldlM (walkFn Sum256 readFile parentState.files)
      { filesMissing := parentState.files, created := [], updated := [], chunked := [] } walk with
  | error err =>
    rw [hfold] at hrun
    cases hrun
  | ok st =>
    rw [hfold] at hrun
    simp only [Except.ok.injEq, Prod.mk.injEq] at hrun
    obtain ⟨hst, han⟩ := foldlM_walkFn_ok Sum256 readFile parentState.files walk _ st hfold
    exact ⟨st, hst, han, hrun.1.symm, hrun.2.symm⟩

theorem computeChangeset_ok (Sum256 : List Byte → Digest) (newId : String) (now : Time)
    (wd : workdirLocation) (walk : List WalkEntry)
    (readFile : String → Except ClientError (List Byte)) (ch : CollectionChangeset)
    (hrun : computeChangeset Sum256 newId now wd walk readFile = .ok ch) :
    ∃ chunked, computeChangesetTraced Sum256 newId now wd walk readFile = .ok (ch, chunked) := by
  unfold computeChangeset at hrun
  cases htr : computeChangesetTraced Sum256 newId now wd walk readFile with
  | error err =>
    rw [htr] at hrun
    cases hrun
  | ok res =>
    rw [htr] at hrun
    obtain ⟨ch1, chunked⟩ := res
    cases hrun
    exact ⟨chunked, rfl⟩

/-- C4, counterexample: the walk meets the regular file `sub/.varasto`; its path is in the
parent state, its size and its fresh digest differ from the parent's, so it is in the sequence
the claim describes, yet `FilesUpdated` is empty: the callback skips every file named
`.varasto` before it classifies it. -/
theorem computeChangeset_FilesUpdated_misses_nested_state_file :
    ComputeStateAt nestedStateCollection nestedStateCollection.Head =
      .ok { ChangesetId := "cs1", files := nestedStateParent } ∧
    computeChangeset sumDigest "new" 0 nestedStateWorkdir nestedStateWalk nestedStateReadFile =
      .ok (NewChangeset "new" "cs1" 0 [] [] ["sub/.varasto"]) ∧
    (regularFiles nestedStateWalk).filterMap
        (Visit.updatedRecord sumDigest nestedStateReadFile nestedStateParent) =
      [sampleRecord "sub/.varasto" [1, 2] 20] :=
  ⟨rfl, by decide, by decide⟩

/-- C4, amended: in `computeChangeset`, `FilesUpdated` is exactly the sequence, in walk order, of
the walked regular files whose name is not the state-file name `.varasto`, whose relative path
exists in the parent state and for which (the size differs from the parent's or the
modification time differs from the parent's) and the freshly computed SHA-256 differs from the
parent's. The files chunked are, in walk order, those absent from the parent or with a
different size or modification time; so a file with the parent's size and modification time is
never chunked and never recorded. -/
theorem computeChangeset_FilesUpdated (Sum256 : List Byte → Digest) (newId : String) (now : Time)
    (wd : workdirLocation) (walk : List WalkEntry)
    (readFile : String → Except ClientError (List Byte)) (parentState : StateAt)
    (ch : CollectionChangeset) (chunked : List String)
    (hparent : ComputeStateAt wd.manifest.Collection wd.manifest.Collection.Head = .ok parentState)
    (hrun : computeChangesetTraced Sum256 newId now wd walk readFile = .ok (ch, chunked)) :
    ch.FilesUpdated =
      (visits walk).filterMap (Visit.updatedRecord Sum256 readFile parentState.files) ∧
    (∀ (v : Visit) (fil : File), v.updatedRecord Sum256 readFile parentState.files = some fil ↔
      ∃ before, parentState.files.lookup v.relativePath = some before ∧
        (before.Size ≠ v.fileInfo.Size ∨ before.Modified ≠ v.fileInfo.ModTime) ∧
        v.analysis Sum256 readFile = .ok fil ∧ before.Sha256 ≠ fil.Sha256) ∧
    chunked =
      ((visits walk).filter (Visit.isChunked parentState.files)).map Visit.relativePath ∧
    (∀ (v : Visit) (before : File), parentState.files.lookup v.relativePath = some before →
      before.Size = v.fileInfo.Size → before.Modified = v.fileInfo.ModTime →
      v.isChunked parentState.files = false ∧
        v.updatedRecord Sum256 readFile parentState.files = none) := by
  obtain ⟨st, hst, -, hch, hchunked⟩ :=
    computeChangesetTraced_ok Sum256 newId now wd walk readFile parentState ch chunked hparent hrun
  refine ⟨?_, fun v fil => updatedRecord_eq_some_iff Sum256 readFile parentState.files v fil,
    ?_, ?_⟩
  · rw [hch, hst, NewChangeset, foldl_after_updated]
    rfl
  · rw [hchunked, hst, foldl_after_chunked]
    rfl
  · intro v before hl hsize hmod
    simp [Visit.isChunked, Visit.updatedRecord, Visit.changedSince, hl, hsize, hmod]

/-- C4, witness: the sample working directory. `b.txt` was rewritten and is recorded; `t.txt`
was touched but has the old digest and is not; `a.txt` is untouched and is not chunked. -/
theorem computeChangeset_FilesUpdated_witness :
    (NewChangeset "new" "cs1" 0 [sampleRecord "sub/d.txt" [5, 6] 30]
        [sampleRecord "b.txt" [1, 2, 3, 4] 20] ["c.txt"]).FilesUpdated =
      (visits sampleWalk).filterMap (Visit.updatedRecord sumDigest sampleReadFile sampleParent) ∧
    ["b.txt", "sub/d.txt", "t.txt"] =
      ((visits sampleWalk).filter (Visit.isChunked sampleParent)).map Visit.relativePath :=
  have h := computeChangeset_FilesUpdated sumDigest "new" 0 sampleWorkdir sampleWalk
    sampleReadFile { ChangesetId := "cs1", files := sampleParent }
    (NewChangeset "new" "cs1" 0 [sampleRecord "sub/d.txt" [5, 6] 30]
      [sampleRecord "b.txt" [1, 2, 3, 4] 20] ["c.txt"])
    ["b.txt", "sub/d.txt", "t.txt"] rfl (by decide)
  ⟨h.1, h.2.2.1⟩

theorem created_of_run (Sum256 : List Byte → Digest) (newId : String) (now : Time)
    (wd : workdirLocation) (walk : List WalkEntry)
    (readFile : String → Except ClientError (List Byte)) (parentState : StateAt)
    (ch : CollectionChangeset) (chunked : List String)
    (hparent : ComputeStateAt wd.manifest.Collection wd.manifest.Collection.Head = .ok parentState)
    (hrun : computeChangesetTraced Sum256 newId now wd walk readFile = .ok (ch, chunked)) :
    ch.FilesCreated =
      (visits walk).filterMap (Visit.createdRecord Sum256 readFile parentState.files) ∧
    (∀ (v : Visit) (fil : File), v.createdRecord Sum256 readFile parentState.files = some fil ↔
      v.relativePath ∉ parentState.files ∧ v.analysis Sum256 readFile = .ok fil) ∧
    (∀ v ∈ visits walk, v.relativePath ∉ parentState.files →
      v.relativePath ∈ chunked ∧
        ∃ fil, v.analysis Sum256 readFile = .ok fil ∧ fil ∈ ch.FilesCreated) ∧
    (∀ f ∈ ch.FilesCreated, f.Path ∉ parentState.files) := by
  obtain ⟨st, hst, han, hch, hchunked⟩ :=
    computeChangesetTraced_ok Sum256 newId now wd walk readFile parentState ch chunked hparent hrun
  have hcreated : ch.FilesCreated =
      (visits walk).filterMap (Visit.createdRecord Sum256 readFile parentState.files) := by
    rw [hch, hst, NewChangeset, foldl_after_created]
    rfl
  have hchunks : chunked =
      ((visits walk).filter (Visit.isChunked parentState.files)).map Visit.relativePath := by
    rw [hchunked, hst, foldl_after_chunked]
    rfl
  refine ⟨hcreated, fun v fil => createdRecord_eq_some_iff Sum256 readFile parentState.files v fil,
    ?_, ?_⟩
  · intro v hv hnew
    have hlook : parentState.files.lookup v.relativePath = none := AList.lookup_eq_none.2 hnew
    have hchunk : v.isChunked parentState.files = true := by
      simp [Visit.isChunked, hlook]
    obtain ⟨fil, hfil⟩ := han v hv hchunk
    refine ⟨?_, fil, hfil, ?_⟩
    · rw [hchunks]
      exact List.mem_map.2 ⟨v, List.mem_filter.2 ⟨hv, hchunk⟩, rfl⟩
    · rw [hcreated]
      exact List.mem_filterMap.2
        ⟨v, hv, (createdRecord_eq_some_iff Sum256 readFile parentState.files v fil).2 ⟨hnew, hfil⟩⟩
  · intro f hf
    rw [hcreated] at hf
    obtain ⟨v, -, hrec⟩ := List.mem_filterMap.1 hf
    obtain ⟨hnew, hfil⟩ :=
      (createdRecord_eq_some_iff Sum256 readFile parentState.files v f).1 hrec
    rw [analyzeFileForChanges_path Sum256 _ _ _ f hfil]
    exact hnew

/-- C5, counterexample: in a working directory of an empty collection the walk meets the
regular file `sub/.varasto`. It is not the state file (that is `.varasto` in the root) and its
path is not in the parent state, so the claim lists it, yet `FilesCreated` is empty: the
callback skips every file named `.varasto`. -/
theorem computeChangeset_FilesCreated_misses_nested_state_file :
    computeChangeset sumDigest "new" 0 emptyWorkdir nestedStateWalk nestedStateReadFile =
      .ok (NewChangeset "new" NoParentId 0 [] [] []) ∧
    ((regularFiles nestedStateWalk).filter (fun v => !v.isStateFile)).filterMap
        (Visit.createdRecord sumDigest nestedStateReadFile ∅) =
      [sampleRecord "sub/.varasto" [1, 2] 20] := by
  decide

/-- C5, amended: in `computeChangeset`, `FilesCreated` is exactly the sequence, in walk order, of
the records of the walked regular files, other than the files named `.varasto` (in whatever
directory), whose forward-slash-normalised relative path is not a key of the parent state;
every such file is chunked, and no file whose path is in the parent state appears in
`FilesCreated`. -/
theorem computeChangeset_FilesCreated (Sum256 : List Byte → Digest) (newId : String) (now : Time)
    (wd : workdirLocation) (walk : List WalkEntry)
    (readFile : String → Except ClientError (List Byte)) (parentState : StateAt)
    (ch : CollectionChangeset) (chunked : List String)
    (hparent : ComputeStateAt wd.manifest.Collection wd.manifest.Collection.Head = .ok parentState)
    (hrun : computeChangesetTraced Sum256 newId now wd walk readFile = .ok (ch, chunked)) :
    ch.FilesCreated =
      (visits walk).filterMap (Visit.createdRecord Sum256 readFile parentState.files) ∧
    (∀ (v : Visit) (fil : File), v.createdRecord Sum256 readFile parentState.files = some fil ↔
      v.relativePath ∉ parentState.files ∧ v.analysis Sum256 readFile = .ok fil) ∧
    (∀ v ∈ visits walk, v.relativePath ∉ parentState.files →
      v.relativePath ∈ chunked ∧
        ∃ fil, v.analysis Sum256 readFile = .ok fil ∧ fil ∈ ch.FilesCreated) ∧
    (∀ f ∈ ch.FilesCreated, f.Path ∉ parentState.files) :=
  created_of_run Sum256 newId now wd walk readFile parentState ch chunked hparent hrun

/-- C5, witness: the sample working directory; `sub/d.txt` is new, is chunked and is the one
created file. -/
theorem computeChangeset_FilesCreated_witness :
    (NewChangeset "new" "cs1" 0 [sampleRecord "sub/d.txt" [5, 6] 30]
        [sampleRecord "b.txt" [1, 2, 3, 4] 20] ["c.txt"]).FilesCreated =
      (visits sampleWalk).filterMap (Visit.createdRecord sumDigest sampleReadFile sampleParent) ∧
    (∀ f ∈ (NewChangeset "new" "cs1" 0 [sampleRecord "sub/d.txt" [5, 6] 30]
        [sampleRecord "b.txt" [1, 2, 3, 4] 20] ["c.txt"]).FilesCreated, f.Path ∉ sampleParent) :=
  have h := computeChangeset_FilesCreated sumDigest "new" 0 sampleWorkdir sampleWalk
    sampleReadFile { ChangesetId := "cs1", files := sampleParent }
    (NewChangeset "new" "cs1" 0 [sampleRecord "sub/d.txt" [5, 6] 30]
      [sampleRecord "b.txt" [1, 2, 3, 4] 20] ["c.txt"])
    ["b.txt", "sub/d.txt", "t.txt"] rfl (by decide)
  ⟨h.1, h.2.2.2⟩

theorem mem_FilesDeleted (Sum256 : List Byte → Digest) (newId : String) (now : Time)
    (wd : workdirLocation) (walk : List WalkEntry)
    (readFile : String → Except ClientError (List Byte)) (parentState : StateAt)
    (ch : CollectionChangeset) (chunked : List String)
    (hparent : ComputeStateAt wd.manifest.Collection wd.manifest.Collection.Head = .ok parentState)
    (hrun : computeChangesetTraced Sum256 newId now wd walk readFile = .ok (ch, chunked)) :
    (∀ path, path ∈ ch.FilesDeleted ↔
      path ∈ parentState.files ∧ path ∉ (visits walk).map Visit.relativePath) ∧
    ch.FilesDeleted.Nodup ∧ ch.FilesDeleted.Sorted strLE := by
  obtain ⟨st, hst, -, hch, -⟩ :=
    computeChangesetTraced_ok Sum256 newId now wd walk readFile parentState ch chunked hparent hrun
  have hdel : ch.FilesDeleted = List.insertionSort strLE st.filesMissing.keys := by
    rw [hch]
    rfl
  refine ⟨?_, ?_, ?_⟩
  · intro path
    rw [hdel, (List.perm_insertionSort strLE _).mem_iff, ← AList.mem_keys, hst,
      mem_foldl_after_filesMissing]
  · rw [hdel]
    exact (List.perm_insertionSort strLE _).nodup_iff.2 st.filesMissing.keys_nodup
  · rw [hdel]
    exact List.sorted_insertionSort strLE _

/-- C6, counterexample: the parent state holds `sub/.varasto` and the walk sees the regular
file `sub/.varasto`, yet the path is reported as deleted: the callback skips every file named
`.varasto` before it takes the path off the missing files. -/
theorem computeChangeset_FilesDeleted_lists_nested_state_file :
    computeChangeset sumDigest "new" 0 nestedStateWorkdir nestedStateWalk nestedStateReadFile =
      .ok (NewChangeset "new" "cs1" 0 [] [] ["sub/.varasto"]) ∧
    "sub/.varasto" ∈ (regularFiles nestedStateWalk).map Visit.relativePath := by
  decide

/-- C6, amended: in `computeChangeset`, `FilesDeleted` contains exactly the paths of the parent
state that were not produced (after normalisation) by any regular file, other than the files
named `.varasto`, seen during the walk, each exactly once, in ascending lexicographic (byte-wise
string) order. -/
theorem computeChangeset_FilesDeleted (Sum256 : List Byte → Digest) (newId : String) (now : Time)
    (wd : workdirLocation) (walk : List WalkEntry)
    (readFile : String → Except ClientError (List Byte)) (parentState : StateAt)
    (ch : CollectionChangeset)
    (hparent : ComputeStateAt wd.manifest.Collection wd.manifest.Collection.Head = .ok parentState)
    (hrun : computeChangeset Sum256 newId now wd walk readFile = .ok ch) :
    (∀ path, path ∈ ch.FilesDeleted ↔
      path ∈ parentState.files ∧ path ∉ (visits walk).map Visit.relativePath) ∧
    ch.FilesDeleted.Nodup ∧ ch.FilesDeleted.Sorted strLE := by
  obtain ⟨chunked, htraced⟩ := computeChangeset_ok Sum256 newId now wd walk readFile ch hrun
  exact mem_FilesDeleted Sum256 newId now wd walk readFile parentState ch chunked hparent htraced

/-- C6, witness: the sample working directory; `c.txt` is the one parent path that the walk did
not produce. -/
theorem computeChangeset_FilesDeleted_witness :
    (∀ path, path ∈ ["c.txt"] ↔
      path ∈ sampleParent ∧ path ∉ (visits sampleWalk).map Visit.relativePath) ∧
    ["c.txt"].Nodup ∧ ["c.txt"].Sorted strLE :=
  computeChangeset_FilesDeleted sumDigest "new" 0 sampleWorkdir sampleWalk sampleReadFile
    { ChangesetId := "cs1", files := sampleParent }
    (NewChangeset "new" "cs1" 0 [sampleRecord "sub/d.txt" [5, 6] 30]
      [sampleRecord "b.txt" [1, 2, 3, 4] 20] ["c.txt"]) rfl (by decide)

/-- C7: for every parent state and every working-directory walk, the changeset built by
`computeChangeset` has pairwise disjoint path sets: no path occurs in more than one of
`FilesCreated`, `FilesUpdated` and `FilesDeleted`. -/
theorem computeChangeset_paths_disjoint (Sum256 : List Byte → Digest) (newId : String)
    (now : Time) (wd : workdirLocation) (walk : List WalkEntry)
    (readFile : String → Except ClientError (List Byte)) (ch : CollectionChangeset)
    (hrun : computeChangeset Sum256 newId now wd walk readFile = .ok ch) :
    (∀ f ∈ ch.FilesCreated, ∀ g ∈ ch.FilesUpdated, f.Path ≠ g.Path) ∧
    (∀ f ∈ ch.FilesCreated, f.Path ∉ ch.FilesDeleted) ∧
    (∀ g ∈ ch.FilesUpdated, g.Path ∉ ch.FilesDeleted) := by
  obtain ⟨chunked, htraced⟩ := computeChangeset_ok Sum256 newId now wd walk readFile ch hrun
  cases hparent : ComputeStateAt wd.manifest.Collection wd.manifest.Collection.Head with
  | error e =>
    unfold computeChangesetTraced at htraced
    rw [hparent] at htraced
    cases htraced
  | ok parentState =>
    have hcreated := (created_of_run Sum256 newId now wd walk readFile parentState
      ch chunked hparent htraced).2.2.2
    obtain ⟨hdeleted, -, -⟩ :=
      mem_FilesDeleted Sum256 newId now wd walk readFile parentState ch chunked hparent htraced
    obtain ⟨st, hst, -, hch, -⟩ := computeChangesetTraced_ok Sum256 newId now wd walk readFile
      parentState ch chunked hparent htraced
    have hupdated : ∀ g ∈ ch.FilesUpdated,
        g.Path ∈ parentState.files ∧ g.Path ∈ (visits walk).map Visit.relativePath := by
      intro g hg
      have hup : ch.FilesUpdated =
          (visits walk).filterMap (Visit.updatedRecord Sum256 readFile parentState.files) := by
        rw [hch, hst, NewChangeset, foldl_after_updated]
        rfl
      rw [hup] at hg
      obtain ⟨v, hv, hrec⟩ := List.mem_filterMap.1 hg
      obtain ⟨before, hlook, -, hfil, -⟩ :=
        (updatedRecord_eq_some_iff Sum256 readFile parentState.files v g).1 hrec
      rw [analyzeFileForChanges_path Sum256 _ _ _ g hfil]
      refine ⟨?_, List.mem_map.2 ⟨v, hv, rfl⟩⟩
      by_contra hnot
      rw [AList.lookup_eq_none.2 hnot] at hlook
      cases hlook
    refine ⟨?_, ?_, ?_⟩
    · intro f hf g hg heq
      exact hcreated f hf (heq ▸ (hupdated g hg).1)
    · intro f hf hdel
      exact hcreated f hf ((hdeleted f.Path).1 hdel).1
    · intro g hg hdel
      exact ((hdeleted g.Path).1 hdel).2 (hupdated g hg).2

/-- C7, witness: the changeset of the sample working directory, with one created, one updated
and one deleted path. -/
theorem computeChangeset_paths_disjoint_witness :
    (∀ f ∈ [sampleRecord "sub/d.txt" [5, 6] 30],
      ∀ g ∈ [sampleRecord "b.txt" [1, 2, 3, 4] 20], f.Path ≠ g.Path) ∧
    (∀ f ∈ [sampleRecord "sub/d.txt" [5, 6] 30], f.Path ∉ ["c.txt"]) ∧
    (∀ g ∈ [sampleRecord "b.txt" [1, 2, 3, 4] 20], g.Path ∉ ["c.txt"]) :=
  computeChangeset_paths_disjoint sumDigest "new" 0 sampleWorkdir sampleWalk sampleReadFile
    (NewChangeset "new" "cs1" 0 [sampleRecord "sub/d.txt" [5, 6] 30]
      [sampleRecord "b.txt" [1, 2, 3, 4] 20] ["c.txt"]) (by decide)

/-! ## Properties of the upload pipeline -/

theorem blobExists_eq (net : Network) (trace : List Exchange) (blobRef : BlobRef) :
    blobExists net trace blobRef =
      (match net trace (.head blobRef) with
        | .transportFailure => .error .transport
        | .response statusCode =>
          if statusCode = 404 then .ok false
          else if 200 ≤ statusCode ∧ statusCode ≤ 299 then .ok true
          else .error (.status statusCode),
       trace ++ [{ request := .head blobRef, outcome := net trace (.head blobRef) }]) := by
  simp only [blobExists]
  generalize net trace (.head blobRef) = outcome
  cases outcome with
  | transportFailure => simp [ezhttpResult, StatusNotFound]
  | response statusCode =>
    by_cases h404 : statusCode = 404
    · subst h404
      simp [ezhttpResult, StatusNotFound]
    · by_cases h2xx : 200 ≤ statusCode ∧ statusCode ≤ 299
      · simp [ezhttpResult, StatusNotFound, h404, h2xx]
      · simp [ezhttpResult, StatusNotFound, h404, h2xx]

/-- C9: `blobExists` returns (false, no error) when the HEAD probe answers HTTP 404, (true, no
error) when it answers 2xx, and an error for every other outcome: any other status code, or a
transport failure with no response. It sends exactly one request, the HEAD for the blob. -/
theorem blobExists_result (net : Network) (trace : List Exchange) (blobRef : BlobRef) :
    (blobExists net trace blobRef).1 =
      (match net trace (.head blobRef) with
        | .transportFailure => .error .transport
        | .response statusCode =>
          if statusCode = 404 then .ok false
          else if 200 ≤ statusCode ∧ statusCode ≤ 299 then .ok true
          else .error (.status statusCode)) ∧
    (blobExists net trace blobRef).2 =
      trace ++ [{ request := .head blobRef, outcome := net trace (.head blobRef) }] := by
  rw [blobExists_eq]
  exact ⟨rfl, rfl⟩

theorem probed_append (a b : List Exchange) : probed (a ++ b) = probed a ++ probed b := by
  simp [probed, List.filterMap_append]

theorem posted_append (a b : List Exchange) : posted (a ++ b) = posted a ++ posted b := by
  simp [posted, List.filterMap_append]

theorem answeredAbsent_append (a b : List Exchange) :
    answeredAbsent (a ++ b) = answeredAbsent a ++ answeredAbsent b := by
  simp [answeredAbsent, List.filterMap_append]

theorem uploadChunksLoop_ok (Sum256 : List Byte → Digest) (intBits : Nat) (net : Network)
    (content : List Byte) (collectionId : String) :
    ∀ (refs : List String) (blobIdx : Nat) (trace trace1 : List Exchange),
      uploadChunksLoop Sum256 intBits net content collectionId refs blobIdx trace =
        (.ok (), trace1) →
      ∃ sent, trace1 = trace ++ sent ∧
        List.Forall₂ (fun hex blobRef => BlobRefFromHex hex = .ok blobRef) refs (probed sent) ∧
        posted sent = answeredAbsent sent ∧
        sent.length = (probed sent).length + (posted sent).length := by
  intro refs
  induction refs with
  | nil =>
    intro blobIdx trace trace1 h
    simp only [uploadChunksLoop, Prod.mk.injEq, true_and] at h
    exact ⟨[], by simp [h], by simp [probed], rfl, rfl⟩
  | cons brHex rest ih =>
    intro blobIdx trace trace1 h
    rw [uploadChunksLoop] at h
    cases href : BlobRefFromHex brHex with
    | error e =>
      rw [href] at h
      simp at h
    | ok blobRef =>
      rw [href] at h
      simp only [blobExists_eq] at h
      generalize hout : net trace (.head blobRef) = outcome at h
      have hstep : ∀ (mid : List Exchange) (tail : List Exchange),
          probed mid = [blobRef] → posted mid = answeredAbsent mid →
          mid.length = (probed mid).length + (posted mid).length →
          trace1 = (trace ++ mid) ++ tail →
          List.Forall₂ (fun hex blobRef => BlobRefFromHex hex = .ok blobRef) rest (probed tail) →
          posted tail = answeredAbsent tail →
          tail.length = (probed tail).length + (posted tail).length →
          ∃ sent, trace1 = trace ++ sent ∧
            List.Forall₂ (fun hex blobRef => BlobRefFromHex hex = .ok blobRef) (brHex :: rest)
              (probed sent) ∧
            posted sent = answeredAbsent sent ∧
            sent.length = (probed sent).length + (posted sent).length := by
        intro mid tail hp hpa hlen htr hf hpt hlt
        refine ⟨mid ++ tail, by rw [htr, List.append_assoc], ?_, ?_, ?_⟩
        · rw [probed_append, hp]
          exact List.Forall₂.cons href hf
        · rw [posted_append, answeredAbsent_append, hpa, hpt]
        · rw [probed_append, posted_append, List.length_append, List.length_append,
            List.length_append, hlen, hlt]
          omega
      cases outcome with
      | transportFailure => simp at h
      | response statusCode =>
        by_cases h404 : statusCode = 404
        · subst h404
          simp only [if_true] at h
          by_cases hoff : goInt intBits ((blobIdx : Int) * (blobSize : Int)) < 0
          · rw [if_pos hoff] at h
            simp at h
          · rw [if_neg hoff] at h
            by_cases hdig : hexEncode (Sum256 (List.take blobSize (List.drop
                (goInt intBits ((blobIdx : Int) * (blobSize : Int))).toNat content))).val ≠
                blobRef.AsHex
            · rw [if_pos hdig] at h
              simp at h
            · rw [if_neg hdig] at h
              split at h
              · simp at h
              · obtain ⟨tail, htr, hf, hpt, hlt⟩ := ih _ _ _ h
                exact hstep
                  [{ request := .head blobRef, outcome := .response 404 },
                   { request := .postBlob blobRef collectionId
                       (List.take blobSize (List.drop
                         (goInt intBits ((blobIdx : Int) * (blobSize : Int))).toNat content)),
                     outcome := net
                       (trace ++ [{ request := .head blobRef, outcome := .response 404 }])
                       (.postBlob blobRef collectionId (List.take blobSize (List.drop
                         (goInt intBits ((blobIdx : Int) * (blobSize : Int))).toNat content))) }]
                  tail
                  (by simp [probed]) (by simp [posted, answeredAbsent, StatusNotFound])
                  (by simp [probed, posted])
                  (by rw [htr]; simp) hf hpt hlt
        · by_cases h2xx : 200 ≤ statusCode ∧ statusCode ≤ 299
          · simp only [h404, if_false, h2xx, and_self, if_true] at h
            obtain ⟨tail, htr, hf, hpt, hlt⟩ := ih _ _ _ h
            exact hstep [{ request := .head blobRef, outcome := .response statusCode }] tail
              (by simp [probed])
              (by simp [posted, answeredAbsent, StatusNotFound, h404])
              (by simp [probed, posted]) htr hf hpt hlt
          · simp [h404, h2xx] at h

theorem uploadFiles_trace (Sum256 : List Byte → Digest) (intBits : Nat) (net : Network)
    (reopen : String → Except ClientError (List Byte)) (collection : Collection) :
    ∀ (files : List File) (trace trace1 : List Exchange),
      uploadFiles Sum256 intBits net reopen collection files trace = (.ok (), trace1) →
      ∃ sent, trace1 = trace ++ sent := by
  intro files
  induction files with
  | nil =>
    intro trace trace1 h
    simp only [uploadFiles, Prod.mk.injEq, true_and] at h
    exact ⟨[], by simp [h]⟩
  | cons bfile rest ih =>
    intro trace trace1 h
    rw [uploadFiles] at h
    cases hup : uploadChunks Sum256 intBits net (reopen bfile.Path) bfile collection trace with
    | mk result trace2 =>
      rw [hup] at h
      cases result with
      | error e => simp at h
      | ok u =>
        cases hopen : reopen bfile.Path with
        | error e =>
          simp [uploadChunks, hopen] at hup
        | ok content =>
          simp only [uploadChunks, hopen] at hup
          obtain ⟨sent, hsent, -⟩ := uploadChunksLoop_ok Sum256 intBits net content collection.ID
            bfile.BlobRefs 0 trace trace2 hup
          obtain ⟨sent2, hsent2⟩ := ih trace2 trace1 h
          exact ⟨sent ++ sent2, by rw [hsent2, hsent, List.append_assoc]⟩

theorem uploadChangeset_trace (net : Network) (reply : Collection)
    (changeset : CollectionChangeset) (collection : Collection) (trace : List Exchange) :
    (uploadChangeset net reply changeset collection trace).2 =
      trace ++ [{ request := .postChangeset collection.ID changeset,
                  outcome := net trace (.postChangeset collection.ID changeset) }] := by
  simp only [uploadChangeset]
  split <;> rfl

theorem push_commits (Sum256 : List Byte → Digest) (intBits : Nat) (net : Network)
    (newId : String) (now : Time) (wd wd1 : workdirLocation) (walk : List WalkEntry)
    (readFile reopen : String → Except ClientError (List Byte)) (reply : Collection)
    (saveToDisk : workdirLocation → Option ClientError) (ch : CollectionChangeset)
    (trace : List Exchange)
    (hch : computeChangeset Sum256 newId now wd walk readFile = .ok ch)
    (hany : ch.AnyChanges = true)
    (hpush : push Sum256 intBits net newId now wd walk readFile reopen reply saveToDisk =
      (.ok wd1, trace)) :
    ∃ uploads outcome, trace = uploads ++
      [{ request := .postChangeset wd.manifest.Collection.ID ch, outcome := outcome }] := by
  unfold push at hpush
  rw [hch] at hpush
  simp only [hany, Bool.not_true, Bool.false_eq_true, if_false] at hpush
  cases h1 : uploadFiles Sum256 intBits net reopen wd.manifest.Collection ch.FilesCreated [] with
  | mk r1 t1 =>
    rw [h1] at hpush
    cases r1 with
    | error e => simp at hpush
    | ok u1 =>
      simp only at hpush
      cases h2 : uploadFiles Sum256 intBits net reopen wd.manifest.Collection ch.FilesUpdated
          t1 with
      | mk r2 t2 =>
        rw [h2] at hpush
        cases r2 with
        | error e => simp at hpush
        | ok u2 =>
          simp only at hpush
          have htrace := uploadChangeset_trace net reply ch wd.manifest.Collection t2
          cases h3 : uploadChangeset net reply ch wd.manifest.Collection t2 with
          | mk r3 t3 =>
            rw [h3] at hpush htrace
            cases r3 with
            | error e => simp at hpush
            | ok updatedCollection =>
              simp only at hpush htrace
              split at hpush
              · simp at hpush
              · simp only [Prod.mk.injEq, Except.ok.injEq] at hpush
                exact ⟨t2, _, by rw [← hpush.2, htrace]⟩

/-- C8: a run of `uploadChunks` that returns without an error probes every blob ref of the file
exactly once, in `BlobRefs` order, and issues a POST for exactly those refs whose probe answered
"absent"; nothing else is sent. So when no probe answers "absent" it issues only the HEAD
probes, one per ref, and no POST. A run of `push` that returns without an error ends with the
submission of the changeset that `computeChangeset` built, which lists all chunk digests
whatever the probes answered. -/
theorem uploadChunks_probes_then_posts (Sum256 : List Byte → Digest) (intBits : Nat)
    (net : Network) (opened : Except ClientError (List Byte)) (bfile : File)
    (collection : Collection) (trace trace1 : List Exchange)
    (hup : uploadChunks Sum256 intBits net opened bfile collection trace = (.ok (), trace1)) :
    (∃ sent, trace1 = trace ++ sent ∧
      List.Forall₂ (fun hex blobRef => BlobRefFromHex hex = .ok blobRef) bfile.BlobRefs
        (probed sent) ∧
      posted sent = answeredAbsent sent ∧
      sent.length = (probed sent).length + (posted sent).length ∧
      (answeredAbsent sent = [] → posted sent = [] ∧ sent.length = bfile.BlobRefs.length)) ∧
    (∀ (newId : String) (now : Time) (wd wd1 : workdirLocation) (walk : List WalkEntry)
      (readFile reopen : String → Except ClientError (List Byte)) (reply : Collection)
      (saveToDisk : workdirLocation → Option ClientError) (ch : CollectionChangeset)
      (exchanges : List Exchange),
      computeChangeset Sum256 newId now wd walk readFile = .ok ch → ch.AnyChanges = true →
      push Sum256 intBits net newId now wd walk readFile reopen reply saveToDisk =
        (.ok wd1, exchanges) →
      ∃ uploads outcome, exchanges = uploads ++
        [{ request := .postChangeset wd.manifest.Collection.ID ch, outcome := outcome }]) := by
  constructor
  · cases opened with
    | error e => simp [uploadChunks] at hup
    | ok content =>
      simp only [uploadChunks] at hup
      obtain ⟨sent, hsent, hprobed, hposted, hlen⟩ := uploadChunksLoop_ok Sum256 intBits net
        content collection.ID bfile.BlobRefs 0 trace trace1 hup
      refine ⟨sent, hsent, hprobed, hposted, hlen, ?_⟩
      intro habsent
      rw [habsent] at hposted
      refine ⟨hposted, ?_⟩
      rw [hlen, hposted, List.length_nil, Nat.add_zero]
      exact hprobed.length_eq.symm
  · intro newId now wd wd1 walk readFile reopen reply saveToDisk ch exchanges hch hany hpush
    exact push_commits Sum256 intBits net newId now wd wd1 walk readFile reopen reply saveToDisk
      ch exchanges hch hany hpush

/-- C8, witness: the sample file on a server that already holds its chunk: the run returns
without an error after one HEAD probe and no POST. -/
theorem uploadChunks_probes_then_posts_witness :
    (∃ sent, [{ request := .head sampleBlobRef, outcome := .response 200 }] = [] ++ sent ∧
      List.Forall₂ (fun hex blobRef => BlobRefFromHex hex = .ok blobRef)
        (sampleRecord "b.txt" [1, 2, 3, 4] 20).BlobRefs (probed sent) ∧
      posted sent = answeredAbsent sent ∧
      sent.length = (probed sent).length + (posted sent).length ∧
      (answeredAbsent sent = [] →
        posted sent = [] ∧ sent.length = (sampleRecord "b.txt" [1, 2, 3, 4] 20).BlobRefs.length)) ∧
    posted [{ request := .head sampleBlobRef, outcome := .response 200 }] = [] ∧
    (uploadChunks sumDigest 64 storing (.ok [1, 2, 3, 4]) (sampleRecord "b.txt" [1, 2, 3, 4] 20)
        sampleCollection []).2 =
      [{ request := .head sampleBlobRef, outcome := .response 404 },
       { request := .postBlob sampleBlobRef "coll" [1, 2, 3, 4], outcome := .response 200 }] :=
  ⟨(uploadChunks_probes_then_posts sumDigest 64 allPresent (.ok [1, 2, 3, 4])
      (sampleRecord "b.txt" [1, 2, 3, 4] 20) sampleCollection []
      [{ request := .head sampleBlobRef, outcome := .response 200 }] (by decide)).1,
    by decide, by decide⟩

/-! ## Properties of blob placement -/

theorem base32Groups_length : ∀ (bits : List Bool) (acc count : Nat), count < 5 →
    (base32Groups bits acc count).length = (bits.length + count + 4) / 5 := by
  intro bits
  induction bits with
  | nil =>
    intro acc count hcount
    cases count with
    | zero => simp [base32Groups]
    | succ count =>
      simp only [base32Groups, List.length_singleton, List.length_nil]
      omega
  | cons bit bits ih =>
    intro acc count hcount
    rw [base32Groups]
    split
    · rw [List.length_cons, ih _ 0 (by omega), List.length_cons]
      omega
    · rw [ih _ (count + 1) (by omega), List.length_cons]
      omega

theorem length_flatMap_byteBits (bytes : List Byte) :
    (bytes.flatMap byteBits).length = 8 * bytes.length := by
  induction bytes with
  | nil => rfl
  | cons b rest ih =>
    rw [List.flatMap_cons, List.length_append, ih, List.length_cons]
    simp only [byteBits, List.length_map, List.length_range]
    omega

theorem AsBase32_length (blobRef : BlobRef) : blobRef.AsBase32.length = 52 := by
  rw [BlobRef.AsBase32, base32Groups_length _ 0 0 (by omega), length_flatMap_byteBits,
    blobRef.size_eq]

theorem base32Digit_mem : ∀ n, n < 32 →
    base32Digit n ∈ "0123456789abcdefghijklmnopqrstuv".toList := by
  decide

theorem base32Groups_digits : ∀ (bits : List Bool) (acc count : Nat), count < 5 →
    acc < 2 ^ count → ∀ c ∈ base32Groups bits acc count, ∃ n, n < 32 ∧ c = base32Digit n := by
  intro bits
  induction bits with
  | nil =>
    intro acc count hcount hacc c hc
    cases count with
    | zero => simp [base32Groups] at hc
    | succ count =>
      simp only [base32Groups, List.mem_singleton] at hc
      refine ⟨_, ?_, hc⟩
      have h4 : count < 4 := by omega
      interval_cases count <;> norm_num at hacc ⊢ <;> omega
  | cons bit bits ih =>
    intro acc count hcount hacc c hc
    have hacc1 : acc * 2 + (if bit then 1 else 0) < 2 ^ (count + 1) := by
      rw [pow_succ]
      split <;> omega
    rw [base32Groups] at hc
    split at hc
    · rcases List.mem_cons.mp hc with h | h
      · refine ⟨_, ?_, h⟩
        have h5 : count + 1 = 5 := by assumption
        rw [h5] at hacc1
        exact hacc1
      · exact ih 0 0 (by omega) (by norm_num) c h
    · exact ih _ (count + 1) (by omega) hacc1 c hc

theorem AsBase32_alphabet (blobRef : BlobRef) (c : Char) (hc : c ∈ blobRef.AsBase32) :
    c ∈ "0123456789abcdefghijklmnopqrstuv".toList := by
  obtain ⟨n, hn, rfl⟩ := base32Groups_digits _ 0 0 (by omega) (by norm_num) c hc
  exact base32Digit_mem n hn

theorem path_for_shape (root : String) (blobRef : BlobRef) :
    ∃ c1 c2 c3 rest, blobRef.AsBase32 = c1 :: c2 :: c3 :: rest ∧ rest.length = 49 ∧
      path_for root blobRef =
        root ++ "/" ++ String.mk [c1] ++ "/" ++ String.mk [c2, c3] ++ "/" ++ String.mk rest := by
  have hlen := AsBase32_length blobRef
  rw [path_for]
  match hb : blobRef.AsBase32, hlen with
  | c1 :: c2 :: c3 :: rest, hlen =>
    refine ⟨c1, c2, c3, rest, rfl, ?_, rfl⟩
    simp only [List.length_cons] at hlen
    omega

/-- C10, against the claim: the formula `root + "/" + b[0] + "/" + b[1..3] + "/" + b[3..]`,
taken as the method `getPath`, fails `TestPath`. The driver of the test has the root `/tmp/`,
for which the formula gives `/tmp//q/uk/fnco...`, with two separators after the root; the
test expects `/tmp/q/uk/fnco...`. -/
theorem path_for_fails_TestPath :
    TestPath path_for = false ∧
    BlobRefFromHex "d7a8fbb307d7809469ca9abcb0082e4f8d5651e46d3cdb762d02d0bf37c9e592" =
      .ok testPathRef ∧
    path_for "/tmp/" testPathRef =
      "/tmp//q/uk/fnco7qu098qeajaub021e9u6lckf4dkudmthd0b8budu9sm90" := by
  decide

/-- C10, amended: for every blob ref `r` and root, the placement path of the spec is
`root + "/" + b[0] + "/" + b[1..3] + "/" + b[3..]`, where `b`, the lowercase unpadded base32
form of the 32 bytes of `r`, has 52 characters of the alphabet `0-9a-v`. What `TestPath` fixes
of the method `getPath` of the driver is one path: a method passes the test exactly when, for
the driver root `/tmp/` and the hex digest `d7a8...e592`, it gives the path that the formula
gives for the root `/tmp`, without the separator at its end, which is
`/tmp/q/uk/fnco7qu098qeajaub021e9u6lckf4dkudmthd0b8budu9sm90`. -/
theorem TestPath_iff_path_for_bare_root (getPath : String → BlobRef → String) (root : String)
    (blobRef : BlobRef) :
    (∃ c1 c2 c3 rest, blobRef.AsBase32 = c1 :: c2 :: c3 :: rest ∧ rest.length = 49 ∧
      path_for root blobRef =
        root ++ "/" ++ String.mk [c1] ++ "/" ++ String.mk [c2, c3] ++ "/" ++ String.mk rest) ∧
    (∀ c ∈ blobRef.AsBase32, c ∈ "0123456789abcdefghijklmnopqrstuv".toList) ∧
    (TestPath getPath = true ↔ getPath "/tmp/" testPathRef = path_for "/tmp" testPathRef) ∧
    String.mk testPathRef.AsBase32 = "qukfnco7qu098qeajaub021e9u6lckf4dkudmthd0b8budu9sm90" ∧
    path_for "/tmp" testPathRef =
      "/tmp/q/uk/fnco7qu098qeajaub021e9u6lckf4dkudmthd0b8budu9sm90" := by
  have hhex : BlobRefFromHex
      "d7a8fbb307d7809469ca9abcb0082e4f8d5651e46d3cdb762d02d0bf37c9e592" = .ok testPathRef := by
    decide
  have hpath : path_for "/tmp" testPathRef =
      "/tmp/q/uk/fnco7qu098qeajaub021e9u6lckf4dkudmthd0b8budu9sm90" := by
    decide
  refine ⟨path_for_shape root blobRef, AsBase32_alphabet blobRef, ?_, by decide, hpath⟩
  rw [TestPath, hhex, hpath]
  simp only [decide_eq_true_eq]

/-! ## Further properties of the resolver and of change detection -/

/-- C18: for a collection with zero changesets and `Head` equal to the no-parent sentinel,
`ComputeStateAt (collection, collection.Head)` succeeds, although the target id is the id of no
changeset, and returns an empty file set. -/
theorem ComputeStateAt_empty_collection (c : Collection) (hzero : c.Changesets = [])
    (hhead : c.Head = NoParentId) :
    ComputeStateAt c c.Head = .ok { ChangesetId := NoParentId, files := ∅ } ∧
    (∀ ch ∈ c.Changesets, ch.ID ≠ c.Head) ∧
    (∀ st, ComputeStateAt c c.Head = .ok st → st.files.keys = []) := by
  have hrun : ComputeStateAt c c.Head = .ok { ChangesetId := NoParentId, files := ∅ } := by
    unfold ComputeStateAt
    rw [hzero, hhead]
    rfl
  refine ⟨hrun, ?_, ?_⟩
  · intro ch hch
    rw [hzero] at hch
    cases hch
  · intro st hst
    rw [hrun] at hst
    cases hst
    rfl

/-- C18, witness: the new, empty collection of `TestComputeStateAt`. -/
theorem ComputeStateAt_empty_collection_witness :
    ComputeStateAt emptyWorkdir.manifest.Collection emptyWorkdir.manifest.Collection.Head =
      .ok { ChangesetId := NoParentId, files := ∅ } ∧
    dumpState emptyWorkdir.manifest.Collection emptyWorkdir.manifest.Collection.Head =
      some "\n" :=
  ⟨(ComputeStateAt_empty_collection emptyWorkdir.manifest.Collection rfl rfl).1, by decide⟩

theorem visits_eq_filter_regularFiles (walk : List WalkEntry) :
    visits walk =
      (regularFiles walk).filter (fun v => decide (v.fileInfo.Name ≠ localStatefile)) := by
  induction walk with
  | nil => rfl
  | cons e walk ih =>
    obtain ⟨err, fi, rel⟩ := e
    simp only [visits, regularFiles, List.filterMap_cons] at ih ⊢
    cases err with
    | some err => simpa [WalkEntry.visit, WalkEntry.regularFile] using ih
    | none =>
      cases rel with
      | error errRel => simpa [WalkEntry.visit, WalkEntry.regularFile] using ih
      | ok rel =>
        by_cases hdir : fi.IsDir = true
        · simpa [WalkEntry.visit, WalkEntry.regularFile, hdir] using ih
        · by_cases hname : fi.Name = localStatefile
          · simpa [WalkEntry.visit, WalkEntry.regularFile, hdir, hname] using ih
          · simpa [WalkEntry.visit, WalkEntry.regularFile, hdir, hname] using ih

/-- C17, counterexample: the walk meets the regular file `sub/.varasto`, which is not the state
file in the root. With the path in the parent state it is reported as deleted; with the path
absent from the parent state it is not reported as created. -/
theorem computeChangeset_skips_nested_state_file :
    regularFiles nestedStateWalk =
      [{ relativePath := ".varasto", fileInfo := regularInfo ".varasto" 120 50 },
       { relativePath := "sub/.varasto", fileInfo := regularInfo ".varasto" 2 20 }] ∧
    (computeChangeset sumDigest "new" 0 nestedStateWorkdir nestedStateWalk
        nestedStateReadFile).map (fun ch => ch.FilesDeleted) = .ok ["sub/.varasto"] ∧
    (computeChangeset sumDigest "new" 0 emptyWorkdir nestedStateWalk
        nestedStateReadFile).map (fun ch => ch.FilesCreated) = .ok [] := by
  decide

/-- C17, amended: during change detection the walk skips every regular file whose name is the
state-file name `.varasto`, in the root of the working directory and in every subdirectory;
every other regular file is classified against the parent state. So a file named `.varasto`
in a subdirectory is never reported as created or updated, and if its path is in the parent
state it is reported as deleted. -/
theorem computeChangeset_skips_by_name (Sum256 : List Byte → Digest) (newId : String)
    (now : Time) (wd : workdirLocation) (walk : List WalkEntry)
    (readFile : String → Except ClientError (List Byte)) (parentState : StateAt)
    (ch : CollectionChangeset)
    (hparent : ComputeStateAt wd.manifest.Collection wd.manifest.Collection.Head = .ok parentState)
    (hrun : computeChangeset Sum256 newId now wd walk readFile = .ok ch) :
    visits walk =
      (regularFiles walk).filter (fun v => decide (v.fileInfo.Name ≠ localStatefile)) ∧
    ch.FilesCreated =
      (visits walk).filterMap (Visit.createdRecord Sum256 readFile parentState.files) ∧
    ch.FilesUpdated =
      (visits walk).filterMap (Visit.updatedRecord Sum256 readFile parentState.files) ∧
    (∀ path, path ∈ ch.FilesDeleted ↔
      path ∈ parentState.files ∧ path ∉ (visits walk).map Visit.relativePath) := by
  obtain ⟨chunked, htraced⟩ := computeChangeset_ok Sum256 newId now wd walk readFile ch hrun
  obtain ⟨st, hst, -, hch, -⟩ := computeChangesetTraced_ok Sum256 newId now wd walk readFile
    parentState ch chunked hparent htraced
  refine ⟨visits_eq_filter_regularFiles walk, ?_, ?_,
    (mem_FilesDeleted Sum256 newId now wd walk readFile parentState ch chunked hparent htraced).1⟩
  · rw [hch, hst, NewChangeset, foldl_after_created]
    rfl
  · rw [hch, hst, NewChangeset, foldl_after_updated]
    rfl

/-- C17, witness: the walk of `nestedStateWalk` in a working directory whose parent state holds
`sub/.varasto`: nothing is visited, and the path is reported as deleted. -/
theorem computeChangeset_skips_by_name_witness :
    visits nestedStateWalk =
      (regularFiles nestedStateWalk).filter (fun v => decide (v.fileInfo.Name ≠ localStatefile)) ∧
    visits nestedStateWalk = [] :=
  ⟨(computeChangeset_skips_by_name sumDigest "new" 0 nestedStateWorkdir nestedStateWalk
      nestedStateReadFile { ChangesetId := "cs1", files := nestedStateParent }
      (NewChangeset "new" "cs1" 0 [] [] ["sub/.varasto"]) rfl (by decide)).1, by decide⟩

/-- C20, the code at the failing input: a working directory cloned at `cs1` while the
collection snapshot has the head `cs2`. The working directory is compared with the state at
`cs2` (so `b.txt`, created by `cs2`, counts as deleted) but the changeset names `cs1` as its
parent; `b.txt` does not exist at `cs1`, so the changeset cannot even be applied to its
parent. -/
theorem computeChangeset_parent_is_not_compared_revision :
    computeChangeset sumDigest "new" 0 staleWorkdir staleWalk sampleReadFile =
      .ok (NewChangeset "new" "cs1" 0 [] [] ["b.txt"]) ∧
    staleWorkdir.manifest.Collection.Head = "cs2" ∧
    (NewChangeset "new" "cs1" 0 [] [] ["b.txt"]).Parent = "cs1" ∧
    (ComputeStateAt twoRevisionCollection "cs1").map (fun st => st.files.keys) = .ok ["a.txt"] ∧
    (ComputeStateAt twoRevisionCollection "cs1").bind
        (fun st => applyChangeset st.files (NewChangeset "new" "cs1" 0 [] [] ["b.txt"])) =
      .error .DeleteMissingFile := by
  decide

/-! ## Properties of the index queries -/

theorem dropWhile_lt_eq_filter (keys : List Key) (start : Key) (h : keys.Sorted (· < ·)) :
    keys.dropWhile (fun key => decide (key < start)) =
      keys.filter (fun key => decide (start ≤ key)) := by
  induction keys with
  | nil => rfl
  | cons x xs ih =>
    have hs := List.sorted_cons.1 h
    by_cases hx : x < start
    · simp [List.dropWhile_cons, List.filter_cons, hx, not_le.2 hx, ih hs.2]
    · have hle : start ≤ x := not_lt.1 hx
      have hall : ∀ key ∈ xs, decide (start ≤ key) = true := by
        intro key hkey
        simpa using le_trans hle (le_of_lt (hs.1 key hkey))
      simp [List.dropWhile_cons, List.filter_cons, hx, hle, List.filter_eq_self.2 hall]

theorem queryLoop_all_nil (fn : List Key → Key → Option QueryError) :
    ∀ (keys called : List Key),
      (∀ before key after, keys = before ++ key :: after → fn (called ++ before) key = none) →
      queryLoop fn keys called = (none, called ++ keys) := by
  intro keys
  induction keys with
  | nil =>
    intro called _
    simp [queryLoop]
  | cons key rest ih =>
    intro called h
    have h0 : fn called key = none := by
      simpa using h [] key rest rfl
    rw [queryLoop, h0]
    simp only
    rw [ih (called ++ [key])]
    · simp
    · intro before k after hsplit
      have := h (key :: before) k after (by rw [hsplit]; rfl)
      simpa using this

theorem queryLoop_stops (fn : List Key → Key → Option QueryError) :
    ∀ (before : List Key) (key : Key) (after called : List Key) (err : QueryError),
      (∀ b k a, before = b ++ k :: a → fn (called ++ b) k = none) →
      fn (called ++ before) key = some err →
      queryLoop fn (before ++ key :: after) called =
        ((match err with
          | .StopIteration => none
          | .other msg => some (.other msg)), called ++ before ++ [key]) := by
  intro before
  induction before with
  | nil =>
    intro key after called err _ hkey
    simp only [List.append_nil] at hkey
    simp only [List.nil_append, queryLoop, hkey, List.append_nil]
    cases err <;> rfl
  | cons x xs ih =>
    intro key after called err hnil hkey
    have h0 : fn called x = none := by
      simpa using hnil [] x xs rfl
    rw [List.cons_append, queryLoop, h0]
    simp only
    rw [ih key after (called ++ [x]) err]
    · simp
    · intro b k a hsplit
      have := hnil (x :: b) k a (by rw [hsplit]; rfl)
      simpa using this
    · simpa using hkey

theorem indexQueryShared_keys (indexName : String) (value start : Key)
    (fn : List Key → Key → Option QueryError) (tx : Tx) (bucket : Bucket)
    (hbucket : indexBucketRefForQuery indexName value tx = some bucket) :
    indexQueryShared indexName value start fn tx =
      queryLoop fn (bucket.keys.filter (fun key => decide (start ≤ key))) [] := by
  unfold indexQueryShared
  rw [hbucket]
  simp only
  by_cases hstart : start = StartFromFirst
  · rw [if_pos hstart, hstart]
    have hall : ∀ key ∈ bucket.keys, decide (StartFromFirst ≤ key) = true := by
      intro key _
      simp [StartFromFirst]
    rw [List.filter_eq_self.2 hall]
    rfl
  · rw [if_neg hstart, cursorSeek, dropWhile_lt_eq_filter _ _ bucket.sorted]

/-- C16: `indexQueryShared` (behind both `setIndex.Query` and `byValueIndex.Query`) calls the
callback on the keys of the index bucket in ascending key order, beginning at the first key
when `start` is empty and at the first key `>= start` otherwise. If the callback returns
`StopIteration` the iteration stops at that key and the query returns nil; if it returns another
error the iteration stops and the query returns that same error; if it never returns an error
all keys are visited and the query returns nil. If the index bucket or the value bucket does
not exist, the callback is never called and the query returns nil. -/
theorem indexQueryShared_iterates (indexName : String) (value start : Key)
    (fn : List Key → Key → Option QueryError) (tx : Tx) :
    (indexBucketRefForQuery indexName value tx = none →
      indexQueryShared indexName value start fn tx = (none, [])) ∧
    (∀ bucket, indexBucketRefForQuery indexName value tx = some bucket →
      (bucket.keys.filter (fun key => decide (start ≤ key))).Sorted (· < ·) ∧
      (start = StartFromFirst →
        bucket.keys.filter (fun key => decide (start ≤ key)) = bucket.keys) ∧
      ((∀ before key after,
          bucket.keys.filter (fun key => decide (start ≤ key)) = before ++ key :: after →
          fn before key = none) →
        indexQueryShared indexName value start fn tx =
          (none, bucket.keys.filter (fun key => decide (start ≤ key)))) ∧
      (∀ before key after err,
        bucket.keys.filter (fun key => decide (start ≤ key)) = before ++ key :: after →
        (∀ b k a, before = b ++ k :: a → fn b k = none) →
        fn before key = some err →
        indexQueryShared indexName value start fn tx =
          ((match err with
            | .StopIteration => none
            | .other msg => some (.other msg)), before ++ [key]))) ∧
    setIndexQuery indexName start fn tx = indexQueryShared indexName [32] start fn tx ∧
    byValueIndexQuery indexName value start fn tx =
      indexQueryShared indexName value start fn tx := by
  refine ⟨?_, ?_, rfl, rfl⟩
  · intro hnone
    unfold indexQueryShared
    rw [hnone]
  · intro bucket hbucket
    refine ⟨bucket.sorted.filter _, ?_, ?_, ?_⟩
    · intro hstart
      apply List.filter_eq_self.2
      intro key _
      simp [hstart, StartFromFirst]
    · intro hnil
      rw [indexQueryShared_keys indexName value start fn tx bucket hbucket,
        queryLoop_all_nil fn _ [] (by simpa using hnil)]
      simp
    · intro before key after err hsplit hnil herr
      rw [indexQueryShared_keys indexName value start fn tx bucket hbucket, hsplit,
        queryLoop_stops fn before key after [] err (by simpa using hnil) (by simpa using herr)]
      simp

/-- C16, witness: on the bucket with the keys `1`, `2`, `3`, a query from the start with a
callback that stops at `2` calls it on `1` and `2` and returns nil; a query that starts at `2`
calls it on `2` only; a query of an index that does not exist calls nothing. -/
theorem indexQueryShared_iterates_witness :
    setIndexQuery "blobs:pending" StartFromFirst stopAtTwo sampleTx = (none, [[1], [2]]) ∧
    setIndexQuery "blobs:pending" [2] stopAtTwo sampleTx = (none, [[2]]) ∧
    setIndexQuery "blobs:pending" [2, 0] (fun _ _ => none) sampleTx = (none, [[3]]) ∧
    setIndexQuery "blobs:pending" StartFromFirst
        (fun _ key => if key = [2] then some (.other "boom") else none) sampleTx =
      (some (.other "boom"), [[1], [2]]) ∧
    indexQueryShared "blobs:other" [32] StartFromFirst stopAtTwo sampleTx = (none, []) :=
  ⟨by decide, by decide, by decide, by decide,
    (indexQueryShared_iterates "blobs:other" [32] StartFromFirst stopAtTwo sampleTx).1 rfl⟩

/-! ## Properties of the integrity verifier: the supervisor -/

theorem run_resume (jobIds : List String) :
    ∀ c : Controller, (c.run (jobIds.map Message.resume)).1 =
      jobIds.foldl (fun c jobId => (c.resumeJob jobId).2) c := by
  induction jobIds with
  | nil => intro c; rfl
  | cons jobId rest ih => intro c; simp only [List.map_cons, Controller.run, List.foldl_cons, ih]

/-- C12, against the claim: while job1 runs on volume 1, a resume of job2, whose volume is also
volume 1, is accepted: no error is returned and both jobs are in `runningJobIds`. -/
theorem resumeJob_accepts_second_job_on_same_volume :
    (sampleController.runningJobIds.lookup "job1").map (fun job => job.VolumeId) = some 1 ∧
    (sampleController.loadJob "job2").map (fun job => job.VolumeId) = .ok 1 ∧
    (sampleController.resumeJob "job2").1 = none ∧
    (sampleController.resumeJob "job2").2.runningJobIds.keys = ["job2", "job1"] := by
  refine ⟨by decide, by decide, by decide, by decide⟩

/-- C12, amended: `resumeJob` looks at the job id only. A resume of a job id that is in
`runningJobIds` is rejected with "job is already running" and changes nothing; a resume of a
job id that is not there is accepted whenever the job can be loaded, whatever its volume, and
puts the id in `runningJobIds`; when the job cannot be loaded the error of the load is returned
and nothing changes. A sequence of resume requests is handled by `run` one request after the
other in this way. -/
theorem resumeJob_rejects_running_job_id (s : Controller) (jobId : String) :
    (jobId ∈ s.runningJobIds → s.resumeJob jobId = (some .jobAlreadyRunning, s)) ∧
    (jobId ∉ s.runningJobIds → ∀ job, s.loadJob jobId = .ok job →
      s.resumeJob jobId = (none, { s with runningJobIds := s.runningJobIds.insert jobId job }) ∧
      jobId ∈ (s.resumeJob jobId).2.runningJobIds ∧
      ∀ other, other ∈ s.runningJobIds → other ∈ (s.resumeJob jobId).2.runningJobIds) ∧
    (jobId ∉ s.runningJobIds → ∀ msg, s.loadJob jobId = .error msg →
      s.resumeJob jobId = (some (.db msg), s)) ∧
    (∀ jobIds : List String, (s.run (jobIds.map Message.resume)).1 =
      jobIds.foldl (fun c jobId => (c.resumeJob jobId).2) s) := by
  refine ⟨?_, ?_, ?_, fun jobIds => run_resume jobIds s⟩
  · intro h
    simp only [Controller.resumeJob, if_pos h]
  · intro h job hload
    have heq : s.resumeJob jobId =
        (none, { s with runningJobIds := s.runningJobIds.insert jobId job }) := by
      simp only [Controller.resumeJob, if_neg h, hload]
    refine ⟨heq, ?_, ?_⟩
    · rw [heq]; simp only [AList.mem_insert, true_or]
    · intro other hother
      rw [heq]; simp only [AList.mem_insert]; exact Or.inr hother
  · intro h msg hload
    simp only [Controller.resumeJob, if_neg h, hload]

theorem resumeJob_rejects_running_job_id_witness :
    sampleController.resumeJob "job1" = (some .jobAlreadyRunning, sampleController) ∧
    "job3" ∈ (sampleController.resumeJob "job3").2.runningJobIds ∧
    sampleController.resumeJob "job9" = (some (.db "record not found"), sampleController) :=
  ⟨(resumeJob_rejects_running_job_id sampleController "job1").1 (by decide),
    ((resumeJob_rejects_running_job_id sampleController "job3").2.1 (by decide)
      (newJob "job3" 2) rfl).2.1,
    (resumeJob_rejects_running_job_id sampleController "job9").2.2.1 (by decide)
      "record not found" rfl⟩

/-! ## Properties of the integrity verifier: the worker -/

theorem utf8ByteSize_append (s t : String) :
    (s ++ t).utf8ByteSize = s.utf8ByteSize + t.utf8ByteSize := by
  cases s with
  | mk a =>
    cases t with
    | mk b =>
      show (String.mk (a ++ b)).utf8ByteSize = _
      simp only [String.utf8ByteSize_mk, String.utf8Len_append]

theorem increment_of_lt (n : Int) (h0 : 0 ≤ n) (h1 : n + 1 < 2 ^ 63) : increment n = n + 1 := by
  simp only [increment, goInt]
  norm_num at h1 ⊢
  omega

theorem increment_iterate (k : Nat) :
    ∀ n : Int, 0 ≤ n → n + k < 2 ^ 63 → increment^[k] n = n + k := by
  induction k with
  | zero => intro n _ _; simp
  | succ k ih =>
    intro n h0 h1
    have h2 : n + 1 < 2 ^ 63 := by push_cast at h1; omega
    rw [Function.iterate_succ_apply, increment_of_lt n h0 h2, ih (n + 1) (by omega)
      (by push_cast at h1; omega)]
    push_cast; ring

theorem joinLines_append (xs ys : List String) :
    joinLines (xs ++ ys) = joinLines xs ++ joinLines ys := by
  induction xs with
  | nil => simp only [List.nil_append, joinLines, String.empty_append]
  | cons line rest ih =>
    simp only [List.cons_append, joinLines, List.append_eq, ih, String.append_assoc]

theorem pushErr_under (job : IntegrityVerificationJob) (line : String)
    (h : (job.Report ++ line).utf8ByteSize ≤ errorReportMaxLength) :
    pushErr job line =
      ({ job with ErrorsFound := increment job.ErrorsFound, Report := job.Report ++ line },
        none) := by
  unfold pushErr
  simp only [gt_iff_lt, not_lt.mpr h, if_false]

theorem pushErr_over (job : IntegrityVerificationJob) (line : String)
    (h : errorReportMaxLength < (job.Report ++ line).utf8ByteSize) :
    pushErr job line =
      ({ job with ErrorsFound := increment job.ErrorsFound,
                  Report := job.Report ++ line ++ abortText },
        some .maximumErrorsDetected) := by
  unfold pushErr
  simp only [gt_iff_lt, h, if_true]

theorem scrubBlob_skip (env : WorkerEnv) (st : WorkerState) (blob : Blob)
    (h : ¬ st.job.VolumeId ∈ blob.Volumes) : scrubBlob env st blob = (st, none) := by
  unfold scrubBlob
  simp only [h, not_false_eq_true, if_true]

theorem linesOf_append (xs ys : List WorkerEvent) :
    linesOf (xs ++ ys) = linesOf xs ++ linesOf ys := by
  induction xs with
  | nil => rfl
  | cons ev rest ih =>
    cases ev <;> simp only [List.cons_append, linesOf, List.append_eq, ih, List.append_assoc]

theorem scrubBlob_under (env : WorkerEnv) (st : WorkerState) (blob : Blob)
    (hvol : st.job.VolumeId ∈ blob.Volumes)
    (hcap : reportLines blob (env.scrub st.events blob st.job.VolumeId).1
        (env.scrub st.events blob st.job.VolumeId).2 ≠ [] →
      (st.job.Report ++ joinLines (reportLines blob
        (env.scrub st.events blob st.job.VolumeId).1
        (env.scrub st.events blob st.job.VolumeId).2)).utf8ByteSize ≤ errorReportMaxLength) :
    scrubBlob env st blob =
      ({ st with
          events := st.events ++ [.scrub blob (env.scrub st.events blob st.job.VolumeId).1
            (env.scrub st.events blob st.job.VolumeId).2],
          job := { st.job with
            ErrorsFound := increment^[(reportLines blob
              (env.scrub st.events blob st.job.VolumeId).1
              (env.scrub st.events blob st.job.VolumeId).2).length] st.job.ErrorsFound,
            Report := st.job.Report ++ joinLines (reportLines blob
              (env.scrub st.events blob st.job.VolumeId).1
              (env.scrub st.events blob st.job.VolumeId).2),
            BytesScanned := addScanned st.job.BytesScanned blob } }, none) := by
  unfold scrubBlob
  simp only [hvol, not_true_eq_false, if_false]
  generalize env.scrub st.events blob st.job.VolumeId = result at hcap ⊢
  obtain ⟨n, e⟩ := result
  cases e with
  | none =>
    by_cases hm : goInt 32 n = blob.SizeOnDisk
    · simp only [reportLines, hm, ne_eq, not_true_eq_false, if_false, List.append_nil,
        joinLines, String.append_empty, List.length_nil, Function.iterate_zero, id_eq]
    · simp only [reportLines, hm, ne_eq, not_false_eq_true, if_true, List.nil_append,
        joinLines, String.append_empty] at hcap
      replace hcap := hcap (List.cons_ne_nil _ _)
      simp only [reportLines, hm, ne_eq, not_false_eq_true, if_true, List.nil_append,
        joinLines, String.append_empty, List.length_singleton, Function.iterate_one,
        pushErr_under st.job _ hcap]
  | some msg =>
    by_cases hm : goInt 32 n = blob.SizeOnDisk
    · simp only [reportLines, hm, ne_eq, not_true_eq_false, if_false, List.append_nil,
        joinLines, String.append_empty] at hcap
      replace hcap := hcap (List.cons_ne_nil _ _)
      simp only [reportLines, hm, ne_eq, not_true_eq_false, if_false, List.append_nil,
        joinLines, String.append_empty, List.length_singleton, Function.iterate_one,
        pushErr_under st.job _ hcap]
    · simp only [reportLines, hm, ne_eq, not_false_eq_true, if_true, List.singleton_append,
        joinLines, String.append_empty] at hcap
      replace hcap := hcap (List.cons_ne_nil _ _)
      have h1 : (st.job.Report ++ scrubErrorLine blob msg).utf8ByteSize ≤
          errorReportMaxLength := by
        rw [← String.append_assoc, utf8ByteSize_append] at hcap
        omega
      rw [← String.append_assoc] at hcap
      simp only [reportLines, hm, ne_eq, not_false_eq_true, if_true, List.singleton_append,
        joinLines, String.append_empty, List.length_cons, List.length_singleton,
        pushErr_under st.job _ h1]
      rw [pushErr_under _ _ hcap]
      simp only [String.append_assoc, Function.iterate_succ, Function.iterate_zero,
        Function.comp_apply, id_eq, List.length_nil]

theorem scrubBlob_over (env : WorkerEnv) (st : WorkerState) (blob : Blob)
    (hvol : st.job.VolumeId ∈ blob.Volumes)
    (hne : reportLines blob (env.scrub st.events blob st.job.VolumeId).1
        (env.scrub st.events blob st.job.VolumeId).2 ≠ [])
    (hcap : errorReportMaxLength < (st.job.Report ++ joinLines (reportLines blob
        (env.scrub st.events blob st.job.VolumeId).1
        (env.scrub st.events blob st.job.VolumeId).2)).utf8ByteSize) :
    ∃ appended rest,
      reportLines blob (env.scrub st.events blob st.job.VolumeId).1
        (env.scrub st.events blob st.job.VolumeId).2 = appended ++ rest ∧
      appended ≠ [] ∧
      errorReportMaxLength < (st.job.Report ++ joinLines appended).utf8ByteSize ∧
      scrubBlob env st blob =
        ({ st with
            events := st.events ++ [.scrub blob (env.scrub st.events blob st.job.VolumeId).1
              (env.scrub st.events blob st.job.VolumeId).2],
            job := { st.job with
              ErrorsFound := increment^[appended.length] st.job.ErrorsFound,
              Report := st.job.Report ++ joinLines appended ++ abortText } },
          some (some .maximumErrorsDetected)) := by
  unfold scrubBlob
  simp only [hvol, not_true_eq_false, if_false]
  generalize env.scrub st.events blob st.job.VolumeId = result at hcap hne ⊢
  obtain ⟨n, e⟩ := result
  cases e with
  | none =>
    by_cases hm : goInt 32 n = blob.SizeOnDisk
    · simp only [reportLines, hm, ne_eq, not_true_eq_false, if_false, List.append_nil] at hne
    · simp only [reportLines, hm, ne_eq, not_false_eq_true, if_true, List.nil_append,
        joinLines, String.append_empty] at hcap
      refine ⟨[sizeMismatchLine blob n], [], ?_, List.cons_ne_nil _ _, ?_, ?_⟩
      · simp only [reportLines, hm, ne_eq, not_false_eq_true, if_true, List.nil_append,
          List.append_nil]
      · simpa only [joinLines, String.append_empty] using hcap
      · simp only [hm, ne_eq, not_false_eq_true, if_true, joinLines, String.append_empty,
          List.length_singleton, Function.iterate_one, pushErr_over st.job _ hcap]
  | some msg =>
    by_cases h1 : errorReportMaxLength < (st.job.Report ++ scrubErrorLine blob msg).utf8ByteSize
    · refine ⟨[scrubErrorLine blob msg],
        (if goInt 32 n ≠ blob.SizeOnDisk then [sizeMismatchLine blob n] else []), ?_,
        List.cons_ne_nil _ _, ?_, ?_⟩
      · simp only [reportLines]
      · simpa only [joinLines, String.append_empty] using h1
      · simp only [joinLines, String.append_empty, List.length_singleton, Function.iterate_one,
          pushErr_over st.job _ h1]
    · have h1 := not_lt.mp h1
      by_cases hm : goInt 32 n = blob.SizeOnDisk
      · simp only [reportLines, hm, ne_eq, not_true_eq_false, if_false, List.append_nil,
          joinLines, String.append_empty] at hcap
        omega
      · simp only [reportLines, hm, ne_eq, not_false_eq_true, if_true, List.singleton_append,
          joinLines, String.append_empty] at hcap
        rw [← String.append_assoc] at hcap
        refine ⟨[scrubErrorLine blob msg, sizeMismatchLine blob n], [], ?_,
          List.cons_ne_nil _ _, ?_, ?_⟩
        · simp only [reportLines, hm, ne_eq, not_false_eq_true, if_true, List.singleton_append,
            List.append_nil]
        · simpa only [joinLines, String.append_empty, ← String.append_assoc] using hcap
        · simp only [hm, ne_eq, not_false_eq_true, if_true, pushErr_under st.job _ h1]
          rw [pushErr_over _ _ hcap]
          simp only [joinLines, String.append_empty, String.append_assoc, List.length_cons,
            List.length_singleton, List.length_nil, Function.iterate_succ, Function.iterate_zero,
            Function.comp_apply, id_eq]

theorem reachedBlobs_append (xs ys : List WorkerEvent) :
    reachedBlobs (xs ++ ys) = reachedBlobs xs ++ reachedBlobs ys := by
  simp only [reachedBlobs, List.filterMap_append]

theorem scrubbedBlobs_append (xs ys : List WorkerEvent) :
    scrubbedBlobs (xs ++ ys) = scrubbedBlobs xs ++ scrubbedBlobs ys := by
  simp only [scrubbedBlobs, List.filterMap_append]

theorem reachedBlobs_snoc (xs : List WorkerEvent) (ev : WorkerEvent) :
    reachedBlobs (xs ++ [ev]) = reachedBlobs xs ++
      (match ev with
        | .reach blob => [blob]
        | _ => []) := by
  rw [reachedBlobs_append]; cases ev <;> rfl

theorem scrubbedBlobs_snoc (xs : List WorkerEvent) (ev : WorkerEvent) :
    scrubbedBlobs (xs ++ [ev]) = scrubbedBlobs xs ++
      (match ev with
        | .scrub blob _ _ => [blob]
        | _ => []) := by
  rw [scrubbedBlobs_append]; cases ev <;> rfl

theorem linesOf_snoc (xs : List WorkerEvent) (ev : WorkerEvent) :
    linesOf (xs ++ [ev]) = linesOf xs ++
      (match ev with
        | .scrub blob bytesScanned err => reportLines blob bytesScanned err
        | _ => []) := by
  rw [linesOf_append]; cases ev <;> simp only [linesOf, List.append_nil]

theorem cursorAfter_of_reached_eq (job : IntegrityVerificationJob) (xs ys : List WorkerEvent)
    (h : reachedBlobs xs = reachedBlobs ys) : cursorAfter job xs = cursorAfter job ys := by
  simp only [cursorAfter, h]

theorem cursorAfter_reach (job : IntegrityVerificationJob) (xs : List WorkerEvent)
    (blob : Blob) : cursorAfter job (xs ++ [.reach blob]) = blob.Ref.bytes := by
  simp only [cursorAfter, reachedBlobs_snoc, List.getLast?_append, List.getLast?_singleton,
    Option.or_some]

theorem scrubBlob_tracks (env : WorkerEnv) (job : IntegrityVerificationJob) (st : WorkerState)
    (blob : Blob) (h : st.tracks job) :
    ((scrubBlob env st blob).2 = none ∧ (scrubBlob env st blob).1.tracks job ∨
      (scrubBlob env st blob).2 = some (some .maximumErrorsDetected) ∧
        (scrubBlob env st blob).1.aborted job) ∧
    (scrubBlob env st blob).1.lastStatusUpdate = st.lastStatusUpdate ∧
    ∃ added, (scrubBlob env st blob).1.events = st.events ++ added ∧
      (∀ ev ∈ added, ∃ n e, ev = .scrub blob n e) ∧
      ((scrubBlob env st blob).2 = none →
        scrubbedBlobs added = if st.job.VolumeId ∈ blob.Volumes then [blob] else []) := by
  by_cases hvol : st.job.VolumeId ∈ blob.Volumes
  · obtain ⟨h1, h2, h3, h4, h5, h6, h7, h8, h9⟩ := h
    by_cases hcap : reportLines blob (env.scrub st.events blob st.job.VolumeId).1
        (env.scrub st.events blob st.job.VolumeId).2 ≠ [] →
      (st.job.Report ++ joinLines (reportLines blob
        (env.scrub st.events blob st.job.VolumeId).1
        (env.scrub st.events blob st.job.VolumeId).2)).utf8ByteSize ≤ errorReportMaxLength
    · rw [scrubBlob_under env st blob hvol hcap]
      refine ⟨Or.inl ⟨rfl, h1, h2, h3, h4, ?_, ?_, ?_, ?_, ?_⟩, rfl, _, rfl, ?_, ?_⟩
      · simp only [h5]
        exact cursorAfter_of_reached_eq _ _ _ (by
          simp only [reachedBlobs_snoc, List.append_nil])
      · simp only [h6, scrubbedBlobs_snoc, List.foldl_append, List.foldl_cons, List.foldl_nil]
      · simp only [h7, linesOf_snoc, List.length_append]
        rw [Nat.add_comm, Function.iterate_add_apply]
      · simp only [h8, linesOf_snoc, joinLines_append, String.append_assoc]
      · simp only [linesOf_snoc, joinLines_append]
        intro hne
        by_cases hlines : reportLines blob (env.scrub st.events blob st.job.VolumeId).1
            (env.scrub st.events blob st.job.VolumeId).2 = []
        · rw [hlines] at hne ⊢
          rw [List.append_nil] at hne
          simp only [joinLines, String.append_empty]
          exact h9 hne
        · have := hcap hlines
          rw [h8, String.append_assoc] at this
          exact this
      · intro ev hev
        rw [List.mem_singleton] at hev
        exact ⟨_, _, hev⟩
      · intro _
        rw [if_pos hvol]; rfl
    · push_neg at hcap
      obtain ⟨appended, rest, _, _, hover, heq⟩ := scrubBlob_over env st blob hvol hcap.1 hcap.2
      rw [heq]
      refine ⟨Or.inr ⟨rfl, h1, h2, h3, h4, ?_, _, rfl, hover⟩, rfl, _, rfl, ?_, ?_⟩
      · simp only [h5]
        exact cursorAfter_of_reached_eq _ _ _ (by
          simp only [reachedBlobs_snoc, List.append_nil])
      · intro ev hev
        rw [List.mem_singleton] at hev
        exact ⟨_, _, hev⟩
      · intro hnone
        cases hnone
  · rw [scrubBlob_skip env st blob hvol]
    refine ⟨Or.inl ⟨rfl, h⟩, rfl, [], (List.append_nil _).symm, ?_, ?_⟩
    · intro ev hev
      cases hev
    · intro _
      rw [if_neg hvol]; rfl

theorem tracks_of_eq (job : IntegrityVerificationJob) (st st1 : WorkerState)
    (h : st.tracks job) (hjob : st1.job = st.job)
    (hr : reachedBlobs st1.events = reachedBlobs st.events)
    (hs : scrubbedBlobs st1.events = scrubbedBlobs st.events)
    (hl : linesOf st1.events = linesOf st.events) : st1.tracks job := by
  obtain ⟨h1, h2, h3, h4, h5, h6, h7, h8, h9⟩ := h
  refine ⟨hjob ▸ h1, hjob ▸ h2, hjob ▸ h3, hjob ▸ h4, ?_, ?_, ?_, ?_, ?_⟩
  · rw [hjob, h5]; exact cursorAfter_of_reached_eq _ _ _ hr.symm
  · rw [hjob, h6, hs]
  · rw [hjob, h7, hl]
  · rw [hjob, h8, hl]
  · rw [hl]; exact h9

theorem tracks_reach (job : IntegrityVerificationJob) (st : WorkerState) (blob : Blob)
    (t : Time) (h : st.tracks job) :
    WorkerState.tracks
      { job := { st.job with LastCompletedBlobRef := blob.Ref.bytes },
        lastStatusUpdate := t,
        events := st.events ++ [.reach blob] } job := by
  obtain ⟨h1, h2, h3, h4, _, h6, h7, h8, h9⟩ := h
  refine ⟨h1, h2, h3, h4, (cursorAfter_reach _ _ _).symm, ?_, ?_, ?_, ?_⟩
  · simp only [h6, scrubbedBlobs_snoc, List.append_nil]
  · simp only [h7, linesOf_snoc, List.append_nil]
  · simp only [h8, linesOf_snoc, List.append_nil]
  · simp only [linesOf_snoc, List.append_nil]
    exact h9

/-- The loop body for one blob, with its states written out. -/
theorem verifyBlob_eq (env : WorkerEnv) (st : WorkerState) (blob : Blob) :
    verifyBlob env st blob =
      if env.clock (st.events ++ [.reach blob]) - st.lastStatusUpdate ≥ fiveSeconds then
        match env.dbUpdate (st.events ++ [.reach blob]) with
        | some msg =>
          ({ job := { st.job with LastCompletedBlobRef := blob.Ref.bytes },
             lastStatusUpdate := st.lastStatusUpdate,
             events := st.events ++ [.reach blob] ++
               [.persist { st.job with LastCompletedBlobRef := blob.Ref.bytes } false] },
            some (some (.db msg)))
        | none =>
          if env.cancelled (st.events ++ [.reach blob] ++
              [.persist { st.job with LastCompletedBlobRef := blob.Ref.bytes } true]) then
            ({ job := { st.job with LastCompletedBlobRef := blob.Ref.bytes },
               lastStatusUpdate := env.clock (st.events ++ [.reach blob] ++
                 [.persist { st.job with LastCompletedBlobRef := blob.Ref.bytes } true]),
               events := st.events ++ [.reach blob] ++
                 [.persist { st.job with LastCompletedBlobRef := blob.Ref.bytes } true] ++
                 [.poll true] },
              some none)
          else
            scrubBlob env
              { job := { st.job with LastCompletedBlobRef := blob.Ref.bytes },
                lastStatusUpdate := env.clock (st.events ++ [.reach blob] ++
                  [.persist { st.job with LastCompletedBlobRef := blob.Ref.bytes } true]),
                events := st.events ++ [.reach blob] ++
                  [.persist { st.job with LastCompletedBlobRef := blob.Ref.bytes } true] ++
                  [.poll false] } blob
      else
        scrubBlob env
          { job := { st.job with LastCompletedBlobRef := blob.Ref.bytes },
            lastStatusUpdate := st.lastStatusUpdate,
            events := st.events ++ [.reach blob] } blob := by
  unfold verifyBlob
  simp only
  split
  · cases hupd : env.dbUpdate (st.events ++ [.reach blob]) with
    | some msg => simp only [Option.isNone_some]
    | none =>
      simp only [Option.isNone_none]
      split
      · rename_i hc
        simp only [hc]
      · rename_i hc
        simp only [hc]
  · rfl

theorem scrubBlob_tracks_added (env : WorkerEnv) (job : IntegrityVerificationJob)
    (st : WorkerState) (blob : Blob) (h : st.tracks job) :
    ∃ added, (scrubBlob env st blob).1.events = st.events ++ added ∧
      reachedBlobs added = [] ∧ fetchedCursors added = [] ∧ WorkerEvent.poll true ∉ added ∧
      (scrubBlob env st blob).1.lastStatusUpdate = st.lastStatusUpdate ∧
      ((scrubBlob env st blob).2 = none ∧ (scrubBlob env st blob).1.tracks job ∧
          scrubbedBlobs added = (if st.job.VolumeId ∈ blob.Volumes then [blob] else []) ∨
        (scrubBlob env st blob).2 = some (some .maximumErrorsDetected) ∧
          (scrubBlob env st blob).1.aborted job) := by
  obtain ⟨hcases, hlast, added, hadded, hall, hscrubbed⟩ := scrubBlob_tracks env job st blob h
  have hcases2 : (scrubBlob env st blob).2 = none ∧ (scrubBlob env st blob).1.tracks job ∧
          scrubbedBlobs added = (if st.job.VolumeId ∈ blob.Volumes then [blob] else []) ∨
        (scrubBlob env st blob).2 = some (some .maximumErrorsDetected) ∧
          (scrubBlob env st blob).1.aborted job := by
    rcases hcases with ⟨h1, h2⟩ | h1
    · exact Or.inl ⟨h1, h2, hscrubbed h1⟩
    · exact Or.inr h1
  refine ⟨added, hadded, ?_, ?_, ?_, hlast, hcases2⟩
  · simp only [reachedBlobs, List.filterMap_eq_nil_iff]
    intro ev hev
    obtain ⟨n, e, rfl⟩ := hall ev hev
    rfl
  · simp only [fetchedCursors, List.filterMap_eq_nil_iff]
    intro ev hev
    obtain ⟨n, e, rfl⟩ := hall ev hev
    rfl
  · intro hmem
    obtain ⟨n, e, hev⟩ := hall _ hmem
    cases hev

/-- The four ways in which the loop body ends for one blob. -/
theorem verifyBlob_tracks (env : WorkerEnv) (job : IntegrityVerificationJob) (st : WorkerState)
    (blob : Blob) (h : st.tracks job) :
    ∃ added, (verifyBlob env st blob).1.events = st.events ++ .reach blob :: added ∧
      reachedBlobs added = [] ∧ fetchedCursors added = [] ∧
      (((verifyBlob env st blob).2 = none ∧ (verifyBlob env st blob).1.tracks job ∧
          WorkerEvent.poll true ∉ added ∧
          scrubbedBlobs added = (if st.job.VolumeId ∈ blob.Volumes then [blob] else [])) ∨
        ((verifyBlob env st blob).2 = some (some .maximumErrorsDetected) ∧
          (verifyBlob env st blob).1.aborted job ∧ WorkerEvent.poll true ∉ added) ∨
        ((∃ msg, (verifyBlob env st blob).2 = some (some (.db msg))) ∧
          (verifyBlob env st blob).1.tracks job ∧ WorkerEvent.poll true ∉ added) ∨
        ((verifyBlob env st blob).2 = some none ∧ (verifyBlob env st blob).1.tracks job ∧
          added = [.persist (verifyBlob env st blob).1.job true, .poll true])) := by
  rw [verifyBlob_eq]
  split
  · -- the status update is due
    cases hupd : env.dbUpdate (st.events ++ [.reach blob]) with
    | some msg =>
      refine ⟨[.persist { st.job with LastCompletedBlobRef := blob.Ref.bytes } false],
        by simp only [List.append_assoc, List.singleton_append],
        rfl, rfl, Or.inr (Or.inr (Or.inl ⟨⟨msg, rfl⟩, ?_, ?_⟩))⟩
      · exact tracks_of_eq job _ _ (tracks_reach job st blob st.lastStatusUpdate h) rfl
          (by simp only [reachedBlobs_snoc, List.append_nil])
          (by simp only [scrubbedBlobs_snoc, List.append_nil])
          (by simp only [linesOf_snoc, List.append_nil])
      · simp only [List.mem_singleton, reduceCtorEq, not_false_eq_true]
    | none =>
      simp only
      split
      · -- cancelled
        refine ⟨[.persist { st.job with LastCompletedBlobRef := blob.Ref.bytes } true,
            .poll true],
          by simp only [List.append_assoc, List.singleton_append, List.cons_append,
            List.nil_append],
          rfl, rfl, Or.inr (Or.inr (Or.inr ⟨rfl, ?_, rfl⟩))⟩
        exact tracks_of_eq job _ _ (tracks_reach job st blob st.lastStatusUpdate h) rfl
          (by simp only [reachedBlobs_snoc, List.append_nil])
          (by simp only [scrubbedBlobs_snoc, List.append_nil])
          (by simp only [linesOf_snoc, List.append_nil])
      · have hst4 : WorkerState.tracks
            { job := { st.job with LastCompletedBlobRef := blob.Ref.bytes },
              lastStatusUpdate := env.clock (st.events ++ [.reach blob] ++
                [.persist { st.job with LastCompletedBlobRef := blob.Ref.bytes } true]),
              events := st.events ++ [.reach blob] ++
                [.persist { st.job with LastCompletedBlobRef := blob.Ref.bytes } true] ++
                [.poll false] } job :=
          tracks_of_eq job _ _ (tracks_reach job st blob st.lastStatusUpdate h) rfl
            (by simp only [reachedBlobs_snoc, List.append_nil])
            (by simp only [scrubbedBlobs_snoc, List.append_nil])
            (by simp only [linesOf_snoc, List.append_nil])
        obtain ⟨added, hadded, hr, hf, hp, _, hcases⟩ :=
          scrubBlob_tracks_added env job _ blob hst4
        refine ⟨[.persist { st.job with LastCompletedBlobRef := blob.Ref.bytes } true,
            .poll false] ++ added, ?_, ?_, ?_, ?_⟩
        · rw [hadded]; simp only [List.append_assoc, List.singleton_append, List.cons_append,
            List.nil_append]
        · rw [reachedBlobs_append, hr]; rfl
        · simp only [fetchedCursors, List.filterMap_append] at hf ⊢
          rw [hf]; rfl
        · have hp2 : WorkerEvent.poll true ∉
              [WorkerEvent.persist { st.job with LastCompletedBlobRef := blob.Ref.bytes } true,
                .poll false] ++ added := by
            simp only [List.cons_append, List.nil_append, List.mem_cons, reduceCtorEq,
              WorkerEvent.poll.injEq, Bool.true_eq_false, false_or]
            exact hp
          rcases hcases with ⟨h1, h2, h3⟩ | ⟨h1, h2⟩
          · refine Or.inl ⟨h1, h2, hp2, ?_⟩
            rw [scrubbedBlobs_append, h3]; rfl
          · exact Or.inr (Or.inl ⟨h1, h2, hp2⟩)
  · obtain ⟨added, hadded, hr, hf, hp, _, hcases⟩ :=
      scrubBlob_tracks_added env job _ blob (tracks_reach job st blob st.lastStatusUpdate h)
    refine ⟨added, ?_, hr, hf, ?_⟩
    · rw [hadded]; simp only [List.append_assoc, List.singleton_append]
    · rcases hcases with ⟨h1, h2, h3⟩ | ⟨h1, h2⟩
      · exact Or.inl ⟨h1, h2, hp, h3⟩
      · exact Or.inr (Or.inl ⟨h1, h2, hp⟩)

theorem reachedBlobs_reach_cons (blob : Blob) (added : List WorkerEvent) :
    reachedBlobs (.reach blob :: added) = blob :: reachedBlobs added := rfl

theorem scrubbedBlobs_reach_cons (blob : Blob) (added : List WorkerEvent) :
    scrubbedBlobs (.reach blob :: added) = scrubbedBlobs added := rfl

theorem fetchedCursors_reach_cons (blob : Blob) (added : List WorkerEvent) :
    fetchedCursors (.reach blob :: added) = fetchedCursors added := rfl

theorem fetchedCursors_append (xs ys : List WorkerEvent) :
    fetchedCursors (xs ++ ys) = fetchedCursors xs ++ fetchedCursors ys := by
  simp only [fetchedCursors, List.filterMap_append]

theorem verifyBlob_settled (env : WorkerEnv) (job : IntegrityVerificationJob) (st : WorkerState)
    (blob : Blob) (h : st.settled job) :
    ∃ added, (verifyBlob env st blob).1.events = st.events ++ .reach blob :: added ∧
      reachedBlobs added = [] ∧ fetchedCursors added = [] ∧
      (((verifyBlob env st blob).2 = none ∧ (verifyBlob env st blob).1.settled job) ∨
        (∃ r, (verifyBlob env st blob).2 = some r ∧
          bodyReturn job (verifyBlob env st blob).1 r)) := by
  obtain ⟨htracks, hpoll, hscrubbed⟩ := h
  obtain ⟨added, hadded, hr, hf, hcases⟩ := verifyBlob_tracks env job st blob htracks
  refine ⟨added, hadded, hr, hf, ?_⟩
  have hnot : WorkerEvent.poll true ∉ added →
      WorkerEvent.poll true ∉ (verifyBlob env st blob).1.events := by
    intro hp
    rw [hadded]
    simp only [List.mem_append, List.mem_cons, reduceCtorEq, false_or, not_or]
    exact ⟨hpoll, hp⟩
  rcases hcases with ⟨h1, h2, h3, h4⟩ | ⟨h1, h2, h3⟩ | ⟨h1, h2, h3⟩ | ⟨h1, h2, h3⟩
  · refine Or.inl ⟨h1, h2, hnot h3, ?_⟩
    rw [hadded, scrubbedBlobs_append, reachedBlobs_append, scrubbedBlobs_reach_cons,
      reachedBlobs_reach_cons, hr, h4, hscrubbed, List.filter_append, htracks.2.2.2.1]
    by_cases hvol : job.VolumeId ∈ blob.Volumes
    · simp only [hvol, if_true, List.filter_cons, decide_True, List.filter_nil]
    · simp only [hvol, if_false, List.filter_cons, decide_False, List.filter_nil]
      rfl
  · exact Or.inr ⟨_, h1, Or.inl ⟨rfl, h2, hnot h3⟩⟩
  · obtain ⟨msg, hmsg⟩ := h1
    exact Or.inr ⟨_, hmsg, Or.inr (Or.inl ⟨⟨msg, rfl⟩, h2, hnot h3⟩)⟩
  · refine Or.inr ⟨_, h1, Or.inr (Or.inr ⟨rfl, h2, st.events ++ [.reach blob],
      ?_, ?_⟩)⟩
    · rw [hadded, h3]
      simp only [List.append_assoc, List.singleton_append]
    · simp only [List.mem_append, List.mem_singleton, reduceCtorEq, or_false]
      exact hpoll

theorem verifyBatch_settled (env : WorkerEnv) (job : IntegrityVerificationJob) :
    ∀ (batch : List Blob) (st : WorkerState), st.settled job →
    ∃ added, (verifyBatch env batch st).1.events = st.events ++ added ∧
      fetchedCursors added = [] ∧ reachedBlobs added <+: batch ∧
      (batch ≠ [] → reachedBlobs added ≠ []) ∧
      (((verifyBatch env batch st).2 = none ∧ (verifyBatch env batch st).1.settled job ∧
          reachedBlobs added = batch) ∨
        (∃ r, (verifyBatch env batch st).2 = some r ∧
          bodyReturn job (verifyBatch env batch st).1 r)) := by
  intro batch
  induction batch with
  | nil =>
    intro st h
    exact ⟨[], (List.append_nil _).symm, rfl, List.prefix_refl _, fun hne => absurd rfl hne,
      Or.inl ⟨rfl, h, rfl⟩⟩
  | cons blob rest ih =>
    intro st h
    obtain ⟨added, hadded, hr, hf, hcases⟩ := verifyBlob_settled env job st blob h
    have hreached : reachedBlobs (.reach blob :: added) = [blob] := by
      rw [reachedBlobs_reach_cons, hr]
    rcases hcases with ⟨h1, h2⟩ | ⟨r, h1, h2⟩
    · have heq : verifyBatch env (blob :: rest) st =
          verifyBatch env rest (verifyBlob env st blob).1 := by
        rw [verifyBatch]
        generalize verifyBlob env st blob = out at h1
        obtain ⟨st1, r1⟩ := out
        simp only at h1
        subst h1
        rfl
      obtain ⟨added2, hadded2, hf2, hpre2, _, hcases2⟩ := ih _ h2
      rw [heq]
      refine ⟨(.reach blob :: added) ++ added2, ?_, ?_, ?_, ?_, ?_⟩
      · rw [hadded2, hadded, List.append_assoc]
      · rw [fetchedCursors_append, fetchedCursors_reach_cons, hf, hf2]; rfl
      · rw [reachedBlobs_append, hreached]
        exact (List.prefix_cons_inj blob).mpr hpre2
      · intro _
        rw [reachedBlobs_append, hreached]
        exact List.cons_ne_nil _ _
      · rcases hcases2 with ⟨g1, g2, g3⟩ | g
        · refine Or.inl ⟨g1, g2, ?_⟩
          rw [reachedBlobs_append, hreached, g3]; rfl
        · exact Or.inr g
    · have heq : verifyBatch env (blob :: rest) st =
          ((verifyBlob env st blob).1, some r) := by
        rw [verifyBatch]
        generalize verifyBlob env st blob = out at h1
        obtain ⟨st1, r1⟩ := out
        simp only at h1
        subst h1
        rfl
      rw [heq]
      refine ⟨.reach blob :: added, hadded, ?_, ?_, ?_, Or.inr ⟨r, rfl, h2⟩⟩
      · rw [fetchedCursors_reach_cons, hf]
      · rw [hreached]
        exact (List.prefix_cons_inj blob).mpr (List.nil_prefix)
      · intro _
        rw [hreached]
        exact List.cons_ne_nil _ _

theorem settled_fetch (job : IntegrityVerificationJob) (st : WorkerState) (cursor : Key)
    (h : st.settled job) :
    WorkerState.settled { st with events := st.events ++ [.fetch cursor] } job := by
  obtain ⟨h1, h2, h3⟩ := h
  refine ⟨tracks_of_eq job st _ h1 rfl ?_ ?_ ?_, ?_, ?_⟩
  · simp only [reachedBlobs_snoc, List.append_nil]
  · simp only [scrubbedBlobs_snoc, List.append_nil]
  · simp only [linesOf_snoc, List.append_nil]
  · simp only [List.mem_append, List.mem_singleton, reduceCtorEq, or_false]
    exact h2
  · simp only [scrubbedBlobs_snoc, reachedBlobs_snoc, List.append_nil]
    exact h3

theorem batchLoop_exit (env : WorkerEnv) (limit : Nat) (job : IntegrityVerificationJob) :
    ∀ (fuel : Nat) (st : WorkerState) (out : WorkerState × Option ScrubError),
      st.settled job → batchLoop env limit fuel st = some out →
      loopExit env job out.1 out.2 ∧ ∃ added, out.1.events = st.events ++ added := by
  intro fuel
  induction fuel with
  | zero =>
    intro st out _ hrun
    simp only [batchLoop] at hrun
    cases hrun
  | succ fuel ih =>
    intro st out h hrun
    have h0 := settled_fetch job st st.job.LastCompletedBlobRef h
    rw [batchLoop] at hrun
    cases hnext : nextBlobsForJob (env.beginTx st.events) st.job.LastCompletedBlobRef limit with
    | error err =>
      rw [hnext] at hrun
      simp only [Option.some.injEq] at hrun
      subst hrun
      have hdb : ∃ msg, err = .db msg := by
        unfold nextBlobsForJob at hnext
        cases htx : env.beginTx st.events with
        | error msg => rw [htx] at hnext; simp only [Except.error.injEq] at hnext; exact ⟨msg, hnext.symm⟩
        | ok records => rw [htx] at hnext; cases hnext
      obtain ⟨msg, rfl⟩ := hdb
      exact ⟨Or.inl (Or.inr (Or.inl ⟨⟨msg, rfl⟩, h0.1, h0.2.1⟩)), _, rfl⟩
    | ok blobBatch =>
      rw [hnext] at hrun
      simp only at hrun
      by_cases hempty : blobBatch.length = 0
      · rw [if_pos hempty] at hrun
        simp only [Option.some.injEq] at hrun
        subst hrun
        exact ⟨Or.inr ⟨rfl, _, h0, rfl⟩, _, rfl⟩
      · rw [if_neg hempty] at hrun
        obtain ⟨added, hadded, _, _, _, hcases⟩ := verifyBatch_settled env job blobBatch _ h0
        generalize verifyBatch env blobBatch
          { st with events := st.events ++ [.fetch st.job.LastCompletedBlobRef] } = vb
          at hrun hadded hcases
        obtain ⟨st1, r1⟩ := vb
        simp only at hadded hcases
        rcases hcases with ⟨g1, g2, _⟩ | ⟨r, g1, g2⟩
        · subst g1
          simp only at hrun
          by_cases hshort : blobBatch.length < limit
          · rw [if_pos hshort] at hrun
            simp only [Option.some.injEq] at hrun
            subst hrun
            refine ⟨Or.inr ⟨rfl, _, g2, rfl⟩,
              [.fetch st.job.LastCompletedBlobRef] ++ added, ?_⟩
            show st1.events = _
            rw [hadded, List.append_assoc]
          · rw [if_neg hshort] at hrun
            obtain ⟨hexit, added2, hadded2⟩ := ih st1 out g2 hrun
            refine ⟨hexit, [.fetch st.job.LastCompletedBlobRef] ++ added ++ added2, ?_⟩
            rw [hadded2, hadded]
            simp only [List.append_assoc]
        · subst g1
          simp only [Option.some.injEq] at hrun
          subst hrun
          refine ⟨Or.inl g2, [.fetch st.job.LastCompletedBlobRef] ++ added, ?_⟩
          show st1.events = _
          rw [hadded, List.append_assoc]

theorem settled_start (job : IntegrityVerificationJob) (t : Time) :
    WorkerState.settled { job := job, lastStatusUpdate := t, events := [] } job := by
  refine ⟨⟨rfl, rfl, rfl, rfl, rfl, rfl, rfl, ?_, ?_⟩, List.not_mem_nil _, rfl⟩
  · simp only [linesOf, joinLines, String.append_empty]
  · intro hne
    exact absurd rfl hne

/-- However the worker returns, its loop was left in one of the four ways, and the deferred
status update is the last thing that it did. -/
theorem resumeJobWorkerWith_exit (limit : Nat) (env : WorkerEnv) (fuel : Nat)
    (job : IntegrityVerificationJob) (st : WorkerState) (returned : Option ScrubError)
    (h : resumeJobWorkerWith limit env fuel job = some (st, returned)) :
    ∃ st0 : WorkerState, loopExit env job st0 returned ∧
      st = { st0 with
        events := st0.events ++ [.persist st0.job (env.dbUpdate st0.events).isNone] } := by
  unfold resumeJobWorkerWith at h
  cases hloop : batchLoop env limit fuel
      { job := job, lastStatusUpdate := env.clock [], events := [] } with
  | none => rw [hloop] at h; cases h
  | some out =>
    rw [hloop] at h
    obtain ⟨st0, r⟩ := out
    simp only [Option.some.injEq, Prod.mk.injEq] at h
    obtain ⟨h1, h2⟩ := h
    subst h2
    exact ⟨st0, (batchLoop_exit env limit job fuel _ _ (settled_start job _) hloop).1, h1.symm⟩

theorem utf8Len_replicate (n : Nat) : String.utf8Len (List.replicate n (Char.ofNat 120)) = n := by
  induction n with
  | zero => rfl
  | succ n ih =>
    rw [List.replicate_succ, String.utf8Len_cons, ih]
    rfl

theorem fullReport_size : fullReport.utf8ByteSize = errorReportMaxLength := by
  rw [fullReport, String.utf8ByteSize_mk, utf8Len_replicate]

/-- The one batch of a worker whose loop body returns in it. -/
theorem batchLoop_returns_in_batch (env : WorkerEnv) (limit fuel : Nat) (st st1 : WorkerState)
    (blobBatch : List Blob) (returned : Option ScrubError)
    (hnext : nextBlobsForJob (env.beginTx st.events) st.job.LastCompletedBlobRef limit =
      .ok blobBatch)
    (hbatch : verifyBatch env blobBatch
      { st with events := st.events ++ [.fetch st.job.LastCompletedBlobRef] } =
        (st1, some returned)) :
    batchLoop env limit (fuel + 1) st = some (st1, returned) := by
  have hne : ¬ blobBatch.length = 0 := by
    intro h0
    rw [List.length_eq_zero] at h0
    subst h0
    simp only [verifyBatch, Prod.mk.injEq, reduceCtorEq, and_false] at hbatch
  rw [batchLoop]
  simp only [hnext, if_neg hne, hbatch]

theorem verifyBatch_returns (env : WorkerEnv) (st st1 : WorkerState) (blob : Blob)
    (rest : List Blob) (returned : Option ScrubError)
    (h : verifyBlob env st blob = (st1, some returned)) :
    verifyBatch env (blob :: rest) st = (st1, some returned) := by
  rw [verifyBatch, h]

theorem scrubBlob_error_over (env : WorkerEnv) (st : WorkerState) (blob : Blob)
    (bytesScanned : Int) (msg : String)
    (hvol : st.job.VolumeId ∈ blob.Volumes)
    (hscrub : env.scrub st.events blob st.job.VolumeId = (bytesScanned, some msg))
    (hover : errorReportMaxLength <
      (st.job.Report ++ scrubErrorLine blob msg).utf8ByteSize) :
    scrubBlob env st blob =
      ({ st with
          events := st.events ++ [.scrub blob bytesScanned (some msg)],
          job := { st.job with
            ErrorsFound := increment st.job.ErrorsFound,
            Report := st.job.Report ++ scrubErrorLine blob msg ++ abortText } },
        some (some .maximumErrorsDetected)) := by
  unfold scrubBlob
  simp only [hvol, not_true_eq_false, if_false, hscrub, pushErr_over st.job _ hover]

/-- A worker whose first blob fails to scrub, with a report line that takes the report over
its maximum length, returns at that blob. -/
theorem resumeJobWorkerWith_aborts_at_first_blob (limit fuel : Nat) (env : WorkerEnv)
    (job : IntegrityVerificationJob) (blob : Blob) (rest : List Blob)
    (bytesScanned : Int) (msg : String)
    (hnext : nextBlobsForJob (env.beginTx []) job.LastCompletedBlobRef limit =
      .ok (blob :: rest))
    (hclock : env.clock [.fetch job.LastCompletedBlobRef, .reach blob] - env.clock [] <
      fiveSeconds)
    (hvol : job.VolumeId ∈ blob.Volumes)
    (hscrub : env.scrub [.fetch job.LastCompletedBlobRef, .reach blob] blob job.VolumeId =
      (bytesScanned, some msg))
    (hover : errorReportMaxLength < (job.Report ++ scrubErrorLine blob msg).utf8ByteSize) :
    resumeJobWorkerWith limit env (fuel + 1) job =
      some ({ job := { job with
                LastCompletedBlobRef := blob.Ref.bytes,
                ErrorsFound := increment job.ErrorsFound,
                Report := job.Report ++ scrubErrorLine blob msg ++ abortText },
              lastStatusUpdate := env.clock [],
              events := [.fetch job.LastCompletedBlobRef, .reach blob,
                .scrub blob bytesScanned (some msg),
                .persist { job with
                  LastCompletedBlobRef := blob.Ref.bytes,
                  ErrorsFound := increment job.ErrorsFound,
                  Report := job.Report ++ scrubErrorLine blob msg ++ abortText }
                  (env.dbUpdate [.fetch job.LastCompletedBlobRef, .reach blob,
                    .scrub blob bytesScanned (some msg)]).isNone] },
        some .maximumErrorsDetected) := by
  have hblob : verifyBlob env
      { job := job, lastStatusUpdate := env.clock [],
        events := [] ++ [.fetch job.LastCompletedBlobRef] } blob =
      ({ job := { job with
            LastCompletedBlobRef := blob.Ref.bytes,
            ErrorsFound := increment job.ErrorsFound,
            Report := job.Report ++ scrubErrorLine blob msg ++ abortText },
          lastStatusUpdate := env.clock [],
          events := [.fetch job.LastCompletedBlobRef, .reach blob,
            .scrub blob bytesScanned (some msg)] },
        some (some .maximumErrorsDetected)) := by
    have hnot : ¬ (env.clock [.fetch job.LastCompletedBlobRef, .reach blob] - env.clock [] ≥
        fiveSeconds) := not_le.mpr hclock
    rw [verifyBlob_eq]
    simp only [List.nil_append, List.singleton_append, hnot, if_false]
    exact scrubBlob_error_over env _ blob bytesScanned msg hvol hscrub hover
  have hloop := batchLoop_returns_in_batch env limit fuel
    { job := job, lastStatusUpdate := env.clock [], events := [] } _ (blob :: rest)
    (some .maximumErrorsDetected) hnext (verifyBatch_returns env _ _ blob rest _ hblob)
  simp only [resumeJobWorkerWith, hloop, List.cons_append, List.nil_append]

theorem fullReport_over :
    errorReportMaxLength <
      (fullJob.Report ++ scrubErrorLine (sampleBlob 1 [1] 10) "read error").utf8ByteSize := by
  show errorReportMaxLength <
      (fullReport ++ scrubErrorLine (sampleBlob 1 [1] 10) "read error").utf8ByteSize
  rw [utf8ByteSize_append, fullReport_size]
  have hpos : 0 < (scrubErrorLine (sampleBlob 1 [1] 10) "read error").utf8ByteSize := by
    decide
  omega

/-- The report and the other fields of a job whose worker did not stop for the length of the
report: they follow from what the worker did, up to the completion of the job. -/
theorem loopExit_tracks (env : WorkerEnv) (job : IntegrityVerificationJob) (st : WorkerState)
    (returned : Option ScrubError) (h : loopExit env job st returned)
    (hne : returned ≠ some .maximumErrorsDetected) :
    ∃ st1 : WorkerState, st1.tracks job ∧ st1.events = st.events ∧
      (st = st1 ∨ returned = none ∧ st1.settled job ∧ st = completeJob env st1) := by
  rcases h with (⟨h1, _, _⟩ | ⟨_, h2, _⟩ | ⟨_, h2, _⟩) | ⟨h1, st1, h2, h3⟩
  · exact absurd h1 hne
  · exact ⟨st, h2, rfl, Or.inl rfl⟩
  · exact ⟨st, h2, rfl, Or.inl rfl⟩
  · exact ⟨st1, h2.1, by rw [h3]; rfl, Or.inr ⟨h1, h2, h3⟩⟩

/-- C11, against the claim: a job is resumed with a report of exactly the maximum length, and
its first blob fails to scrub. The report line takes the report over the maximum length; the
worker returns the error "maximum errors detected" and the report ends with the text about
it, but `Completed` is not set: it still has the zero value that the job came with. -/
theorem resumeJobWorker_over_cap_leaves_Completed_unset :
    errorReportMaxLength <
      (fullJob.Report ++ scrubErrorLine (sampleBlob 1 [1] 10) "read error").utf8ByteSize ∧
    (resumeJobWorker (stillEnv [sampleBlob 1 [1] 10] false failingScrub) 1 fullJob).map
        (fun out => (out.2, out.1.job.Completed, out.1.job.Report)) =
      some (some .maximumErrorsDetected, 0,
        fullReport ++ scrubErrorLine (sampleBlob 1 [1] 10) "read error" ++ abortText) := by
  refine ⟨fullReport_over, ?_⟩
  rw [resumeJobWorker, resumeJobWorkerWith_aborts_at_first_blob batchLimit 0
      (stillEnv [sampleBlob 1 [1] 10] false failingScrub) fullJob (sampleBlob 1 [1] 10) []
      0 "read error" rfl (by decide) (by decide) rfl fullReport_over]
  rfl

/-- C11, amended: when a report line takes the report over 20*1024 bytes, `pushErr` appends
the text "maximum errors detected; aborting job" and returns an error; the loop body returns
that error at once, and so does the worker. The job is then NOT completed: `Completed` keeps
the value that the job came with, no summary line is appended, the report ends with the text
(before which it is longer than the maximum), and the deferred status update writes this job.
A worker that returns in another way never had its report taken over the maximum by a line. -/
theorem resumeJobWorker_aborts_over_cap (env : WorkerEnv) (fuel : Nat)
    (job : IntegrityVerificationJob) (st : WorkerState) (returned : Option ScrubError) :
    (∀ (j : IntegrityVerificationJob) (line : String),
      errorReportMaxLength < (j.Report ++ line).utf8ByteSize →
      pushErr j line =
        ({ j with ErrorsFound := increment j.ErrorsFound,
                  Report := j.Report ++ line ++ abortText }, some .maximumErrorsDetected)) ∧
    (∀ (s : WorkerState) (blob : Blob), s.job.VolumeId ∈ blob.Volumes →
      reportLines blob (env.scrub s.events blob s.job.VolumeId).1
        (env.scrub s.events blob s.job.VolumeId).2 ≠ [] →
      errorReportMaxLength < (s.job.Report ++ joinLines (reportLines blob
        (env.scrub s.events blob s.job.VolumeId).1
        (env.scrub s.events blob s.job.VolumeId).2)).utf8ByteSize →
      (scrubBlob env s blob).2 = some (some .maximumErrorsDetected) ∧
      (scrubBlob env s blob).1.job.Completed = s.job.Completed ∧
      ∃ before, (scrubBlob env s blob).1.job.Report = before ++ abortText ∧
        errorReportMaxLength < before.utf8ByteSize) ∧
    (∀ (s s1 : WorkerState) (blob : Blob) (rest : List Blob) (r : Option ScrubError)
      (n : Nat),
      nextBlobsForJob (env.beginTx s.events) s.job.LastCompletedBlobRef batchLimit =
        .ok (blob :: rest) →
      verifyBlob env { s with events := s.events ++ [.fetch s.job.LastCompletedBlobRef] }
        blob = (s1, some r) →
      batchLoop env batchLimit (n + 1) s = some (s1, r)) ∧
    (resumeJobWorker env fuel job = some (st, returned) →
      returned = some .maximumErrorsDetected →
      st.job.Completed = job.Completed ∧
      (∃ before, st.job.Report = before ++ abortText ∧
        errorReportMaxLength < before.utf8ByteSize) ∧
      ∃ events ok, st.events = events ++ [.persist st.job ok]) ∧
    (resumeJobWorker env fuel job = some (st, returned) →
      returned ≠ some .maximumErrorsDetected →
      linesOf st.events ≠ [] →
      (job.Report ++ joinLines (linesOf st.events)).utf8ByteSize ≤ errorReportMaxLength) := by
  refine ⟨pushErr_over, ?_, ?_, ?_, ?_⟩
  · intro s blob hvol hne hover
    obtain ⟨appended, _, _, _, hover2, heq⟩ := scrubBlob_over env s blob hvol hne hover
    rw [heq]
    exact ⟨rfl, rfl, _, rfl, hover2⟩
  · intro s s1 blob rest r n hnext hblob
    exact batchLoop_returns_in_batch env batchLimit n s s1 (blob :: rest) r hnext
      (verifyBatch_returns env _ s1 blob rest r hblob)
  · intro hrun hret
    obtain ⟨st0, hexit, rfl⟩ := resumeJobWorkerWith_exit batchLimit env fuel job st returned hrun
    subst hret
    rcases hexit with (⟨_, h2, _⟩ | ⟨⟨msg, h1⟩, _, _⟩ | ⟨h1, _, _⟩) | ⟨h1, _⟩
    · exact ⟨h2.2.2.1, h2.2.2.2.2.2, _, _, rfl⟩
    · cases h1
    · cases h1
    · cases h1
  · intro hrun hret hlines
    obtain ⟨st0, hexit, rfl⟩ := resumeJobWorkerWith_exit batchLimit env fuel job st returned hrun
    obtain ⟨st1, htracks, hev, _⟩ := loopExit_tracks env job st0 returned hexit hret
    simp only [linesOf_snoc, List.append_nil, ← hev] at hlines ⊢
    exact htracks.2.2.2.2.2.2.2.2 hlines

theorem resumeJobWorker_aborts_over_cap_witness :
    ∃ st, resumeJobWorker (stillEnv [sampleBlob 1 [1] 10] false failingScrub) 1 fullJob =
        some (st, some .maximumErrorsDetected) ∧
      st.job.Completed = fullJob.Completed ∧
      (∃ before, st.job.Report = before ++ abortText ∧
        errorReportMaxLength < before.utf8ByteSize) ∧
      ∃ events ok, st.events = events ++ [.persist st.job ok] :=
  ⟨_, resumeJobWorkerWith_aborts_at_first_blob batchLimit 0
      (stillEnv [sampleBlob 1 [1] 10] false failingScrub) fullJob (sampleBlob 1 [1] 10) []
      0 "read error" rfl (by decide) (by decide) rfl fullReport_over,
    (resumeJobWorker_aborts_over_cap (stillEnv [sampleBlob 1 [1] 10] false failingScrub) 1
      fullJob _ (some .maximumErrorsDetected)).2.2.2.1
      (resumeJobWorkerWith_aborts_at_first_blob batchLimit 0
        (stillEnv [sampleBlob 1 [1] 10] false failingScrub) fullJob (sampleBlob 1 [1] 10) []
        0 "read error" rfl (by decide) (by decide) rfl fullReport_over) rfl⟩

theorem reportLines_length (blob : Blob) (bytesScanned : Int) (err : Option String) :
    (reportLines blob bytesScanned err).length =
      (if err.isSome then 1 else 0) +
        (if goInt 32 bytesScanned ≠ blob.SizeOnDisk then 1 else 0) := by
  cases err <;> by_cases hm : goInt 32 bytesScanned = blob.SizeOnDisk <;>
    simp [reportLines, hm]

set_option maxRecDepth 100000 in
/-- C13, against the claim: one blob is scrubbed, and the scrub fails to read it. The failure
is recorded as two report lines and two increments of `ErrorsFound`: one for the error, one
for the size, which differs as well. -/
theorem resumeJobWorker_records_failed_blob_twice :
    (resumeJobWorker (stillEnv [sampleBlob 1 [1] 10] false failingScrub) 1
        (newJob "job1" 1)).map
        (fun out => (out.2, scrubbedBlobs out.1.events, out.1.job.ErrorsFound,
          out.1.job.Report)) =
      some (none, [sampleBlob 1 [1] 10], 2,
        "blob 0101010101010101010101010101010101010101010101010101010101010101: read error\n" ++
        "blob 0101010101010101010101010101010101010101010101010101010101010101 size mismatch; " ++
        "expected=10 got=0\n" ++
        "Completed with 2 error(s)\n") := by
  rfl

/-- C13, amended: for every blob that the worker scrubs on the volume of the job, each of the
two checks that fails is recorded as one report line and one increment of `ErrorsFound`: an
error of the scrub, and a size that differs (the bytes scanned, cut to 32 bits, against
`SizeOnDisk`). A blob that fails both checks is recorded twice, a blob that scrubs cleanly adds
nothing. While the report stays within its maximum length the worker then counts the blob in
`BytesScanned` and goes on with the next blob. Hence, unless the worker stops for the length
of the report, `ErrorsFound` has grown by the number of report lines, not of failed blobs. -/
theorem scrubBlob_records_each_failed_check (env : WorkerEnv) (fuel : Nat)
    (job : IntegrityVerificationJob) (st : WorkerState) (returned : Option ScrubError) :
    (∀ (s : WorkerState) (blob : Blob), s.job.VolumeId ∈ blob.Volumes →
      (reportLines blob (env.scrub s.events blob s.job.VolumeId).1
          (env.scrub s.events blob s.job.VolumeId).2 ≠ [] →
        (s.job.Report ++ joinLines (reportLines blob
          (env.scrub s.events blob s.job.VolumeId).1
          (env.scrub s.events blob s.job.VolumeId).2)).utf8ByteSize ≤ errorReportMaxLength) →
      scrubBlob env s blob =
        ({ s with
            events := s.events ++ [.scrub blob (env.scrub s.events blob s.job.VolumeId).1
              (env.scrub s.events blob s.job.VolumeId).2],
            job := { s.job with
              ErrorsFound := increment^[(reportLines blob
                (env.scrub s.events blob s.job.VolumeId).1
                (env.scrub s.events blob s.job.VolumeId).2).length] s.job.ErrorsFound,
              Report := s.job.Report ++ joinLines (reportLines blob
                (env.scrub s.events blob s.job.VolumeId).1
                (env.scrub s.events blob s.job.VolumeId).2),
              BytesScanned := addScanned s.job.BytesScanned blob } }, none)) ∧
    (∀ (blob : Blob) (bytesScanned : Int) (err : Option String),
      (reportLines blob bytesScanned err).length =
        (if err.isSome then 1 else 0) +
          (if goInt 32 bytesScanned ≠ blob.SizeOnDisk then 1 else 0)) ∧
    (resumeJobWorker env fuel job = some (st, returned) →
      returned ≠ some .maximumErrorsDetected →
      st.job.ErrorsFound = increment^[(linesOf st.events).length] job.ErrorsFound ∧
      (st.job.Report = job.Report ++ joinLines (linesOf st.events) ∨
        st.job.Report = job.Report ++ joinLines (linesOf st.events) ++
          summaryLine st.job.ErrorsFound)) ∧
    (∀ (n : Int) (k : Nat), 0 ≤ n → n + k < 2 ^ 63 → increment^[k] n = n + k) := by
  refine ⟨scrubBlob_under env, reportLines_length, ?_, fun n k => increment_iterate k n⟩
  intro hrun hret
  obtain ⟨st0, hexit, rfl⟩ := resumeJobWorkerWith_exit batchLimit env fuel job st returned hrun
  obtain ⟨st1, htracks, hev, hst⟩ := loopExit_tracks env job st0 returned hexit hret
  simp only [linesOf_snoc, List.append_nil, ← hev]
  rcases hst with rfl | ⟨_, _, rfl⟩
  · exact ⟨htracks.2.2.2.2.2.2.1, Or.inl htracks.2.2.2.2.2.2.2.1⟩
  · refine ⟨htracks.2.2.2.2.2.2.1, Or.inr ?_⟩
    show st1.job.Report ++ summaryLine st1.job.ErrorsFound = _
    rw [htracks.2.2.2.2.2.2.2.1]
    rfl

set_option maxRecDepth 100000 in
theorem scrubBlob_records_each_failed_check_witness :
    (resumeJobWorker (stillEnv [sampleBlob 1 [1] 10, sampleBlob 2 [1] 20] false
        (fun blob => if blob.SizeOnDisk = 10 then failingScrub blob else cleanScrub blob)) 1
        (newJob "job1" 1)).map (fun out => (out.2, out.1.job.ErrorsFound,
          (linesOf out.1.events).length, out.1.job.BytesScanned)) = some (none, 2, 2, 30) ∧
    ∀ st, resumeJobWorker (stillEnv [sampleBlob 1 [1] 10, sampleBlob 2 [1] 20] false
        (fun blob => if blob.SizeOnDisk = 10 then failingScrub blob else cleanScrub blob)) 1
        (newJob "job1" 1) = some (st, none) →
      st.job.ErrorsFound = increment^[(linesOf st.events).length] (newJob "job1" 1).ErrorsFound :=
  ⟨rfl, fun st hrun =>
    ((scrubBlob_records_each_failed_check _ 1 (newJob "job1" 1) st none).2.2.1 hrun
      (by decide)).1⟩

theorem pushErr_frame (job : IntegrityVerificationJob) (line : String) :
    (pushErr job line).1.ID = job.ID ∧ (pushErr job line).1.Started = job.Started ∧
    (pushErr job line).1.Completed = job.Completed ∧
    (pushErr job line).1.VolumeId = job.VolumeId ∧
    (pushErr job line).1.LastCompletedBlobRef = job.LastCompletedBlobRef ∧
    (pushErr job line).1.BytesScanned = job.BytesScanned := by
  by_cases h : errorReportMaxLength < (job.Report ++ line).utf8ByteSize
  · rw [pushErr_over job line h]
    exact ⟨rfl, rfl, rfl, rfl, rfl, rfl⟩
  · rw [pushErr_under job line (not_lt.mp h)]
    exact ⟨rfl, rfl, rfl, rfl, rfl, rfl⟩

theorem scrubBlob_cursor (env : WorkerEnv) (st : WorkerState) (blob : Blob) :
    (scrubBlob env st blob).1.job.LastCompletedBlobRef = st.job.LastCompletedBlobRef ∧
    (scrubBlob env st blob).1.lastStatusUpdate = st.lastStatusUpdate := by
  by_cases hvol : st.job.VolumeId ∈ blob.Volumes
  · by_cases hcap : reportLines blob (env.scrub st.events blob st.job.VolumeId).1
        (env.scrub st.events blob st.job.VolumeId).2 ≠ [] →
      (st.job.Report ++ joinLines (reportLines blob
        (env.scrub st.events blob st.job.VolumeId).1
        (env.scrub st.events blob st.job.VolumeId).2)).utf8ByteSize ≤ errorReportMaxLength
    · rw [scrubBlob_under env st blob hvol hcap]
      exact ⟨rfl, rfl⟩
    · push_neg at hcap
      obtain ⟨appended, rest, _, _, _, heq⟩ := scrubBlob_over env st blob hvol hcap.1 hcap.2
      rw [heq]
      exact ⟨rfl, rfl⟩
  · rw [scrubBlob_skip env st blob hvol]
    exact ⟨rfl, rfl⟩

theorem verifyBlob_cursor (env : WorkerEnv) (st : WorkerState) (blob : Blob) :
    (verifyBlob env st blob).1.job.LastCompletedBlobRef = blob.Ref.bytes := by
  rw [verifyBlob_eq]
  split
  · cases hupd : env.dbUpdate (st.events ++ [.reach blob]) with
    | some msg => rfl
    | none =>
      simp only
      split
      · rfl
      · exact (scrubBlob_cursor env _ blob).1
  · exact (scrubBlob_cursor env _ blob).1

theorem verifyBlob_skip (env : WorkerEnv) (st : WorkerState) (blob : Blob)
    (hvol : st.job.VolumeId ∉ blob.Volumes) :
    (verifyBlob env st blob).1.job = { st.job with LastCompletedBlobRef := blob.Ref.bytes } := by
  rw [verifyBlob_eq]
  split
  · cases hupd : env.dbUpdate (st.events ++ [.reach blob]) with
    | some msg => rfl
    | none =>
      simp only
      split
      · rfl
      · rw [scrubBlob_skip]
        exact hvol
  · rw [scrubBlob_skip]
    exact hvol

theorem loopExit_cursor (env : WorkerEnv) (job : IntegrityVerificationJob) (st : WorkerState)
    (returned : Option ScrubError) (h : loopExit env job st returned) :
    st.job.LastCompletedBlobRef = cursorAfter job st.events := by
  rcases h with (⟨_, h2, _⟩ | ⟨_, h2, _⟩ | ⟨_, h2, _⟩) | ⟨_, st1, h2, rfl⟩
  · exact h2.2.2.2.2.1
  · exact h2.2.2.2.2.1
  · exact h2.2.2.2.2.1
  · exact h2.1.2.2.2.2.1

/-- C14: the worker moves `LastCompletedBlobRef` to every blob of a batch when it reaches the
blob, before it looks at the volumes of the blob. So after the loop body, however it ends, the
cursor is at the blob; a blob that is not on the volume of the job changes no other field of
the job; and however the worker returns, the cursor is at the last blob reached (and where it
was when no blob was reached). -/
theorem resumeJobWorker_cursor_at_last_reached (env : WorkerEnv) (fuel : Nat)
    (job : IntegrityVerificationJob) (st : WorkerState) (returned : Option ScrubError) :
    (∀ (s : WorkerState) (blob : Blob),
      (verifyBlob env s blob).1.job.LastCompletedBlobRef = blob.Ref.bytes) ∧
    (∀ (s : WorkerState) (blob : Blob), s.job.VolumeId ∉ blob.Volumes →
      (verifyBlob env s blob).1.job = { s.job with LastCompletedBlobRef := blob.Ref.bytes }) ∧
    (resumeJobWorker env fuel job = some (st, returned) →
      (∀ blob, (reachedBlobs st.events).getLast? = some blob →
        st.job.LastCompletedBlobRef = blob.Ref.bytes) ∧
      (reachedBlobs st.events = [] →
        st.job.LastCompletedBlobRef = job.LastCompletedBlobRef)) := by
  refine ⟨verifyBlob_cursor env, verifyBlob_skip env, ?_⟩
  intro hrun
  obtain ⟨st0, hexit, rfl⟩ := resumeJobWorkerWith_exit batchLimit env fuel job st returned hrun
  have hcursor := loopExit_cursor env job st0 returned hexit
  simp only [reachedBlobs_snoc, List.append_nil]
  constructor
  · intro blob hlast
    rw [hcursor, cursorAfter, hlast]
  · intro hnil
    rw [hcursor, cursorAfter, hnil]
    rfl

set_option maxRecDepth 100000 in
theorem resumeJobWorker_cursor_at_last_reached_witness :
    (verifyBlob (stillEnv [] false cleanScrub)
        { job := newJob "job1" 1, lastStatusUpdate := 1000, events := [] }
        (sampleBlob 3 [2] 30)).1.job =
      { newJob "job1" 1 with LastCompletedBlobRef := (blobRefOf 3).bytes } ∧
    ∃ st, resumeJobWorker (stillEnv [sampleBlob 1 [1] 10, sampleBlob 3 [2] 30] false cleanScrub) 1
        (newJob "job1" 1) = some (st, none) ∧
      (reachedBlobs st.events).getLast? = some (sampleBlob 3 [2] 30) ∧
      st.job.LastCompletedBlobRef = (sampleBlob 3 [2] 30).Ref.bytes :=
  ⟨(resumeJobWorker_cursor_at_last_reached (stillEnv [] false cleanScrub) 0 (newJob "job1" 1)
      { job := newJob "job1" 1, lastStatusUpdate := 1000, events := [] } none).2.1
      { job := newJob "job1" 1, lastStatusUpdate := 1000, events := [] } (sampleBlob 3 [2] 30)
      (by decide),
    (resumeJobWorker (stillEnv [sampleBlob 1 [1] 10, sampleBlob 3 [2] 30] false cleanScrub) 1
        (newJob "job1" 1)).get rfl |>.1, rfl, rfl,
    ((resumeJobWorker_cursor_at_last_reached
      (stillEnv [sampleBlob 1 [1] 10, sampleBlob 3 [2] 30] false cleanScrub) 1
      (newJob "job1" 1) _ none).2.2 rfl).1 (sampleBlob 3 [2] 30) rfl⟩

theorem verifyBlob_not_due (env : WorkerEnv) (st : WorkerState) (blob : Blob)
    (h : env.clock (st.events ++ [.reach blob]) - st.lastStatusUpdate < fiveSeconds) :
    verifyBlob env st blob =
      scrubBlob env
        { job := { st.job with LastCompletedBlobRef := blob.Ref.bytes },
          lastStatusUpdate := st.lastStatusUpdate,
          events := st.events ++ [.reach blob] } blob := by
  have hnot : ¬ (env.clock (st.events ++ [.reach blob]) - st.lastStatusUpdate ≥ fiveSeconds) :=
    not_le.mpr h
  rw [verifyBlob_eq, if_neg hnot]

theorem verifyBlob_cancelled (env : WorkerEnv) (st : WorkerState) (blob : Blob)
    (hdue : fiveSeconds ≤ env.clock (st.events ++ [.reach blob]) - st.lastStatusUpdate)
    (hupd : env.dbUpdate (st.events ++ [.reach blob]) = none)
    (hdone : env.cancelled (st.events ++ [.reach blob] ++
      [.persist { st.job with LastCompletedBlobRef := blob.Ref.bytes } true]) = true) :
    verifyBlob env st blob =
      ({ job := { st.job with LastCompletedBlobRef := blob.Ref.bytes },
         lastStatusUpdate := env.clock (st.events ++ [.reach blob] ++
           [.persist { st.job with LastCompletedBlobRef := blob.Ref.bytes } true]),
         events := st.events ++ [.reach blob] ++
           [.persist { st.job with LastCompletedBlobRef := blob.Ref.bytes } true] ++
           [.poll true] },
        some none) := by
  have hge : env.clock (st.events ++ [.reach blob]) - st.lastStatusUpdate ≥ fiveSeconds := hdue
  rw [verifyBlob_eq, if_pos hge, hupd]
  simp only [hdone, if_true]

/-- A world with another cancellation signal. -/
theorem verifyBatch_still (env : WorkerEnv) (cancelled : List WorkerEvent → Bool)
    (hclock : ∀ events, env.clock events - env.clock [] < fiveSeconds) :
    ∀ (batch : List Blob) (st : WorkerState), st.lastStatusUpdate = env.clock [] →
      verifyBatch { env with cancelled := cancelled } batch st = verifyBatch env batch st ∧
      (verifyBatch env batch st).1.lastStatusUpdate = env.clock [] := by
  intro batch
  induction batch with
  | nil => intro st hst; exact ⟨rfl, hst⟩
  | cons blob rest ih =>
    intro st hst
    have h1 : verifyBlob { env with cancelled := cancelled } st blob = verifyBlob env st blob := by
      rw [verifyBlob_not_due env st blob (hst ▸ hclock _),
        verifyBlob_not_due { env with cancelled := cancelled } st blob (hst ▸ hclock _)]
      rfl
    have h2 : (verifyBlob env st blob).1.lastStatusUpdate = env.clock [] := by
      rw [verifyBlob_not_due env st blob (hst ▸ hclock _), (scrubBlob_cursor env _ blob).2]
      exact hst
    rw [verifyBatch, verifyBatch, h1]
    generalize verifyBlob env st blob = out at h2
    obtain ⟨st1, r⟩ := out
    cases r with
    | some returned => exact ⟨rfl, h2⟩
    | none => exact ih st1 h2

theorem batchLoop_still (env : WorkerEnv) (cancelled : List WorkerEvent → Bool) (limit : Nat)
    (hclock : ∀ events, env.clock events - env.clock [] < fiveSeconds) :
    ∀ (fuel : Nat) (st : WorkerState), st.lastStatusUpdate = env.clock [] →
      batchLoop { env with cancelled := cancelled } limit fuel st =
        batchLoop env limit fuel st := by
  intro fuel
  induction fuel with
  | zero => intro st _; rfl
  | succ fuel ih =>
    intro st hst
    rw [batchLoop, batchLoop]
    show (match nextBlobsForJob (env.beginTx st.events) st.job.LastCompletedBlobRef limit with
      | .error err => _
      | .ok blobBatch => _) = _
    cases hnext : nextBlobsForJob (env.beginTx st.events) st.job.LastCompletedBlobRef limit with
    | error err => rfl
    | ok blobBatch =>
      simp only
      obtain ⟨h1, h2⟩ := verifyBatch_still env cancelled hclock blobBatch
        { st with events := st.events ++ [.fetch st.job.LastCompletedBlobRef] } hst
      rw [h1]
      by_cases hempty : blobBatch.length = 0
      · rw [if_pos hempty, if_pos hempty]
        rfl
      · rw [if_neg hempty, if_neg hempty]
        generalize verifyBatch env blobBatch
          { st with events := st.events ++ [.fetch st.job.LastCompletedBlobRef] } = out at h2
        obtain ⟨st1, r⟩ := out
        cases r with
        | some returned => rfl
        | none =>
          simp only
          by_cases hshort : blobBatch.length < limit
          · rw [if_pos hshort, if_pos hshort]
            rfl
          · rw [if_neg hshort, if_neg hshort]
            exact ih st1 h2

set_option maxRecDepth 100000 in
/-- C15, against the claim: the context of the job is cancelled all along, the clock stands
still so that no status update falls due, and the repository holds one blob. The worker never
looks at the cancellation signal: it scrubs the blob and completes the job, so `Completed` is
set (to the time 1000 of the clock) and the summary line is appended. -/
theorem resumeJobWorker_completes_although_cancelled :
    (stillEnv [sampleBlob 1 [1] 10] true cleanScrub).cancelled [] = true ∧
    (resumeJobWorker (stillEnv [sampleBlob 1 [1] 10] true cleanScrub) 1
        (newJob "job1" 1)).map
        (fun out => (out.2, out.1.job.Completed, out.1.job.Report,
          scrubbedBlobs out.1.events)) =
      some (none, 1000, "Completed with 0 error(s)\n", [sampleBlob 1 [1] 10]) := by
  exact ⟨rfl, rfl⟩

/-- C15, amended: the worker looks at its cancellation signal only right after a status update
that succeeded, which happens at a blob when 5 seconds have passed since the last one, and
not after a batch. When it then finds the context cancelled it returns without error at once:
the blob just reached is not scrubbed, no batch is fetched, `Completed` is not set and no
summary line is appended; the status written just before is that of the job, and the deferred
update writes it once more. While no status update falls due the signal is not looked at, and
the worker runs as if there were no cancellation. -/
theorem resumeJobWorker_polls_after_status_update (env : WorkerEnv) (fuel : Nat)
    (job : IntegrityVerificationJob) (st : WorkerState) (returned : Option ScrubError) :
    (∀ (s : WorkerState) (blob : Blob),
      env.clock (s.events ++ [.reach blob]) - s.lastStatusUpdate < fiveSeconds →
      verifyBlob env s blob =
        scrubBlob env
          { job := { s.job with LastCompletedBlobRef := blob.Ref.bytes },
            lastStatusUpdate := s.lastStatusUpdate,
            events := s.events ++ [.reach blob] } blob) ∧
    (∀ (s : WorkerState) (blob : Blob),
      fiveSeconds ≤ env.clock (s.events ++ [.reach blob]) - s.lastStatusUpdate →
      env.dbUpdate (s.events ++ [.reach blob]) = none →
      env.cancelled (s.events ++ [.reach blob] ++
        [.persist { s.job with LastCompletedBlobRef := blob.Ref.bytes } true]) = true →
      verifyBlob env s blob =
        ({ job := { s.job with LastCompletedBlobRef := blob.Ref.bytes },
           lastStatusUpdate := env.clock (s.events ++ [.reach blob] ++
             [.persist { s.job with LastCompletedBlobRef := blob.Ref.bytes } true]),
           events := s.events ++ [.reach blob] ++
             [.persist { s.job with LastCompletedBlobRef := blob.Ref.bytes } true] ++
             [.poll true] },
          some none)) ∧
    (resumeJobWorker env fuel job = some (st, returned) →
      WorkerEvent.poll true ∈ st.events →
      returned = none ∧ st.job.Completed = job.Completed ∧
      st.job.Report = job.Report ++ joinLines (linesOf st.events) ∧
      ∃ before ok, st.events =
          before ++ [.persist st.job true, .poll true, .persist st.job ok] ∧
        WorkerEvent.poll true ∉ before) ∧
    ((∀ events, env.clock events - env.clock [] < fiveSeconds) →
      ∀ cancelled : List WorkerEvent → Bool,
        resumeJobWorker { env with cancelled := cancelled } fuel job =
          resumeJobWorker env fuel job) := by
  refine ⟨verifyBlob_not_due env, verifyBlob_cancelled env, ?_, ?_⟩
  · intro hrun hpoll
    obtain ⟨st0, hexit, rfl⟩ := resumeJobWorkerWith_exit batchLimit env fuel job st returned hrun
    have hpoll0 : WorkerEvent.poll true ∈ st0.events := by
      simp only [List.mem_append, List.mem_singleton, reduceCtorEq, or_false] at hpoll
      exact hpoll
    rcases hexit with (⟨_, _, h3⟩ | ⟨_, _, h3⟩ | ⟨h1, h2, before, h3, h4⟩) | ⟨_, st1, h2, rfl⟩
    · exact absurd hpoll0 h3
    · exact absurd hpoll0 h3
    · refine ⟨h1, h2.2.2.1, ?_, before, (env.dbUpdate st0.events).isNone, ?_, h4⟩
      · simp only [linesOf_snoc, List.append_nil]
        exact h2.2.2.2.2.2.2.2.1
      · show st0.events ++ [WorkerEvent.persist st0.job (env.dbUpdate st0.events).isNone] =
          before ++ [.persist st0.job true, .poll true,
            .persist st0.job (env.dbUpdate st0.events).isNone]
        generalize (env.dbUpdate st0.events).isNone = ok
        rw [h3]
        simp only [List.append_assoc, List.cons_append, List.nil_append]
    · exact absurd hpoll0 h2.2.1
  · intro hclock cancelled
    simp only [resumeJobWorker, resumeJobWorkerWith]
    rw [batchLoop_still env cancelled batchLimit hclock fuel _ rfl]

set_option maxRecDepth 100000 in
theorem resumeJobWorker_polls_after_status_update_witness :
    ∃ st, resumeJobWorker (cancelledEnv [sampleBlob 1 [1] 10, sampleBlob 2 [1] 20]) 1
        (newJob "job1" 1) = some (st, none) ∧
      WorkerEvent.poll true ∈ st.events ∧
      scrubbedBlobs st.events = [] ∧
      st.job.Completed = (newJob "job1" 1).Completed ∧
      st.job.Report = (newJob "job1" 1).Report ++ joinLines (linesOf st.events) :=
  ⟨(resumeJobWorker (cancelledEnv [sampleBlob 1 [1] 10, sampleBlob 2 [1] 20]) 1
        (newJob "job1" 1)).get rfl |>.1, rfl, by decide, rfl,
    ((resumeJobWorker_polls_after_status_update
      (cancelledEnv [sampleBlob 1 [1] 10, sampleBlob 2 [1] 20]) 1 (newJob "job1" 1) _ none).2.2.1
      rfl (by decide)).2.1,
    ((resumeJobWorker_polls_after_status_update
      (cancelledEnv [sampleBlob 1 [1] 10, sampleBlob 2 [1] 20]) 1 (newJob "job1" 1) _ none).2.2.1
      rfl (by decide)).2.2.1⟩

/-! ## Properties of the integrity verifier: the order of the scan -/

theorem collectBlobs_eq_take (limit : Nat) :
    ∀ (records blobs : List Blob), blobs.length < max limit 1 →
      collectBlobs limit records blobs = blobs ++ records.take (max limit 1 - blobs.length) := by
  intro records
  induction records with
  | nil => intro blobs _; simp only [collectBlobs, List.take_nil, List.append_nil]
  | cons record rest ih =>
    intro blobs hlen
    rw [collectBlobs]
    simp only [List.length_append, List.length_singleton, ge_iff_le]
    by_cases hfull : limit ≤ blobs.length + 1
    · rw [if_pos hfull]
      have h1 : max limit 1 - blobs.length = 1 := by omega
      rw [h1, List.take_succ_cons, List.take_zero]
    · rw [if_neg hfull]
      have h2 : (blobs ++ [record]).length < max limit 1 := by
        simp only [List.length_append, List.length_singleton]; omega
      rw [ih (blobs ++ [record]) h2]
      have h3 : max limit 1 - blobs.length = (max limit 1 - (blobs ++ [record]).length) + 1 := by
        simp only [List.length_append, List.length_singleton]; omega
      rw [h3, List.take_succ_cons, List.append_assoc, List.singleton_append]

theorem nextBlobsForJob_static (records : List Blob) (cursor : Key) (limit : Nat) :
    nextBlobsForJob (.ok records) cursor limit =
      .ok ((eachFrom records cursor).take (max limit 1)) := by
  rw [nextBlobsForJob]
  rw [collectBlobs_eq_take limit _ [] (by simp only [List.length_nil]; omega)]
  simp only [List.nil_append, List.length_nil, Nat.sub_zero]

theorem dropWhile_split {α : Type} (p : α → Bool) (before : List α) (x : α) (after : List α)
    (hbefore : ∀ y ∈ before, p y = true) (hx : p x = false) :
    (before ++ x :: after).dropWhile p = x :: after := by
  induction before with
  | nil => simp only [List.nil_append, List.dropWhile_cons, hx, Bool.false_eq_true, if_false]
  | cons y rest ih =>
    have hy := hbefore y (List.mem_cons_self _ _)
    simp only [List.cons_append, List.dropWhile_cons, hy, if_true]
    exact ih (fun z hz => hbefore z (List.mem_cons_of_mem _ hz))

/-- The scan from the key of a blob of a repository in key order begins with that blob. -/
theorem eachFrom_at_blob (records : List Blob)
    (hsorted : records.Pairwise (fun a b => a.Ref.bytes < b.Ref.bytes))
    (cursor : Key) (before : List Blob) (blob : Blob) (after : List Blob)
    (hat : eachFrom records cursor = before ++ blob :: after) :
    eachFrom records blob.Ref.bytes = blob :: after := by
  have hsplit : records = (records.takeWhile (fun b => decide (b.Ref.bytes < cursor)) ++ before) ++
      blob :: after := by
    rw [List.append_assoc, ← hat, eachFrom, List.takeWhile_append_dropWhile]
  have hpair := hsorted
  rw [hsplit, List.pairwise_append] at hpair
  rw [eachFrom]
  conv_lhs => rw [hsplit]
  apply dropWhile_split
  · intro y hy
    exact decide_eq_true (hpair.2.2 y hy blob (List.mem_cons_self _ _))
  · exact decide_eq_false (lt_irrefl _)

theorem eachFrom_pairwise (records : List Blob)
    (hsorted : records.Pairwise (fun a b => a.Ref.bytes < b.Ref.bytes)) (cursor : Key) :
    (eachFrom records cursor).Pairwise (fun a b => a.Ref.bytes < b.Ref.bytes) :=
  hsorted.sublist (List.dropWhile_sublist _)

theorem eachFrom_ge (cursor : Key) :
    ∀ records : List Blob, records.Pairwise (fun a b => a.Ref.bytes < b.Ref.bytes) →
      ∀ blob ∈ eachFrom records cursor, cursor ≤ blob.Ref.bytes := by
  intro records
  induction records with
  | nil => intro _ blob hblob; cases hblob
  | cons first rest ih =>
    intro hsorted blob hblob
    have hpair := List.pairwise_cons.mp hsorted
    rw [eachFrom, List.dropWhile_cons] at hblob
    by_cases hlt : first.Ref.bytes < cursor
    · rw [if_pos (decide_eq_true hlt)] at hblob
      exact ih hpair.2 blob hblob
    · rw [if_neg (by simpa using hlt)] at hblob
      rcases List.mem_cons.mp hblob with rfl | hrest
      · exact not_lt.mp hlt
      · exact le_trans (not_lt.mp hlt) (le_of_lt (hpair.1 blob hrest))

/-- One turn of the loop of the worker, over the blob records that the read transaction
gives: the worker returns inside the batch, or completes the job after it, or goes on with the
next turn. -/
theorem batchLoop_step (env : WorkerEnv) (limit : Nat) (job : IntegrityVerificationJob)
    (fuel : Nat) (st : WorkerState) (out : WorkerState × Option ScrubError)
    (records : List Blob) (h : st.settled job) (htx : env.beginTx st.events = .ok records)
    (hrun : batchLoop env limit (fuel + 1) st = some out) :
    ∃ added, fetchedCursors added = [] ∧
      reachedBlobs added <+:
        (eachFrom records st.job.LastCompletedBlobRef).take (max limit 1) ∧
      ((eachFrom records st.job.LastCompletedBlobRef).take (max limit 1) ≠ [] →
        reachedBlobs added ≠ []) ∧
      ((out.1.events = st.events ++ .fetch st.job.LastCompletedBlobRef :: added ∧
          bodyReturn job out.1 out.2) ∨
        (reachedBlobs added =
            (eachFrom records st.job.LastCompletedBlobRef).take (max limit 1) ∧
          (((eachFrom records st.job.LastCompletedBlobRef).take (max limit 1)).length = 0 ∨
            ((eachFrom records st.job.LastCompletedBlobRef).take (max limit 1)).length <
              limit) ∧
          out.2 = none ∧
          ∃ st1 : WorkerState, st1.settled job ∧
            st1.events = st.events ++ .fetch st.job.LastCompletedBlobRef :: added ∧
            out.1 = completeJob env st1) ∨
        (reachedBlobs added =
            (eachFrom records st.job.LastCompletedBlobRef).take (max limit 1) ∧
          (eachFrom records st.job.LastCompletedBlobRef).take (max limit 1) ≠ [] ∧
          limit ≤ ((eachFrom records st.job.LastCompletedBlobRef).take (max limit 1)).length ∧
          ∃ st1 : WorkerState, st1.settled job ∧
            st1.events = st.events ++ .fetch st.job.LastCompletedBlobRef :: added ∧
            batchLoop env limit fuel st1 = some out)) := by
  have h0 := settled_fetch job st st.job.LastCompletedBlobRef h
  rw [batchLoop, htx, nextBlobsForJob_static] at hrun
  simp only at hrun
  generalize (eachFrom records st.job.LastCompletedBlobRef).take (max limit 1) = blobBatch
    at hrun ⊢
  by_cases hempty : blobBatch.length = 0
  · rw [if_pos hempty] at hrun
    simp only [Option.some.injEq] at hrun
    subst hrun
    have hnil : blobBatch = [] := List.length_eq_zero.mp hempty
    subst hnil
    refine ⟨[], rfl, List.prefix_refl _, fun hne => absurd rfl hne, Or.inr (Or.inl
      ⟨rfl, Or.inl rfl, rfl, _, h0, rfl, rfl⟩)⟩
  · rw [if_neg hempty] at hrun
    have hne : blobBatch ≠ [] := fun hnil => hempty (by rw [hnil]; rfl)
    obtain ⟨added, hadded, hf, hpre, hreach, hcases⟩ :=
      verifyBatch_settled env job blobBatch _ h0
    generalize verifyBatch env blobBatch
      { st with events := st.events ++ [.fetch st.job.LastCompletedBlobRef] } = vb
      at hrun hadded hcases
    obtain ⟨st1, r1⟩ := vb
    simp only at hadded hcases
    have hev : st1.events = st.events ++ .fetch st.job.LastCompletedBlobRef :: added := by
      rw [hadded, List.append_assoc, List.singleton_append]
    refine ⟨added, hf, hpre, hreach, ?_⟩
    rcases hcases with ⟨g1, g2, g3⟩ | ⟨r, g1, g2⟩
    · subst g1
      simp only at hrun
      by_cases hshort : blobBatch.length < limit
      · rw [if_pos hshort] at hrun
        simp only [Option.some.injEq] at hrun
        subst hrun
        exact Or.inr (Or.inl ⟨g3, Or.inr hshort, rfl, st1, g2, hev, rfl⟩)
      · rw [if_neg hshort] at hrun
        exact Or.inr (Or.inr ⟨g3, hne, not_lt.mp hshort, st1, g2, hev, hrun⟩)
    · subst g1
      simp only [Option.some.injEq] at hrun
      subst hrun
      exact Or.inl ⟨hev, g2⟩

theorem take_succ_split {α : Type} (l : List α) (n : Nat) (h : n + 1 ≤ l.length) :
    ∃ before x after, l = before ++ x :: after ∧ l.take (n + 1) = before ++ [x] ∧
      before.length = n := by
  have hn : n < l.length := h
  refine ⟨l.take n, l[n], l.drop (n + 1), ?_, ?_, ?_⟩
  · rw [← List.drop_eq_getElem_cons hn, List.take_append_drop]
  · rw [List.take_succ, List.getElem?_eq_getElem hn]
    rfl
  · rw [List.length_take]
    omega

theorem cursorAfter_batch (job : IntegrityVerificationJob) (before added : List WorkerEvent)
    (batch : List Blob) (last : Blob) (hreached : reachedBlobs added = batch ++ [last]) :
    cursorAfter job (before ++ added) = last.Ref.bytes := by
  rw [cursorAfter, reachedBlobs_append, hreached, ← List.append_assoc,
    List.getLast?_append, List.getLast?_singleton]
  rfl

/-- The cursor of a worker between two turns is at a blob that it reached last, once it has
reached one. -/
theorem settled_cursor (job : IntegrityVerificationJob) (st : WorkerState)
    (before added : List WorkerEvent) (batch : List Blob) (last : Blob)
    (h : st.settled job) (hev : st.events = before ++ added)
    (hreached : reachedBlobs added = batch ++ [last]) :
    st.job.LastCompletedBlobRef = last.Ref.bytes := by
  rw [h.1.2.2.2.2.1, hev]
  exact cursorAfter_batch job before added batch last hreached

theorem reachedBlobs_fetch_cons (cursor : Key) (added : List WorkerEvent) :
    reachedBlobs (.fetch cursor :: added) = reachedBlobs added := rfl

theorem fetchedCursors_fetch_cons (cursor : Key) (added : List WorkerEvent) :
    fetchedCursors (.fetch cursor :: added) = cursor :: fetchedCursors added := rfl

/-- Over a repository in key order that does not change, the worker goes forward: every blob
that it reaches from some turn on is at or after the cursor of that turn. -/
theorem batchLoop_reached_ge (env : WorkerEnv) (limit : Nat) (job : IntegrityVerificationJob)
    (records : List Blob) (hstatic : ∀ events, env.beginTx events = .ok records)
    (hsorted : records.Pairwise (fun a b => a.Ref.bytes < b.Ref.bytes)) :
    ∀ (fuel : Nat) (st : WorkerState) (out : WorkerState × Option ScrubError),
      st.settled job → batchLoop env limit fuel st = some out →
      ∃ added, out.1.events = st.events ++ added ∧
        ∀ blob ∈ reachedBlobs added, st.job.LastCompletedBlobRef ≤ blob.Ref.bytes := by
  intro fuel
  induction fuel with
  | zero =>
    intro st out _ hrun
    simp only [batchLoop] at hrun
    cases hrun
  | succ fuel ih =>
    intro st out h hrun
    obtain ⟨added, _, hpre, _, hcases⟩ :=
      batchLoop_step env limit job fuel st out records h (hstatic _) hrun
    have hbatch : ∀ blob ∈ reachedBlobs added, st.job.LastCompletedBlobRef ≤ blob.Ref.bytes := by
      intro blob hblob
      exact eachFrom_ge _ records hsorted blob
        (List.mem_of_mem_take (hpre.subset hblob))
    rcases hcases with ⟨hev, _⟩ | ⟨_, _, _, st1, _, hev, hout⟩ |
      ⟨hreached, hne, _, st1, h1, hev, hrun1⟩
    · exact ⟨_, hev, by rw [reachedBlobs_fetch_cons]; exact hbatch⟩
    · refine ⟨.fetch st.job.LastCompletedBlobRef :: added, ?_,
        by rw [reachedBlobs_fetch_cons]; exact hbatch⟩
      rw [hout]
      exact hev
    · obtain ⟨added2, hev2, hge2⟩ := ih st1 out h1 hrun1
      refine ⟨.fetch st.job.LastCompletedBlobRef :: added ++ added2, ?_, ?_⟩
      · rw [hev2, hev]
        simp only [List.append_assoc, List.cons_append]
      · intro blob hblob
        rw [reachedBlobs_append, reachedBlobs_fetch_cons, List.mem_append] at hblob
        rcases hblob with hb | hb
        · exact hbatch blob hb
        · rcases List.eq_nil_or_concat
              ((eachFrom records st.job.LastCompletedBlobRef).take (max limit 1)) with
            hnil | ⟨batch, last, hlast⟩
          · exact absurd hnil hne
          · rw [hlast, List.concat_eq_append] at hreached
            have hcursor := settled_cursor job st1 st.events _ batch last h1 hev
              (by rw [reachedBlobs_fetch_cons]; exact hreached)
            have hlastge := hbatch last (by rw [hreached]; simp)
            have := hge2 blob hb
            rw [hcursor] at this
            exact le_trans hlastge this

/-- A full batch over a repository in key order: the scan from the last blob of the batch
begins with that blob and is shorter than the scan that gave the batch. -/
theorem eachFrom_after_full_batch (records : List Blob)
    (hsorted : records.Pairwise (fun a b => a.Ref.bytes < b.Ref.bytes))
    (cursor : Key) (limit : Nat) (hlimit : 1 ≤ limit)
    (hfull : limit ≤ ((eachFrom records cursor).take (max limit 1)).length) :
    ∃ before boundary after,
      eachFrom records cursor = before ++ boundary :: after ∧
      (eachFrom records cursor).take (max limit 1) = before ++ [boundary] ∧
      before.length = limit - 1 ∧
      eachFrom records boundary.Ref.bytes = boundary :: after := by
  have hmax : max limit 1 = (limit - 1) + 1 := by omega
  have hlen : (limit - 1) + 1 ≤ (eachFrom records cursor).length := by
    rw [List.length_take] at hfull
    omega
  obtain ⟨before, boundary, after, hat, htake, hbefore⟩ :=
    take_succ_split (eachFrom records cursor) (limit - 1) hlen
  refine ⟨before, boundary, after, hat, by rw [hmax]; exact htake, hbefore, ?_⟩
  exact eachFrom_at_blob records hsorted cursor before boundary after hat

/-- Over a repository in key order that does not change, and with batches of two blobs or
more, the loop of the worker ends: one turn more than there are blobs at or after the cursor
is enough. -/
theorem batchLoop_terminates (env : WorkerEnv) (limit : Nat) (job : IntegrityVerificationJob)
    (records : List Blob) (hstatic : ∀ events, env.beginTx events = .ok records)
    (hsorted : records.Pairwise (fun a b => a.Ref.bytes < b.Ref.bytes)) (hlimit : 2 ≤ limit) :
    ∀ (fuel : Nat) (st : WorkerState), st.settled job →
      (eachFrom records st.job.LastCompletedBlobRef).length < fuel →
      ∃ out, batchLoop env limit fuel st = some out := by
  intro fuel
  induction fuel with
  | zero => intro st _ hlen; exact absurd hlen (Nat.not_lt_zero _)
  | succ fuel ih =>
    intro st h hlen
    have h0 := settled_fetch job st st.job.LastCompletedBlobRef h
    rw [batchLoop, hstatic, nextBlobsForJob_static]
    simp only
    by_cases hempty : ((eachFrom records st.job.LastCompletedBlobRef).take (max limit 1)).length = 0
    · rw [if_pos hempty]
      exact ⟨_, rfl⟩
    · rw [if_neg hempty]
      obtain ⟨added, hadded, _, _, _, hcases⟩ := verifyBatch_settled env job
        ((eachFrom records st.job.LastCompletedBlobRef).take (max limit 1)) _ h0
      generalize verifyBatch env
        ((eachFrom records st.job.LastCompletedBlobRef).take (max limit 1))
        { st with events := st.events ++ [.fetch st.job.LastCompletedBlobRef] } = vb
        at hadded hcases
      obtain ⟨st1, r1⟩ := vb
      simp only at hadded hcases
      rcases hcases with ⟨g1, g2, g3⟩ | ⟨r, g1, _⟩
      · subst g1
        simp only
        by_cases hshort :
            ((eachFrom records st.job.LastCompletedBlobRef).take (max limit 1)).length < limit
        · rw [if_pos hshort]
          exact ⟨_, rfl⟩
        · rw [if_neg hshort]
          obtain ⟨before, boundary, after, hat, htake, hbefore, hnext⟩ :=
            eachFrom_after_full_batch records hsorted st.job.LastCompletedBlobRef limit
              (by omega) (not_lt.mp hshort)
          have hcursor : st1.job.LastCompletedBlobRef = boundary.Ref.bytes :=
            settled_cursor job st1 _ added before boundary g2 hadded (by rw [g3, htake])
          apply ih st1 g2
          rw [hcursor, hnext]
          rw [hat] at hlen
          simp only [List.length_append, List.length_cons] at hlen ⊢
          omega
      · subst g1
        exact ⟨_, rfl⟩

theorem resumeJobWorkerWith_terminates (env : WorkerEnv) (limit : Nat)
    (job : IntegrityVerificationJob) (records : List Blob)
    (hstatic : ∀ events, env.beginTx events = .ok records)
    (hsorted : records.Pairwise (fun a b => a.Ref.bytes < b.Ref.bytes)) (hlimit : 2 ≤ limit) :
    ∃ out, resumeJobWorkerWith limit env (records.length + 1) job = some out := by
  have hlen : (eachFrom records job.LastCompletedBlobRef).length < records.length + 1 :=
    Nat.lt_succ_of_le (List.dropWhile_sublist _).length_le
  obtain ⟨out, hout⟩ := batchLoop_terminates env limit job records hstatic hsorted hlimit
    (records.length + 1) { job := job, lastStatusUpdate := env.clock [], events := [] }
    (settled_start job _) hlen
  rw [resumeJobWorkerWith, hout]
  exact ⟨_, rfl⟩

theorem take_before_boundary {α : Type} (before : List α) (boundary : α) (after : List α)
    (n : Nat) (hn : before.length + 1 = n) :
    (before ++ boundary :: after).take (max n 1) = before ++ [boundary] := by
  have hmax : max n 1 = before.length + 1 := by omega
  rw [hmax, List.take_append_eq_append_take, List.take_of_length_le (by omega)]
  have h1 : before.length + 1 - before.length = 1 := by omega
  rw [h1, List.take_succ_cons, List.take_zero]

/-- Over a repository in key order that does not change, with at least `limit` blobs at or
after the cursor: a worker that is not stopped in its first batch fetches its second batch
from the last blob of the first, reaches that blob a second time, and reaches only later blobs
after that. -/
theorem batchLoop_boundary (env : WorkerEnv) (limit : Nat) (job : IntegrityVerificationJob)
    (records : List Blob) (hstatic : ∀ events, env.beginTx events = .ok records)
    (hsorted : records.Pairwise (fun a b => a.Ref.bytes < b.Ref.bytes)) (hlimit : 2 ≤ limit)
    (fuel : Nat) (st : WorkerState) (out : WorkerState × Option ScrubError)
    (before : List Blob) (boundary : Blob) (after : List Blob)
    (h : st.settled job)
    (hat : eachFrom records st.job.LastCompletedBlobRef = before ++ boundary :: after)
    (hbefore : before.length + 1 = limit)
    (hrun : batchLoop env limit fuel st = some out) :
    ∃ added, out.1.events = st.events ++ added ∧
      ((reachedBlobs added <+: before ++ [boundary] ∧
          fetchedCursors added = [st.job.LastCompletedBlobRef] ∧
          bodyReturn job out.1 out.2) ∨
        (∃ rest more, reachedBlobs added = before ++ boundary :: boundary :: rest ∧
          (∀ blob ∈ rest, boundary.Ref.bytes < blob.Ref.bytes) ∧
          fetchedCursors added =
            st.job.LastCompletedBlobRef :: boundary.Ref.bytes :: more)) := by
  cases fuel with
  | zero => simp only [batchLoop] at hrun; cases hrun
  | succ fuel =>
    obtain ⟨added, hf, hpre, _, hcases⟩ :=
      batchLoop_step env limit job fuel st out records h (hstatic _) hrun
    rw [hat, take_before_boundary before boundary after limit hbefore] at hpre hcases
    rcases hcases with ⟨hev, hret⟩ | ⟨_, hshort, _⟩ | ⟨hreached, _, _, st1, h1, hev, hrun1⟩
    · refine ⟨_, hev, Or.inl ⟨by rw [reachedBlobs_fetch_cons]; exact hpre, ?_, hret⟩⟩
      rw [fetchedCursors_fetch_cons, hf]
    · simp only [List.length_append, List.length_singleton] at hshort
      omega
    · have hcursor : st1.job.LastCompletedBlobRef = boundary.Ref.bytes :=
        settled_cursor job st1 st.events _ before boundary h1 hev
          (by rw [reachedBlobs_fetch_cons]; exact hreached)
      have hnext := eachFrom_at_blob records hsorted _ before boundary after hat
      have hpair := eachFrom_pairwise records hsorted st.job.LastCompletedBlobRef
      rw [hat, List.pairwise_append] at hpair
      have hafter : ∀ blob ∈ after, boundary.Ref.bytes < blob.Ref.bytes :=
        (List.pairwise_cons.mp hpair.2.1).1
      cases fuel with
      | zero => simp only [batchLoop] at hrun1; cases hrun1
      | succ fuel =>
        obtain ⟨added2, hf2, hpre2, hne2, hcases2⟩ :=
          batchLoop_step env limit job fuel st1 out records h1 (hstatic _) hrun1
        rw [hcursor, hnext] at hpre2 hne2 hcases2
        have hmax : max limit 1 = (limit - 1) + 1 := by omega
        rw [hmax, List.take_succ_cons] at hpre2 hne2 hcases2
        obtain ⟨tail, htail⟩ : ∃ tail, reachedBlobs added2 = boundary :: tail ∧
            tail <+: after.take (limit - 1) := by
          cases hr2 : reachedBlobs added2 with
          | nil => exact absurd hr2 (hne2 (List.cons_ne_nil _ _))
          | cons first tail =>
            rw [hr2] at hpre2
            obtain ⟨rfl, hp⟩ := List.cons_prefix_cons.mp hpre2
            exact ⟨tail, rfl, hp⟩
        have htailgt : ∀ blob ∈ tail, boundary.Ref.bytes < blob.Ref.bytes := fun blob hb =>
          hafter blob (List.mem_of_mem_take (htail.2.subset hb))
        have hevents : ∀ more, st1.events ++ .fetch boundary.Ref.bytes :: more =
            st.events ++ (.fetch st.job.LastCompletedBlobRef :: added ++
              .fetch boundary.Ref.bytes :: more) := by
          intro more
          rw [hev]
          simp only [List.append_assoc, List.cons_append]
        have hreach2 : ∀ more, reachedBlobs (.fetch st.job.LastCompletedBlobRef :: added ++
            .fetch boundary.Ref.bytes :: more) = before ++ [boundary] ++ reachedBlobs more := by
          intro more
          rw [reachedBlobs_append, reachedBlobs_fetch_cons, reachedBlobs_fetch_cons, hreached]
        have hfetch2 : ∀ more, fetchedCursors (.fetch st.job.LastCompletedBlobRef :: added ++
            .fetch boundary.Ref.bytes :: more) =
            st.job.LastCompletedBlobRef :: boundary.Ref.bytes :: fetchedCursors more := by
          intro more
          rw [fetchedCursors_append, fetchedCursors_fetch_cons, fetchedCursors_fetch_cons, hf]
          rfl
        rcases hcases2 with ⟨hev2, _⟩ | ⟨_, _, _, st2, _, hev2, hout⟩ |
          ⟨hreached2, _, hfull2, st2, h2, hev2, hrun2⟩
        · refine ⟨_, by rw [hev2]; exact hevents added2, Or.inr ⟨tail, [], ?_, htailgt, ?_⟩⟩
          · rw [hreach2, htail.1]
            simp only [List.append_assoc, List.singleton_append]
          · rw [hfetch2, hf2]
        · refine ⟨.fetch st.job.LastCompletedBlobRef :: added ++
              .fetch boundary.Ref.bytes :: added2, ?_, Or.inr ⟨tail, [], ?_, htailgt, ?_⟩⟩
          · rw [hout]
            show st2.events = _
            rw [hev2]; exact hevents added2
          · rw [hreach2, htail.1]
            simp only [List.append_assoc, List.singleton_append]
          · rw [hfetch2, hf2]
        · have hne3 : after.take (limit - 1) ≠ [] := by
            intro hnil
            rw [hnil] at hfull2
            simp only [List.length_singleton] at hfull2
            omega
          rcases List.eq_nil_or_concat (after.take (limit - 1)) with hnil | ⟨batch, last, hlast⟩
          · exact absurd hnil hne3
          · rw [List.concat_eq_append] at hlast
            have hcursor2 : st2.job.LastCompletedBlobRef = last.Ref.bytes :=
              settled_cursor job st2 st1.events _ (boundary :: batch) last h2 hev2
                (by rw [reachedBlobs_fetch_cons, hreached2, hlast]; rfl)
            have hlastgt : boundary.Ref.bytes < last.Ref.bytes :=
              hafter last (List.mem_of_mem_take (by rw [hlast]; simp))
            obtain ⟨added3, hev3, hge3⟩ :=
              batchLoop_reached_ge env limit job records hstatic hsorted fuel st2 out h2 hrun2
            refine ⟨.fetch st.job.LastCompletedBlobRef :: added ++
                .fetch boundary.Ref.bytes :: (added2 ++ added3), ?_,
              Or.inr ⟨after.take (limit - 1) ++ reachedBlobs added3, fetchedCursors added3,
                ?_, ?_, ?_⟩⟩
            · rw [hev3, hev2, ← hevents]
              simp only [List.append_assoc, List.cons_append]
            · rw [hreach2, reachedBlobs_append, hreached2]
              simp only [List.append_assoc, List.singleton_append, List.cons_append,
                List.nil_append]
            · intro blob hblob
              rcases List.mem_append.mp hblob with hb | hb
              · exact hafter blob (List.mem_of_mem_take hb)
              · have := hge3 blob hb
                rw [hcursor2] at this
                exact lt_of_lt_of_le hlastgt this
            · rw [hfetch2, fetchedCursors_append, hf2]
              rfl

theorem bodyReturn_none_poll (job : IntegrityVerificationJob) (st : WorkerState)
    (h : bodyReturn job st none) : WorkerEvent.poll true ∈ st.events := by
  rcases h with ⟨h1, _⟩ | ⟨⟨msg, h1⟩, _⟩ | ⟨_, _, before, hev, _⟩
  · cases h1
  · cases h1
  · rw [hev]
    exact List.mem_append_right _ (List.mem_cons_of_mem _ (List.mem_singleton_self _))

theorem resumeJobWorkerWith_loop (limit : Nat) (env : WorkerEnv) (fuel : Nat)
    (job : IntegrityVerificationJob) (st : WorkerState) (returned : Option ScrubError)
    (h : resumeJobWorkerWith limit env fuel job = some (st, returned)) :
    ∃ st0 : WorkerState,
      batchLoop env limit fuel { job := job, lastStatusUpdate := env.clock [], events := [] } =
        some (st0, returned) ∧
      st = { st0 with
        events := st0.events ++ [.persist st0.job (env.dbUpdate st0.events).isNone] } := by
  unfold resumeJobWorkerWith at h
  cases hloop : batchLoop env limit fuel
      { job := job, lastStatusUpdate := env.clock [], events := [] } with
  | none => rw [hloop] at h; cases h
  | some out =>
    rw [hloop] at h
    obtain ⟨st0, r⟩ := out
    simp only [Option.some.injEq, Prod.mk.injEq] at h
    obtain ⟨h1, h2⟩ := h
    subst h2
    exact ⟨st0, rfl, h1.symm⟩

/-! ## Properties of the upload: the bytes of a chunk -/

theorem goInt_of_lt (bits : Nat) (hbits : 0 < bits) (n : Int) (h0 : 0 ≤ n)
    (h1 : n < 2 ^ (bits - 1)) : goInt bits n = n := by
  unfold goInt
  have hpow : (2 : Int) ^ bits = 2 * 2 ^ (bits - 1) := by
    rw [← pow_succ']
    congr 1
    omega
  have hpos : (0 : Int) < 2 ^ (bits - 1) := by positivity
  rw [hpow, Int.emod_eq_of_lt (by omega) (by omega)]
  omega

theorem goInt_lt (bits : Nat) (hbits : 0 < bits) (n : Int) :
    goInt bits n < 2 ^ (bits - 1) := by
  unfold goInt
  have hpow : (2 : Int) ^ bits = 2 * 2 ^ (bits - 1) := by
    rw [← pow_succ']
    congr 1
    omega
  have hpos : (0 : Int) < 2 ^ (bits - 1) := by positivity
  have := Int.emod_lt_of_pos (n + 2 ^ (bits - 1)) (show (0 : Int) < 2 ^ bits by positivity)
  rw [hpow] at this ⊢
  omega

theorem goInt_32_iff (i : Nat) :
    goInt 32 ((i : Int) * (blobSize : Int)) = (i : Int) * (blobSize : Int) ↔
      i * 4194304 < 2 ^ 31 := by
  have hnat : blobSize = 4194304 := by decide
  have hbs : (blobSize : Int) = 4194304 := by rw [hnat]; rfl
  rw [hbs]
  constructor
  · intro h
    have := goInt_lt 32 (by decide) ((i : Int) * 4194304)
    rw [h] at this
    norm_num at this ⊢
    omega
  · intro h
    apply goInt_of_lt 32 (by decide)
    · omega
    · norm_num at h ⊢
      omega

theorem postsReadAt_nil (intBits : Nat) (content : List Byte) (collectionId : String)
    (refs : List String) (blobIdx : Nat) :
    postsReadAt intBits content collectionId refs blobIdx [] := by
  intro before x after blobRef c body h _
  cases before <;> cases h

theorem postsReadAt_probe (intBits : Nat) (content : List Byte) (collectionId : String)
    (brHex : String) (rest : List String) (blobIdx : Nat) (probedRef : BlobRef)
    (outcome : HttpOutcome) (sent : List Exchange)
    (h : postsReadAt intBits content collectionId rest (blobIdx + 1) sent) :
    postsReadAt intBits content collectionId (brHex :: rest) blobIdx
      ({ request := .head probedRef, outcome := outcome } :: sent) := by
  intro before x after blobRef c body hsplit hpost
  cases before with
  | nil =>
    simp only [List.nil_append, List.cons.injEq] at hsplit
    rw [← hsplit.1] at hpost
    cases hpost
  | cons first before1 =>
    simp only [List.cons_append, List.cons.injEq] at hsplit
    obtain ⟨i, hex, hlen, hget, hdec, hc, hoff, hbody⟩ :=
      h before1 x after blobRef c body hsplit.2 hpost
    have hidx : blobIdx + (i + 1) = blobIdx + 1 + i := by omega
    refine ⟨i + 1, hex, ?_, ?_, hdec, hc, ?_, ?_⟩
    · rw [← hsplit.1]
      simp only [probed, List.filterMap_cons, List.length_cons] at hlen ⊢
      omega
    · simpa using hget
    · rw [hidx]; exact hoff
    · rw [hidx]; exact hbody

theorem postsReadAt_post (intBits : Nat) (content : List Byte) (collectionId : String)
    (brHex : String) (rest : List String) (blobIdx : Nat) (blobRef : BlobRef)
    (probeOutcome postOutcome : HttpOutcome) (sent : List Exchange)
    (hdec : BlobRefFromHex brHex = .ok blobRef)
    (hoff : 0 ≤ goInt intBits ((blobIdx : Int) * (blobSize : Int)))
    (h : postsReadAt intBits content collectionId rest (blobIdx + 1) sent) :
    postsReadAt intBits content collectionId (brHex :: rest) blobIdx
      ({ request := .head blobRef, outcome := probeOutcome } ::
        { request := .postBlob blobRef collectionId
            ((content.drop (goInt intBits ((blobIdx : Int) * (blobSize : Int))).toNat).take
              blobSize),
          outcome := postOutcome } :: sent) := by
  intro before x after ref c body hsplit hpost
  cases before with
  | nil =>
    simp only [List.nil_append, List.cons.injEq] at hsplit
    rw [← hsplit.1] at hpost
    cases hpost
  | cons first before1 =>
    simp only [List.cons_append, List.cons.injEq] at hsplit
    cases before1 with
    | nil =>
      simp only [List.nil_append, List.cons.injEq] at hsplit
      rw [← hsplit.2.1] at hpost
      simp only [Request.postBlob.injEq] at hpost
      obtain ⟨rfl, rfl, rfl⟩ := hpost
      refine ⟨0, brHex, ?_, List.getElem?_cons_zero, hdec, rfl, hoff, rfl⟩
      rw [← hsplit.1]
      rfl
    | cons second before2 =>
      simp only [List.cons_append, List.cons.injEq] at hsplit
      obtain ⟨i, hex, hlen, hget, hdec2, hc, hoff2, hbody⟩ :=
        h before2 x after ref c body hsplit.2.2 hpost
      have hidx : blobIdx + (i + 1) = blobIdx + 1 + i := by omega
      refine ⟨i + 1, hex, ?_, ?_, hdec2, hc, ?_, ?_⟩
      · rw [← hsplit.1, ← hsplit.2.1]
        simp only [probed, List.filterMap_cons, List.length_cons] at hlen ⊢
        omega
      · simpa using hget
      · rw [hidx]; exact hoff2
      · rw [hidx]; exact hbody

/-- Whatever the loop of `uploadChunks` returns, every POST that it issued read its body at
the offset of its index. -/
theorem uploadChunksLoop_posts (Sum256 : List Byte → Digest) (intBits : Nat) (net : Network)
    (content : List Byte) (collectionId : String) :
    ∀ (refs : List String) (blobIdx : Nat) (trace : List Exchange),
      ∃ sent,
        (uploadChunksLoop Sum256 intBits net content collectionId refs blobIdx trace).2 =
          trace ++ sent ∧
        postsReadAt intBits content collectionId refs blobIdx sent := by
  intro refs
  induction refs with
  | nil =>
    intro blobIdx trace
    exact ⟨[], by simp only [uploadChunksLoop, List.append_nil], postsReadAt_nil _ _ _ _ _⟩
  | cons brHex rest ih =>
    intro blobIdx trace
    rw [uploadChunksLoop]
    cases href : BlobRefFromHex brHex with
    | error e =>
      exact ⟨[], by simp only [List.append_nil], postsReadAt_nil _ _ _ _ _⟩
    | ok blobRef =>
      simp only [blobExists_eq]
      generalize net trace (.head blobRef) = probeOutcome
      have hprobeOnly : ∀ outcome : HttpOutcome,
          postsReadAt intBits content collectionId (brHex :: rest) blobIdx
            [{ request := .head blobRef, outcome := outcome }] := fun outcome =>
        postsReadAt_probe _ _ _ _ _ _ _ _ _ (postsReadAt_nil _ _ _ _ _)
      cases probeOutcome with
      | transportFailure => exact ⟨_, rfl, hprobeOnly _⟩
      | response statusCode =>
        simp only
        by_cases h404 : statusCode = 404
        · subst h404
          simp only [if_true]
          by_cases hneg : goInt intBits ((blobIdx : Int) * (blobSize : Int)) < 0
          · rw [if_pos hneg]
            exact ⟨_, rfl, hprobeOnly _⟩
          · rw [if_neg hneg]
            have hoff := not_lt.mp hneg
            generalize net (trace ++ [{ request := .head blobRef, outcome := .response 404 }])
              (Request.postBlob blobRef collectionId
                ((content.drop (goInt intBits ((blobIdx : Int) * (blobSize : Int))).toNat).take
                  blobSize)) = postOutcome
            have hposted := postsReadAt_post intBits content collectionId brHex rest blobIdx
              blobRef (.response 404) postOutcome [] href hoff (postsReadAt_nil _ _ _ _ _)
            split
            · exact ⟨_, by simp only [List.append_assoc, List.singleton_append], hposted⟩
            · split
              · exact ⟨_, by simp only [List.append_assoc, List.singleton_append], hposted⟩
              · apply Exists.elim (ih (blobIdx + 1) _)
                intro sent hsent
                refine ⟨_, ?_, postsReadAt_post intBits content collectionId brHex rest
                  blobIdx blobRef (.response 404) postOutcome sent href hoff hsent.2⟩
                rw [hsent.1]
                simp only [List.append_assoc, List.singleton_append, List.cons_append,
                  List.nil_append]
        · simp only [h404, if_false]
          by_cases h2xx : 200 ≤ statusCode ∧ statusCode ≤ 299
          · simp only [h2xx, and_self, if_true]
            obtain ⟨sent, hsent, hposts⟩ := ih (blobIdx + 1)
              (trace ++ [{ request := .head blobRef, outcome := .response statusCode }])
            exact ⟨_ :: sent, by rw [hsent, List.append_assoc, List.singleton_append],
              postsReadAt_probe _ _ _ _ _ _ _ _ _ hposts⟩
          · simp only [h2xx, if_false]
            exact ⟨_, rfl, hprobeOnly _⟩

/-- One turn of the loop of `uploadChunks` for a blob that the server does not hold: a
negative offset makes the seek fail and nothing is sent; otherwise the bytes read at the
offset are posted. -/
theorem uploadChunksLoop_absent (Sum256 : List Byte → Digest) (intBits : Nat) (net : Network)
    (content : List Byte) (collectionId : String) (brHex : String) (rest : List String)
    (blobIdx : Nat) (trace : List Exchange) (blobRef : BlobRef)
    (hdec : BlobRefFromHex brHex = .ok blobRef)
    (habsent : net trace (.head blobRef) = .response 404) :
    (goInt intBits ((blobIdx : Int) * (blobSize : Int)) < 0 →
      uploadChunksLoop Sum256 intBits net content collectionId (brHex :: rest) blobIdx trace =
        (.error (.seek (goInt intBits ((blobIdx : Int) * (blobSize : Int)))),
          trace ++ [{ request := .head blobRef, outcome := .response 404 }])) ∧
    (0 ≤ goInt intBits ((blobIdx : Int) * (blobSize : Int)) →
      ∃ outcome tail,
        (uploadChunksLoop Sum256 intBits net content collectionId (brHex :: rest) blobIdx
          trace).2 =
          trace ++ [{ request := .head blobRef, outcome := .response 404 },
            { request := .postBlob blobRef collectionId
                ((content.drop
                  (goInt intBits ((blobIdx : Int) * (blobSize : Int))).toNat).take blobSize),
              outcome := outcome }] ++ tail) := by
  rw [uploadChunksLoop, hdec]
  simp only [blobExists_eq, habsent, if_true]
  constructor
  · intro hneg
    rw [if_pos hneg]
  · intro hoff
    rw [if_neg (not_lt.mpr hoff)]
    generalize net (trace ++ [{ request := .head blobRef, outcome := .response 404 }])
      (Request.postBlob blobRef collectionId
        ((content.drop (goInt intBits ((blobIdx : Int) * (blobSize : Int))).toNat).take
          blobSize)) = postOutcome
    split
    · exact ⟨postOutcome, [], by simp only [List.append_assoc, List.singleton_append,
        List.append_nil]⟩
    · split
      · exact ⟨postOutcome, [], by simp only [List.append_assoc, List.singleton_append,
          List.append_nil]⟩
      · apply Exists.elim (uploadChunksLoop_posts Sum256 intBits net content collectionId
          rest (blobIdx + 1) _)
        intro sent hsent
        refine ⟨postOutcome, sent, ?_⟩
        rw [hsent.1]
        simp only [List.append_assoc, List.singleton_append, List.cons_append,
          List.nil_append]

theorem chunksOf_getElem? (Sum256 : List Byte → Digest) (limit : Nat) (content : List Byte)
    (i : Nat) (hex : String)
    (h : ((chunksOf limit content).map (fun c => hexEncode (Sum256 c).val))[i]? = some hex) :
    i < chunkCount limit content.length ∧
      hex = hexEncode (Sum256 (chunkAt limit content i)).val := by
  unfold chunksOf at h
  rw [List.map_map, List.getElem?_map] at h
  cases hr : (List.range (chunkCount limit content.length))[i]? with
  | none => rw [hr] at h; cases h
  | some j =>
    rw [hr] at h
    have hlt := (List.getElem?_eq_some_iff.mp hr).1
    have hj := (List.getElem?_eq_some_iff.mp hr).2
    rw [List.length_range] at hlt
    rw [List.getElem_range] at hj
    subst hj
    simp only [Option.map_some', Function.comp_apply, Option.some.injEq] at h
    exact ⟨hlt, h.symm⟩

/-- C21: `file` is the record that `analyzeFileForChanges` makes of a file, and `uploadChunks`
reads the same bytes. Whatever the run of `uploadChunks` returns, every POST of the run is the
POST of an index `i` into `file.BlobRefs` (the one issued after probe number `i + 1`), its blob
ref is the digest of the `i`-th chunk that `analyzeFileForChanges` hashed, and its body is what
a read of at most `blobSize` bytes gives at the offset `i * blobSize` computed in `int`; when
that product is not changed by `int`, the body is exactly the `i`-th chunk. With an `int` of
64 bits the product is never changed, for a file whose size is a file size (below 2^63). With
an `int` of 32 bits it is unchanged exactly while `i * 4194304 < 2^31`: at index 512 the
offset is negative, the seek fails and nothing is sent, and at index 1024 the offset is 0 and
the bytes sent are those of chunk 0. -/
theorem uploadChunks_sends_hashed_chunk (Sum256 : List Byte → Digest) (intBits : Nat)
    (net : Network) (content : List Byte) (relativePath : String) (fileInfo : FileInfo)
    (file : File) (collection : Collection) (trace : List Exchange)
    (hfile : analyzeFileForChanges Sum256 (.ok content) relativePath fileInfo = .ok file) :
    (∃ sent,
      (uploadChunks Sum256 intBits net (.ok content) file collection trace).2 = trace ++ sent ∧
      ∀ (before : List Exchange) (x : Exchange) (after : List Exchange) (blobRef : BlobRef)
        (c : String) (body : List Byte),
        sent = before ++ x :: after → x.request = .postBlob blobRef c body →
        ∃ i, (probed before).length = i + 1 ∧ i < file.BlobRefs.length ∧
          file.BlobRefs[i]? = some (hexEncode (Sum256 (chunkAt blobSize content i)).val) ∧
          blobRef.AsHex = hexEncode (Sum256 (chunkAt blobSize content i)).val ∧
          0 ≤ goInt intBits ((i : Int) * (blobSize : Int)) ∧
          body = (content.drop
            (goInt intBits ((i : Int) * (blobSize : Int))).toNat).take blobSize ∧
          (goInt intBits ((i : Int) * (blobSize : Int)) = (i : Int) * (blobSize : Int) →
            body = chunkAt blobSize content i)) ∧
    (content.length < 2 ^ 63 → ∀ i, i < file.BlobRefs.length →
      goInt 64 ((i : Int) * (blobSize : Int)) = (i : Int) * (blobSize : Int)) ∧
    (∀ i : Nat, goInt 32 ((i : Int) * (blobSize : Int)) = (i : Int) * (blobSize : Int) ↔
      i * 4194304 < 2 ^ 31) ∧
    (∀ (brHex : String) (rest : List String) (blobRef : BlobRef) (t : List Exchange),
      BlobRefFromHex brHex = .ok blobRef → net t (.head blobRef) = .response 404 →
      uploadChunksLoop Sum256 32 net content collection.ID (brHex :: rest) 512 t =
        (.error (.seek (-2147483648)),
          t ++ [{ request := .head blobRef, outcome := .response 404 }])) ∧
    (∀ (brHex : String) (rest : List String) (blobRef : BlobRef) (t : List Exchange),
      BlobRefFromHex brHex = .ok blobRef → net t (.head blobRef) = .response 404 →
      ∃ outcome tail,
        (uploadChunksLoop Sum256 32 net content collection.ID (brHex :: rest) 1024 t).2 =
          t ++ [{ request := .head blobRef, outcome := .response 404 },
            { request := .postBlob blobRef collection.ID (chunkAt blobSize content 0),
              outcome := outcome }] ++ tail) := by
  have hnat : blobSize = 4194304 := by decide
  have hbs : (blobSize : Int) = 4194304 := by rw [hnat]; rfl
  have hrefs : file.BlobRefs =
      (chunksOf blobSize content).map (fun c => hexEncode (Sum256 c).val) := by
    rw [analyzeFileForChanges_ok] at hfile
    simp only [Except.ok.injEq] at hfile
    rw [← hfile]
  refine ⟨?_, ?_, goInt_32_iff, ?_, ?_⟩
  · obtain ⟨sent, hsent, hposts⟩ := uploadChunksLoop_posts Sum256 intBits net content
      collection.ID file.BlobRefs 0 trace
    refine ⟨sent, hsent, ?_⟩
    intro before x after blobRef c body hsplit hpost
    obtain ⟨i, hex, hlen, hget, hdec, _, hoff, hbody⟩ :=
      hposts before x after blobRef c body hsplit hpost
    rw [Nat.zero_add] at hoff hbody
    have hlt : i < file.BlobRefs.length := (List.getElem?_eq_some_iff.mp hget).1
    rw [hrefs] at hget
    obtain ⟨_, hhex⟩ := chunksOf_getElem? Sum256 blobSize content i hex hget
    subst hhex
    rw [BlobRefFromHex_hexEncode] at hdec
    simp only [Except.ok.injEq] at hdec
    refine ⟨i, hlen, hlt, ?_, ?_, hoff, hbody, ?_⟩
    · rw [hrefs]; exact hget
    · rw [← hdec]; rfl
    · intro heq
      rw [hbody, heq]
      have hcast : ((i : Int) * (blobSize : Int)).toNat = i * blobSize := by
        rw [← Nat.cast_mul, Int.toNat_natCast]
      rw [hcast]
      rfl
  · intro hsize i hi
    rw [hrefs, List.length_map, length_chunksOf,
      lt_chunkCount_iff _ _ _ blobSize_pos] at hi
    apply goInt_of_lt 64 (by decide)
    · rw [hbs]; omega
    · have : ((i * blobSize : Nat) : Int) < ((2 ^ 63 : Nat) : Int) :=
        Int.ofNat_lt.mpr (lt_trans hi hsize)
      rw [Nat.cast_mul] at this
      norm_num at this ⊢
      exact this
  · intro brHex rest blobRef t hdec habsent
    have h512 : goInt 32 (((512 : Nat) : Int) * (blobSize : Int)) = -2147483648 := by
      rw [hbs]; decide
    have hstep := (uploadChunksLoop_absent Sum256 32 net content collection.ID brHex rest 512 t
      blobRef hdec habsent).1 (by rw [h512]; decide)
    rw [h512] at hstep
    exact hstep
  · intro brHex rest blobRef t hdec habsent
    have h1024 : goInt 32 (((1024 : Nat) : Int) * (blobSize : Int)) = 0 := by
      rw [hbs]; decide
    obtain ⟨outcome, tail, hstep⟩ := (uploadChunksLoop_absent Sum256 32 net content
      collection.ID brHex rest 1024 t blobRef hdec habsent).2 (by rw [h1024])
    rw [h1024] at hstep
    refine ⟨outcome, tail, ?_⟩
    rw [hstep]
    rfl

set_option maxRecDepth 100000 in
theorem uploadChunks_sends_hashed_chunk_witness :
    (uploadChunks sumDigest 64 storing (.ok [1, 2, 3, 4]) (sampleRecord "b.txt" [1, 2, 3, 4] 20)
        sampleCollection []).2 =
      [{ request := .head sampleBlobRef, outcome := .response 404 },
       { request := .postBlob sampleBlobRef "coll" [1, 2, 3, 4], outcome := .response 200 }] ∧
    chunkAt blobSize [1, 2, 3, 4] 0 = [1, 2, 3, 4] ∧
    (∃ sent,
      (uploadChunks sumDigest 64 storing (.ok [1, 2, 3, 4]) (sampleRecord "b.txt" [1, 2, 3, 4] 20)
        sampleCollection []).2 = [] ++ sent ∧
      ∀ (before : List Exchange) (x : Exchange) (after : List Exchange) (blobRef : BlobRef)
        (c : String) (body : List Byte),
        sent = before ++ x :: after → x.request = .postBlob blobRef c body →
        ∃ i, (probed before).length = i + 1 ∧
          i < (sampleRecord "b.txt" [1, 2, 3, 4] 20).BlobRefs.length ∧
          (sampleRecord "b.txt" [1, 2, 3, 4] 20).BlobRefs[i]? =
            some (hexEncode (sumDigest (chunkAt blobSize [1, 2, 3, 4] i)).val) ∧
          blobRef.AsHex = hexEncode (sumDigest (chunkAt blobSize [1, 2, 3, 4] i)).val ∧
          0 ≤ goInt 64 ((i : Int) * (blobSize : Int)) ∧
          body = (List.drop (goInt 64 ((i : Int) * (blobSize : Int))).toNat
            [1, 2, 3, 4]).take blobSize ∧
          (goInt 64 ((i : Int) * (blobSize : Int)) = (i : Int) * (blobSize : Int) →
            body = chunkAt blobSize [1, 2, 3, 4] i)) :=
  ⟨by decide, by decide,
    (uploadChunks_sends_hashed_chunk sumDigest 64 storing [1, 2, 3, 4] "b.txt"
      (regularInfo "b.txt" 4 20) (sampleRecord "b.txt" [1, 2, 3, 4] 20) sampleCollection []
      (by decide)).1⟩

/-! ## Properties of the integrity verifier: termination and coverage -/

theorem scrubBlob_added (env : WorkerEnv) (st : WorkerState) (blob : Blob) :
    ((scrubBlob env st blob).2 = none ∨
      (scrubBlob env st blob).2 = some (some .maximumErrorsDetected)) ∧
    ∃ added, (scrubBlob env st blob).1.events = st.events ++ added ∧
      WorkerEvent.poll true ∉ added := by
  by_cases hvol : st.job.VolumeId ∈ blob.Volumes
  · by_cases hcap : reportLines blob (env.scrub st.events blob st.job.VolumeId).1
        (env.scrub st.events blob st.job.VolumeId).2 ≠ [] →
      (st.job.Report ++ joinLines (reportLines blob
        (env.scrub st.events blob st.job.VolumeId).1
        (env.scrub st.events blob st.job.VolumeId).2)).utf8ByteSize ≤ errorReportMaxLength
    · rw [scrubBlob_under env st blob hvol hcap]
      refine ⟨Or.inl rfl, _, rfl, ?_⟩
      simp only [List.mem_singleton, reduceCtorEq, not_false_eq_true]
    · push_neg at hcap
      obtain ⟨appended, rest, _, _, _, heq⟩ := scrubBlob_over env st blob hvol hcap.1 hcap.2
      rw [heq]
      refine ⟨Or.inr rfl, _, rfl, ?_⟩
      simp only [List.mem_singleton, reduceCtorEq, not_false_eq_true]
  · rw [scrubBlob_skip env st blob hvol]
    exact ⟨Or.inl rfl, [], (List.append_nil _).symm, List.not_mem_nil _⟩

/-- How the loop body can return: for the length of the report; with an error of a status
update that failed; without an error only when the cancellation signal was on. Without
cancellation it adds no poll that saw the signal. -/
theorem verifyBlob_kinds (env : WorkerEnv) (st : WorkerState) (blob : Blob) :
    (∀ r, (verifyBlob env st blob).2 = some r →
      r = some .maximumErrorsDetected ∨
      (∃ msg events, r = some (.db msg) ∧ env.dbUpdate events = some msg) ∨
      (r = none ∧ ∃ events, env.cancelled events = true)) ∧
    ((∀ events, env.cancelled events = false) → WorkerEvent.poll true ∉ st.events →
      WorkerEvent.poll true ∉ (verifyBlob env st blob).1.events) := by
  rw [verifyBlob_eq]
  split
  · cases hupd : env.dbUpdate (st.events ++ [.reach blob]) with
    | some msg =>
      refine ⟨?_, ?_⟩
      · intro r hr
        simp only [Option.some.injEq] at hr
        exact Or.inr (Or.inl ⟨msg, _, hr.symm, hupd⟩)
      · intro _ hpoll
        simp only [List.mem_append, List.mem_singleton, reduceCtorEq, or_false]
        exact hpoll
    | none =>
      simp only
      split
      · rename_i hc
        refine ⟨?_, ?_⟩
        · intro r hr
          simp only [Option.some.injEq] at hr
          exact Or.inr (Or.inr ⟨hr.symm, _, hc⟩)
        · intro hno
          rw [hno] at hc
          cases hc
      · obtain ⟨hres, added, hadded, hp⟩ := scrubBlob_added env
          { job := { st.job with LastCompletedBlobRef := blob.Ref.bytes },
            lastStatusUpdate := env.clock (st.events ++ [.reach blob] ++
              [.persist { st.job with LastCompletedBlobRef := blob.Ref.bytes } true]),
            events := st.events ++ [.reach blob] ++
              [.persist { st.job with LastCompletedBlobRef := blob.Ref.bytes } true] ++
              [.poll false] } blob
        refine ⟨?_, ?_⟩
        · intro r hr
          rcases hres with h | h
          · rw [h] at hr; cases hr
          · rw [h] at hr
            simp only [Option.some.injEq] at hr
            exact Or.inl hr.symm
        · intro _ hpoll
          rw [hadded]
          simp only [List.mem_append, List.mem_singleton, reduceCtorEq, or_false,
            WorkerEvent.poll.injEq, Bool.true_eq_false]
          exact fun h => h.elim hpoll hp
  · obtain ⟨hres, added, hadded, hp⟩ := scrubBlob_added env
      { job := { st.job with LastCompletedBlobRef := blob.Ref.bytes },
        lastStatusUpdate := st.lastStatusUpdate,
        events := st.events ++ [.reach blob] } blob
    refine ⟨?_, ?_⟩
    · intro r hr
      rcases hres with h | h
      · rw [h] at hr; cases hr
      · rw [h] at hr
        simp only [Option.some.injEq] at hr
        exact Or.inl hr.symm
    · intro _ hpoll
      rw [hadded]
      simp only [List.mem_append, List.mem_singleton, reduceCtorEq, or_false]
      exact fun h => h.elim hpoll hp

theorem verifyBatch_kinds (env : WorkerEnv) :
    ∀ (batch : List Blob) (st : WorkerState),
      (∀ r, (verifyBatch env batch st).2 = some r →
        r = some .maximumErrorsDetected ∨
        (∃ msg events, r = some (.db msg) ∧ env.dbUpdate events = some msg) ∨
        (r = none ∧ ∃ events, env.cancelled events = true)) ∧
      ((∀ events, env.cancelled events = false) → WorkerEvent.poll true ∉ st.events →
        WorkerEvent.poll true ∉ (verifyBatch env batch st).1.events) := by
  intro batch
  induction batch with
  | nil =>
    intro st
    exact ⟨fun r hr => (by cases hr), fun _ hpoll => hpoll⟩
  | cons blob rest ih =>
    intro st
    obtain ⟨hkind, hpoll⟩ := verifyBlob_kinds env st blob
    rw [verifyBatch]
    generalize verifyBlob env st blob = out at hkind hpoll
    obtain ⟨st1, r1⟩ := out
    cases r1 with
    | some returned =>
      exact ⟨fun r hr => hkind r hr, hpoll⟩
    | none =>
      simp only
      exact ⟨(ih st1).1, fun hno hp => (ih st1).2 hno (hpoll hno hp)⟩

/-- Over blob records that can always be read, the worker returns an error only for the
length of the report or for a status update that failed; without cancellation no poll of its
run saw the signal. -/
theorem batchLoop_kinds (env : WorkerEnv) (limit : Nat) (records : List Blob)
    (hstatic : ∀ events, env.beginTx events = .ok records) :
    ∀ (fuel : Nat) (st : WorkerState) (out : WorkerState × Option ScrubError),
      batchLoop env limit fuel st = some out →
      (∀ err, out.2 = some err →
        err = .maximumErrorsDetected ∨
        ∃ msg events, err = .db msg ∧ env.dbUpdate events = some msg) ∧
      ((∀ events, env.cancelled events = false) → WorkerEvent.poll true ∉ st.events →
        WorkerEvent.poll true ∉ out.1.events) := by
  intro fuel
  induction fuel with
  | zero =>
    intro st out hrun
    simp only [batchLoop] at hrun
    cases hrun
  | succ fuel ih =>
    intro st out hrun
    rw [batchLoop, hstatic, nextBlobsForJob_static] at hrun
    simp only at hrun
    have hfetch : WorkerEvent.poll true ∉ st.events →
        WorkerEvent.poll true ∉ st.events ++ [.fetch st.job.LastCompletedBlobRef] := by
      intro hp
      simp only [List.mem_append, List.mem_singleton, reduceCtorEq, or_false]
      exact hp
    by_cases hempty :
        ((eachFrom records st.job.LastCompletedBlobRef).take (max limit 1)).length = 0
    · rw [if_pos hempty] at hrun
      simp only [Option.some.injEq] at hrun
      subst hrun
      exact ⟨fun err herr => (by cases herr), fun _ hp => hfetch hp⟩
    · rw [if_neg hempty] at hrun
      obtain ⟨hkind, hpoll⟩ := verifyBatch_kinds env
        ((eachFrom records st.job.LastCompletedBlobRef).take (max limit 1))
        { st with events := st.events ++ [.fetch st.job.LastCompletedBlobRef] }
      generalize verifyBatch env
        ((eachFrom records st.job.LastCompletedBlobRef).take (max limit 1))
        { st with events := st.events ++ [.fetch st.job.LastCompletedBlobRef] } = vb
        at hrun hkind hpoll
      obtain ⟨st1, r1⟩ := vb
      cases r1 with
      | some returned =>
        simp only [Option.some.injEq] at hrun
        subst hrun
        refine ⟨?_, fun hno hp => hpoll hno (hfetch hp)⟩
        intro err herr
        simp only at herr
        subst herr
        rcases hkind (some err) rfl with h | ⟨msg, events, h, hupd⟩ | ⟨h, _⟩
        · simp only [Option.some.injEq] at h
          exact Or.inl h
        · simp only [Option.some.injEq] at h
          exact Or.inr ⟨msg, events, h, hupd⟩
        · cases h
      | none =>
        simp only at hrun
        by_cases hshort :
            ((eachFrom records st.job.LastCompletedBlobRef).take (max limit 1)).length < limit
        · rw [if_pos hshort] at hrun
          simp only [Option.some.injEq] at hrun
          subst hrun
          exact ⟨fun err herr => (by cases herr), fun hno hp => hpoll hno (hfetch hp)⟩
        · rw [if_neg hshort] at hrun
          obtain ⟨h1, h2⟩ := ih st1 out hrun
          exact ⟨h1, fun hno hp => h2 hno (hpoll hno (hfetch hp))⟩

theorem batchLoop_fuel_mono (env : WorkerEnv) (limit : Nat) :
    ∀ (fuel : Nat) (st : WorkerState) (out : WorkerState × Option ScrubError),
      batchLoop env limit fuel st = some out →
      ∀ more, batchLoop env limit (fuel + more) st = some out := by
  intro fuel
  induction fuel with
  | zero =>
    intro st out hrun
    simp only [batchLoop] at hrun
    cases hrun
  | succ fuel ih =>
    intro st out hrun more
    have hfuel : fuel + 1 + more = (fuel + more) + 1 := by omega
    rw [hfuel, batchLoop]
    rw [batchLoop] at hrun
    cases hnext : nextBlobsForJob (env.beginTx st.events) st.job.LastCompletedBlobRef limit with
    | error err =>
      rw [hnext] at hrun
      exact hrun
    | ok blobBatch =>
      rw [hnext] at hrun
      simp only at hrun ⊢
      by_cases hempty : blobBatch.length = 0
      · rw [if_pos hempty] at hrun ⊢
        exact hrun
      · rw [if_neg hempty] at hrun ⊢
        generalize verifyBatch env blobBatch
          { st with events := st.events ++ [.fetch st.job.LastCompletedBlobRef] } = vb
          at hrun ⊢
        obtain ⟨st1, r1⟩ := vb
        cases r1 with
        | some returned => exact hrun
        | none =>
          simp only at hrun ⊢
          by_cases hshort : blobBatch.length < limit
          · rw [if_pos hshort] at hrun ⊢
            exact hrun
          · rw [if_neg hshort] at hrun ⊢
            exact ih st1 out hrun more

/-- Over a repository in key order that does not change, a worker that completes the job has
reached every blob at or after the cursor. -/
theorem batchLoop_covers (env : WorkerEnv) (limit : Nat) (job : IntegrityVerificationJob)
    (records : List Blob) (hstatic : ∀ events, env.beginTx events = .ok records)
    (hsorted : records.Pairwise (fun a b => a.Ref.bytes < b.Ref.bytes)) (hlimit : 1 ≤ limit) :
    ∀ (fuel : Nat) (st : WorkerState) (out : WorkerState × Option ScrubError),
      st.settled job → batchLoop env limit fuel st = some out → out.2 = none →
      WorkerEvent.poll true ∉ out.1.events →
      ∃ added, out.1.events = st.events ++ added ∧
        ∀ blob ∈ eachFrom records st.job.LastCompletedBlobRef, blob ∈ reachedBlobs added := by
  intro fuel
  induction fuel with
  | zero =>
    intro st out _ hrun
    simp only [batchLoop] at hrun
    cases hrun
  | succ fuel ih =>
    intro st out h hrun hnone hpoll
    obtain ⟨added, _, _, _, hcases⟩ :=
      batchLoop_step env limit job fuel st out records h (hstatic _) hrun
    rcases hcases with ⟨_, hret⟩ | ⟨hreached, hsmall, _, st1, _, hev, hout⟩ |
      ⟨hreached, _, hfull, st1, h1, hev, hrun1⟩
    · rw [hnone] at hret
      exact absurd (bodyReturn_none_poll job out.1 hret) hpoll
    · have hle : (eachFrom records st.job.LastCompletedBlobRef).length ≤ max limit 1 := by
        rw [List.length_take] at hsmall
        omega
      rw [List.take_of_length_le hle] at hreached
      refine ⟨.fetch st.job.LastCompletedBlobRef :: added, ?_, ?_⟩
      · rw [hout]
        exact hev
      · intro blob hblob
        rw [reachedBlobs_fetch_cons, hreached]
        exact hblob
    · obtain ⟨before, boundary, after, hat, htake, _, hnext⟩ :=
        eachFrom_after_full_batch records hsorted st.job.LastCompletedBlobRef limit hlimit hfull
      rw [htake] at hreached
      have hcursor : st1.job.LastCompletedBlobRef = boundary.Ref.bytes :=
        settled_cursor job st1 st.events _ before boundary h1 hev
          (by rw [reachedBlobs_fetch_cons]; exact hreached)
      obtain ⟨added2, hev2, hcover⟩ := ih st1 out h1 hrun1 hnone hpoll
      rw [hcursor, hnext] at hcover
      refine ⟨.fetch st.job.LastCompletedBlobRef :: added ++ added2, ?_, ?_⟩
      · rw [hev2, hev]
        simp only [List.append_assoc, List.cons_append]
      · intro blob hblob
        rw [hat] at hblob
        rw [reachedBlobs_append, reachedBlobs_fetch_cons, hreached]
        rcases List.mem_append.mp hblob with hb | hb
        · exact List.mem_append_left _ (List.mem_append_left _ hb)
        · exact List.mem_append_right _ (hcover blob hb)

theorem mem_eachFrom (records : List Blob) (cursor : Key) (blob : Blob)
    (hmem : blob ∈ records) (hge : cursor ≤ blob.Ref.bytes) :
    blob ∈ eachFrom records cursor := by
  have hsplit := List.takeWhile_append_dropWhile
    (fun b : Blob => decide (b.Ref.bytes < cursor)) records
  rw [← hsplit] at hmem
  rcases List.mem_append.mp hmem with h | h
  · have := List.mem_takeWhile_imp h
    simp only [decide_eq_true_eq] at this
    exact absurd this (not_lt.mpr hge)
  · exact h

set_option maxRecDepth 100000 in
/-- C22, against the claim: the repository does not change, there is no cancellation and the
scrub finds every blob as recorded, so that the report stays empty; but the status update that
falls due at the first blob fails. The worker returns that error after it has reached the
first blob only: the second blob, whose key is after the cursor, is never reached. -/
theorem resumeJobWorker_stops_at_failed_status_update :
    (failingDbEnv threeBlobs).cancelled = (fun _ => false) ∧
    (failingDbEnv threeBlobs).beginTx = (fun _ => .ok threeBlobs) ∧
    sampleBlob 2 [1] 20 ∈ threeBlobs ∧
    (newJob "job1" 1).LastCompletedBlobRef ≤ (sampleBlob 2 [1] 20).Ref.bytes ∧
    (resumeJobWorker (failingDbEnv threeBlobs) 4 (newJob "job1" 1)).map
        (fun out => (out.2, reachedBlobs out.1.events, out.1.job.Report)) =
      some (some (.db "disk full"), [sampleBlob 1 [1] 10], "") := by
  refine ⟨rfl, rfl, by decide, by decide, rfl⟩

/-- C22, amended: the blob repository does not change (it is in key order and can always be
read) and there is no cancellation; the cursor of the job and what the scrub returns are
whatever they are. Then the loop of the worker ends: one turn more than there are blob records
is enough, and more turns change nothing. The worker returns an error only for the length of
the report or for a status update that failed; when it returns no error it has reached every
blob whose key is at or after the cursor that the job came with. So it reaches every such blob
unless the report cap or a failed status update stops it first, and when no status update
fails only the report cap can stop it. After a full batch of 1000 the cursor is at the last
blob of the batch: the 999 blobs before it are behind the cursor, and the next batch begins
with that blob. -/
theorem resumeJobWorker_terminates_and_covers (env : WorkerEnv) (records : List Blob)
    (job : IntegrityVerificationJob)
    (hstatic : ∀ events, env.beginTx events = .ok records)
    (hsorted : records.Pairwise (fun a b => a.Ref.bytes < b.Ref.bytes))
    (hno : ∀ events, env.cancelled events = false) :
    (∃ out, ∀ fuel, records.length + 1 ≤ fuel → resumeJobWorker env fuel job = some out) ∧
    (∀ (fuel : Nat) (st : WorkerState) (returned : Option ScrubError),
      resumeJobWorker env fuel job = some (st, returned) →
      (returned = none → ∀ blob ∈ records, job.LastCompletedBlobRef ≤ blob.Ref.bytes →
        blob ∈ reachedBlobs st.events) ∧
      (∀ err, returned = some err →
        err = .maximumErrorsDetected ∨
        ∃ msg events, err = .db msg ∧ env.dbUpdate events = some msg) ∧
      ((∀ events, env.dbUpdate events = none) →
        returned = none ∨ returned = some .maximumErrorsDetected)) ∧
    (∀ cursor : Key, batchLimit ≤ ((eachFrom records cursor).take (max batchLimit 1)).length →
      ∃ before boundary after,
        eachFrom records cursor = before ++ boundary :: after ∧
        nextBlobsForJob (.ok records) cursor batchLimit = .ok (before ++ [boundary]) ∧
        before.length = 999 ∧
        eachFrom records boundary.Ref.bytes = boundary :: after) := by
  have hlimit : 2 ≤ batchLimit := by decide
  refine ⟨?_, ?_, ?_⟩
  · have hlen : (eachFrom records job.LastCompletedBlobRef).length < records.length + 1 :=
      Nat.lt_succ_of_le (List.dropWhile_sublist _).length_le
    obtain ⟨out, hout⟩ := batchLoop_terminates env batchLimit job records hstatic hsorted
      hlimit (records.length + 1)
      { job := job, lastStatusUpdate := env.clock [], events := [] } (settled_start job _) hlen
    refine ⟨({ out.1 with events := out.1.events ++
      [.persist out.1.job (env.dbUpdate out.1.events).isNone] }, out.2), ?_⟩
    intro fuel hfuel
    obtain ⟨more, rfl⟩ := Nat.exists_eq_add_of_le hfuel
    rw [resumeJobWorker, resumeJobWorkerWith,
      batchLoop_fuel_mono env batchLimit _ _ out hout more]
  · intro fuel st returned hrun
    obtain ⟨st0, hloop, rfl⟩ := resumeJobWorkerWith_loop batchLimit env fuel job st returned hrun
    obtain ⟨hkind, hpoll⟩ := batchLoop_kinds env batchLimit records hstatic fuel _ _ hloop
    have hpoll0 : WorkerEvent.poll true ∉ st0.events := hpoll hno (List.not_mem_nil _)
    refine ⟨?_, hkind, ?_⟩
    · intro hnone blob hmem hge
      obtain ⟨added, hev, hcover⟩ := batchLoop_covers env batchLimit job records hstatic hsorted
        (by decide) fuel _ _ (settled_start job _) hloop hnone hpoll0
      simp only [List.nil_append] at hev
      simp only [reachedBlobs_snoc, List.append_nil, hev]
      exact hcover blob (mem_eachFrom records _ blob hmem hge)
    · intro hdb
      cases returned with
      | none => exact Or.inl rfl
      | some err =>
        rcases hkind err rfl with h | ⟨msg, events, _, hupd⟩
        · exact Or.inr (by rw [h])
        · rw [hdb] at hupd
          cases hupd
  · intro cursor hfull
    obtain ⟨before, boundary, after, hat, htake, hbefore, hnext⟩ :=
      eachFrom_after_full_batch records hsorted cursor batchLimit (by decide) hfull
    refine ⟨before, boundary, after, hat, ?_, hbefore, hnext⟩
    rw [nextBlobsForJob_static, htake]

set_option maxRecDepth 100000 in
theorem resumeJobWorker_terminates_and_covers_witness :
    ∃ st, resumeJobWorker (stillEnv threeBlobs false cleanScrub) 4 (newJob "job1" 1) =
        some (st, none) ∧
      reachedBlobs st.events = threeBlobs ∧
      sampleBlob 3 [2] 30 ∈ reachedBlobs st.events :=
  ⟨(resumeJobWorker (stillEnv threeBlobs false cleanScrub) 4 (newJob "job1" 1)).get rfl |>.1,
    rfl, rfl,
    ((resumeJobWorker_terminates_and_covers (stillEnv threeBlobs false cleanScrub) threeBlobs
      (newJob "job1" 1) (fun _ => rfl) (by decide) (fun _ => rfl)).2.1 4 _ none rfl).1 rfl
      (sampleBlob 3 [2] 30) (by decide) (by decide)⟩

/-! ## Properties of the integrity verifier: the blob at the boundary of two batches -/

theorem eachFrom_nil (records : List Blob) : eachFrom records [] = records := by
  cases records with
  | nil => rfl
  | cons blob rest =>
    have hnil : ∀ key : Key, ¬ key < [] := fun key h => by cases h
    have hnot : ¬ blob.Ref.bytes < [] := hnil _
    rw [eachFrom, List.dropWhile_cons, decide_eq_false hnot]
    rfl

theorem numberedRef_lt (a b : Nat) (hab : a < b) (hb : b < 65536) :
    (numberedRef a).bytes < (numberedRef b).bytes := by
  have hva : ((Fin.ofNat (a / 256) : Byte) : Nat) = a / 256 := by
    show a / 256 % 256 = a / 256
    omega
  have hvb : ((Fin.ofNat (b / 256) : Byte) : Nat) = b / 256 := by
    show b / 256 % 256 = b / 256
    omega
  have hla : ((Fin.ofNat (a % 256) : Byte) : Nat) = a % 256 := by
    show a % 256 % 256 = a % 256
    omega
  have hlb : ((Fin.ofNat (b % 256) : Byte) : Nat) = b % 256 := by
    show b % 256 % 256 = b % 256
    omega
  show List.Lex (fun x y : Byte => x < y)
    (Fin.ofNat (a / 256) :: Fin.ofNat (a % 256) :: List.replicate 30 (0 : Byte))
    (Fin.ofNat (b / 256) :: Fin.ofNat (b % 256) :: List.replicate 30 (0 : Byte))
  by_cases hhi : a / 256 < b / 256
  · have hlt : (Fin.ofNat (a / 256) : Byte) < Fin.ofNat (b / 256) := by
      rw [Fin.lt_def, hva, hvb]
      exact hhi
    exact List.Lex.rel hlt
  · have heq : (Fin.ofNat (a / 256) : Byte) = Fin.ofNat (b / 256) := by
      apply Fin.ext
      rw [hva, hvb]
      omega
    have hlo : (Fin.ofNat (a % 256) : Byte) < Fin.ofNat (b % 256) := by
      rw [Fin.lt_def, hla, hlb]
      omega
    rw [heq]
    exact List.Lex.cons (List.Lex.rel hlo)

theorem thousandBlobs_sorted :
    thousandBlobs.Pairwise (fun a b => a.Ref.bytes < b.Ref.bytes) := by
  rw [thousandBlobs, List.pairwise_map]
  refine List.Pairwise.imp_of_mem ?_ (List.pairwise_lt_range' 0 1000)
  intro a b _ hb hab
  rw [List.mem_range'_1] at hb
  exact numberedRef_lt a b hab (by omega)

theorem thousandBlobs_split :
    thousandBlobs = (List.range' 0 999).map numberedBlob ++ [numberedBlob 999] := by
  rw [thousandBlobs, show (1000 : Nat) = 999 + 1 from rfl, List.range'_concat, List.map_append]
  rfl

theorem thousandBlobs_cons :
    thousandBlobs = numberedBlob 0 :: (List.range' 1 999).map numberedBlob := rfl

/-- A status update that is due at the first blob of the first batch and fails: the worker
returns the error, having reached that blob only and scrubbed none. -/
theorem resumeJobWorkerWith_first_update_fails (limit : Nat) (env : WorkerEnv)
    (records : List Blob) (fuel : Nat) (job : IntegrityVerificationJob) (first : Blob)
    (rest : List Blob) (msg : String)
    (hbegin : env.beginTx [] = .ok records)
    (h : eachFrom records job.LastCompletedBlobRef = first :: rest)
    (hclock : env.clock [.fetch job.LastCompletedBlobRef, .reach first] - env.clock [] ≥
      fiveSeconds)
    (hdb : env.dbUpdate [.fetch job.LastCompletedBlobRef, .reach first] = some msg) :
    ∃ st, resumeJobWorkerWith limit env (fuel + 1) job = some (st, some (.db msg)) ∧
      reachedBlobs st.events = [first] ∧ scrubbedBlobs st.events = [] ∧
      st.job = { job with LastCompletedBlobRef := first.Ref.bytes } := by
  have hmax : max limit 1 = (max limit 1 - 1) + 1 := by omega
  have htake : (first :: rest).take (max limit 1) = first :: rest.take (max limit 1 - 1) := by
    rw [hmax, List.take_succ_cons]
    rfl
  have hblob : verifyBlob env
      { job := job, lastStatusUpdate := env.clock [],
        events := [.fetch job.LastCompletedBlobRef] } first =
      ({ job := { job with LastCompletedBlobRef := first.Ref.bytes },
         lastStatusUpdate := env.clock [],
         events := [.fetch job.LastCompletedBlobRef, .reach first,
           .persist { job with LastCompletedBlobRef := first.Ref.bytes } false] },
        some (some (.db msg))) := by
    rw [verifyBlob]
    simp only [List.cons_append, List.nil_append]
    rw [if_pos hclock]
    simp only [hdb]
    rfl
  have hloop : batchLoop env limit (fuel + 1)
      { job := job, lastStatusUpdate := env.clock [], events := [] } =
      some ({ job := { job with LastCompletedBlobRef := first.Ref.bytes },
              lastStatusUpdate := env.clock [],
              events := [.fetch job.LastCompletedBlobRef, .reach first,
                .persist { job with LastCompletedBlobRef := first.Ref.bytes } false] },
        some (.db msg)) := by
    rw [batchLoop]
    simp only [hbegin, nextBlobsForJob_static, h, htake, List.length_cons, verifyBatch,
      List.nil_append, hblob]
    rw [if_neg (by omega)]
  have hrun : resumeJobWorkerWith limit env (fuel + 1) job =
      some ({ job := { job with LastCompletedBlobRef := first.Ref.bytes },
              lastStatusUpdate := env.clock [],
              events := [.fetch job.LastCompletedBlobRef, .reach first,
                .persist { job with LastCompletedBlobRef := first.Ref.bytes } false,
                .persist { job with LastCompletedBlobRef := first.Ref.bytes }
                  (env.dbUpdate [.fetch job.LastCompletedBlobRef, .reach first,
                    .persist { job with LastCompletedBlobRef := first.Ref.bytes }
                      false]).isNone] },
        some (.db msg)) := by
    rw [resumeJobWorkerWith, hloop]
    rfl
  exact ⟨_, hrun, rfl, rfl, rfl⟩

/-- C19, against the claim: the repository holds 1000 blobs in key order, all on the volume of
the job and all at or after its cursor, and does not change; the first batch is full and its
last blob is blob 999. The status update that falls due at the first blob fails, and the worker
returns that error in its first batch: the boundary blob 999 is not reached at all in this run,
nothing is scrubbed and `BytesScanned` stays 0. -/
theorem resumeJobWorker_stopped_before_boundary :
    (failingDbEnv thousandBlobs).beginTx = (fun _ => .ok thousandBlobs) ∧
    thousandBlobs.Pairwise (fun a b => a.Ref.bytes < b.Ref.bytes) ∧
    eachFrom thousandBlobs (newJob "job1" 1).LastCompletedBlobRef =
      (List.range' 0 999).map numberedBlob ++ [numberedBlob 999] ∧
    ((List.range' 0 999).map numberedBlob).length + 1 = batchLimit ∧
    nextBlobsForJob (.ok thousandBlobs) (newJob "job1" 1).LastCompletedBlobRef batchLimit =
      .ok ((List.range' 0 999).map numberedBlob ++ [numberedBlob 999]) ∧
    (newJob "job1" 1).VolumeId ∈ (numberedBlob 999).Volumes ∧
    (resumeJobWorker (failingDbEnv thousandBlobs) 1001 (newJob "job1" 1)).map
        (fun out => (out.2, reachedBlobs out.1.events,
          (reachedBlobs out.1.events).count (numberedBlob 999),
          scrubbedBlobs out.1.events, out.1.job.BytesScanned)) =
      some (some (.db "disk full"), [numberedBlob 0], 0, [], 0) := by
  have hcursor : (newJob "job1" 1).LastCompletedBlobRef = [] := rfl
  have hat : eachFrom thousandBlobs (newJob "job1" 1).LastCompletedBlobRef =
      (List.range' 0 999).map numberedBlob ++ [numberedBlob 999] := by
    rw [hcursor, eachFrom_nil]
    exact thousandBlobs_split
  have hlen : ((List.range' 0 999).map numberedBlob).length + 1 = batchLimit := by
    rw [List.length_map, List.length_range']
    rfl
  refine ⟨rfl, thousandBlobs_sorted, hat, hlen, ?_, by decide, ?_⟩
  · rw [nextBlobsForJob_static, hat, take_before_boundary _ _ [] batchLimit hlen]
  · obtain ⟨st, hrun, hreached, hscrubbed, hjob⟩ :=
      resumeJobWorkerWith_first_update_fails batchLimit (failingDbEnv thousandBlobs)
        thousandBlobs 1000 (newJob "job1" 1) (numberedBlob 0)
        ((List.range' 1 999).map numberedBlob) "disk full" rfl
        (by rw [hcursor, eachFrom_nil]; exact thousandBlobs_cons) (by decide) rfl
    rw [resumeJobWorker, hrun, Option.map_some', hreached, hscrubbed, hjob]
    rfl

/-- C19, amended: the worker of the source is the worker with batches of 1000 blobs; the
statement holds for every batch size from two on. The repository does not change and holds, in
key order, at least a full batch of blobs at or after the cursor of the job: `before`, then
`boundary`, the last blob of the first batch, then `after`. The first batch is full and ends
with `boundary`, and a fetch from `boundary` begins with `boundary` again. The worker ends: one
turn more than there are blob records is enough, and more turns change nothing. A run that
gets past the first batch fetches its second batch from `boundary`, reaches the blob twice in a
row and not again. A run that does not get past the first batch was stopped in it, by the
length of the report, by an error of the database or by the cancellation signal seen after a
status update, and has reached `boundary` at most once. A run that completes the job gets past
the first batch, has scrubbed each blob on the volume of the job as often as it reached it, so
`boundary` twice when it is on that volume, and has added `SizeOnDisk` to `BytesScanned` once
for each scrub. -/
theorem resumeJobWorkerWith_reaches_boundary_twice (env : WorkerEnv) (limit : Nat)
    (records : List Blob) (job : IntegrityVerificationJob)
    (before : List Blob) (boundary : Blob) (after : List Blob)
    (hstatic : ∀ events, env.beginTx events = .ok records)
    (hsorted : records.Pairwise (fun a b => a.Ref.bytes < b.Ref.bytes))
    (hlimit : 2 ≤ limit)
    (hat : eachFrom records job.LastCompletedBlobRef = before ++ boundary :: after)
    (hbefore : before.length + 1 = limit) :
    (∀ (e : WorkerEnv) (n : Nat) (j : IntegrityVerificationJob),
      resumeJobWorker e n j = resumeJobWorkerWith 1000 e n j) ∧
    nextBlobsForJob (env.beginTx []) job.LastCompletedBlobRef limit =
      .ok (before ++ [boundary]) ∧
    (∀ events, nextBlobsForJob (env.beginTx events) boundary.Ref.bytes limit =
      .ok (boundary :: after.take (limit - 1))) ∧
    (∃ out, ∀ fuel, records.length + 1 ≤ fuel →
      resumeJobWorkerWith limit env fuel job = some out) ∧
    (∀ (fuel : Nat) (st : WorkerState) (returned : Option ScrubError),
      resumeJobWorkerWith limit env fuel job = some (st, returned) →
      (limit < (reachedBlobs st.events).length →
        (∃ rest more, reachedBlobs st.events = before ++ boundary :: boundary :: rest ∧
          fetchedCursors st.events =
            job.LastCompletedBlobRef :: boundary.Ref.bytes :: more) ∧
        (reachedBlobs st.events).count boundary = 2) ∧
      ((reachedBlobs st.events).length ≤ limit →
        reachedBlobs st.events <+: before ++ [boundary] ∧
        (reachedBlobs st.events).count boundary ≤ 1 ∧
        fetchedCursors st.events = [job.LastCompletedBlobRef] ∧
        (returned = some .maximumErrorsDetected ∨ (∃ msg, returned = some (.db msg)) ∨
          (returned = none ∧ WorkerEvent.poll true ∈ st.events))) ∧
      (returned = none → WorkerEvent.poll true ∉ st.events →
        limit < (reachedBlobs st.events).length ∧
        scrubbedBlobs st.events =
          (reachedBlobs st.events).filter (fun blob => decide (job.VolumeId ∈ blob.Volumes)) ∧
        (job.VolumeId ∈ boundary.Volumes → (scrubbedBlobs st.events).count boundary = 2) ∧
        st.job.BytesScanned =
          (scrubbedBlobs st.events).foldl addScanned job.BytesScanned)) := by
  have hpair := eachFrom_pairwise records hsorted job.LastCompletedBlobRef
  rw [hat, List.pairwise_append] at hpair
  have hnotbefore : boundary ∉ before := fun hmem =>
    lt_irrefl _ (hpair.2.2 boundary hmem boundary (List.mem_cons_self _ _))
  have hstart := settled_start job (env.clock [])
  refine ⟨fun _ _ _ => rfl, ?_, ?_, ?_, ?_⟩
  · rw [hstatic, nextBlobsForJob_static, hat, take_before_boundary before boundary after limit
      hbefore]
  · intro events
    rw [hstatic, nextBlobsForJob_static,
      eachFrom_at_blob records hsorted _ before boundary after hat]
    have hmax : max limit 1 = (limit - 1) + 1 := by omega
    rw [hmax, List.take_succ_cons]
  · have hlen : (eachFrom records job.LastCompletedBlobRef).length < records.length + 1 :=
      Nat.lt_succ_of_le (List.dropWhile_sublist _).length_le
    obtain ⟨out, hout⟩ := batchLoop_terminates env limit job records hstatic hsorted
      hlimit (records.length + 1)
      { job := job, lastStatusUpdate := env.clock [], events := [] } hstart hlen
    refine ⟨({ out.1 with events := out.1.events ++
      [.persist out.1.job (env.dbUpdate out.1.events).isNone] }, out.2), ?_⟩
    intro fuel hfuel
    obtain ⟨more, rfl⟩ := Nat.exists_eq_add_of_le hfuel
    rw [resumeJobWorkerWith, batchLoop_fuel_mono env limit _ _ out hout more]
  · intro fuel st returned hrun
    obtain ⟨st0, hloop, rfl⟩ := resumeJobWorkerWith_loop limit env fuel job st returned hrun
    obtain ⟨hexit, _⟩ := batchLoop_exit env limit job fuel _ _ hstart hloop
    obtain ⟨added, hev, hcases⟩ := batchLoop_boundary env limit job records hstatic hsorted
      hlimit fuel _ _ before boundary after hstart hat hbefore hloop
    simp only [List.nil_append] at hev
    simp only [reachedBlobs_snoc, scrubbedBlobs_snoc, fetchedCursors_append, List.append_nil,
      hev]
    have hfetched : fetchedCursors
        [WorkerEvent.persist st0.job (env.dbUpdate added).isNone] = [] := rfl
    rw [hfetched, List.append_nil]
    -- a run that gets past the first batch
    have hpast : limit < (reachedBlobs added).length →
        (∃ rest more, reachedBlobs added = before ++ boundary :: boundary :: rest ∧
          fetchedCursors added = job.LastCompletedBlobRef :: boundary.Ref.bytes :: more) ∧
        (reachedBlobs added).count boundary = 2 := by
      intro hlen
      rcases hcases with ⟨hpre, _, _⟩ | ⟨rest, more, hreached, hrest, hfetch⟩
      · have := hpre.length_le
        simp only [List.length_append, List.length_singleton] at this
        omega
      · refine ⟨⟨rest, more, hreached, hfetch⟩, ?_⟩
        have hnotrest : boundary ∉ rest := fun hmem => lt_irrefl _ (hrest boundary hmem)
        rw [hreached, List.count_append, List.count_cons_self, List.count_cons_self,
          List.count_eq_zero_of_not_mem hnotbefore, List.count_eq_zero_of_not_mem hnotrest]
    refine ⟨hpast, ?_, ?_⟩
    · intro hshort
      rcases hcases with ⟨hpre, hfetch, hbody⟩ | ⟨rest, more, hreached, _, _⟩
      · refine ⟨hpre, ?_, hfetch, ?_⟩
        · have hcount := hpre.sublist.count_le boundary
          rw [List.count_append, List.count_eq_zero_of_not_mem hnotbefore,
            List.count_singleton_self] at hcount
          exact hcount
        · rcases hbody with ⟨h1, _⟩ | ⟨h1, _⟩ | ⟨h1, _, pre, hpoll, _⟩
          · exact Or.inl h1
          · exact Or.inr (Or.inl h1)
          · refine Or.inr (Or.inr ⟨h1, ?_⟩)
            have hmem : WorkerEvent.poll true ∈ st0.events := by
              rw [hpoll]
              exact List.mem_append_right _
                (List.mem_cons_of_mem _ (List.mem_singleton_self _))
            rw [← hev]
            exact List.mem_append_left _ hmem
      · rw [hreached] at hshort
        simp only [List.length_append, List.length_cons] at hshort
        omega
    · intro hret hpoll
      subst hret
      have hpoll0 : WorkerEvent.poll true ∉ st0.events := by
        intro hmem
        apply hpoll
        rw [← hev]
        exact List.mem_append_left _ hmem
      have hlen : limit < (reachedBlobs added).length := by
        rcases hcases with ⟨_, _, hbody⟩ | ⟨rest, more, hreached, _, _⟩
        · exact absurd (bodyReturn_none_poll job st0 hbody) hpoll0
        · rw [hreached]
          simp only [List.length_append, List.length_cons]
          omega
      rcases hexit with hbody | ⟨_, st1, hsettled, hcomplete⟩
      · exact absurd (bodyReturn_none_poll job st0 hbody) hpoll0
      · have hc : st0 = completeJob env st1 := hcomplete
        have hev1 : st1.events = added := by
          rw [← hev, hc]
          rfl
        have hscrubbed := hsettled.2.2
        rw [hev1] at hscrubbed
        refine ⟨hlen, hscrubbed, ?_, ?_⟩
        · intro hvol
          rw [hscrubbed, List.count_filter (by simpa using hvol)]
          exact (hpast hlen).2
        · have := hsettled.1.2.2.2.2.2.1
          rw [hev1] at this
          rw [hc]
          exact this

set_option maxRecDepth 100000 in
theorem resumeJobWorkerWith_reaches_boundary_twice_witness :
    (resumeJobWorkerWith 2 (stillEnv threeBlobs false cleanScrub) 3 (newJob "job1" 1)).map
        (fun out => (out.2, (reachedBlobs out.1.events).map (fun blob => blob.SizeOnDisk),
          (scrubbedBlobs out.1.events).map (fun blob => blob.SizeOnDisk),
          out.1.job.BytesScanned)) =
      some (none, [10, 20, 20, 30, 30], [10, 20, 20], 50) ∧
    ∃ st, resumeJobWorkerWith 2 (stillEnv threeBlobs false cleanScrub) 3 (newJob "job1" 1) =
        some (st, none) ∧
      (scrubbedBlobs st.events).count (sampleBlob 2 [1] 20) = 2 :=
  ⟨rfl,
    (resumeJobWorkerWith 2 (stillEnv threeBlobs false cleanScrub) 3 (newJob "job1" 1)).get rfl
      |>.1, rfl,
    (((resumeJobWorkerWith_reaches_boundary_twice (stillEnv threeBlobs false cleanScrub) 2
      threeBlobs (newJob "job1" 1) [sampleBlob 1 [1] 10] (sampleBlob 2 [1] 20)
      [sampleBlob 3 [2] 30] (fun _ => rfl) (by decide) (by decide) rfl rfl).2.2.2.2 3 _ none
      rfl).2.2 rfl (by decide)).2.2.1 (by decide)⟩

end Varasto
